import Mathlib

/-! # Singly-linked list and FIFO queue over an injected allocator

A shallow embedding of `linked_list.c` and `queue.c`.

* Pointers are natural numbers, `NULL` is `0`.
* Memory is a family of typed object stores (one per struct type); a pointer
  is valid for a type when the store of that type has an object at it.
* Every function returns a `Res`: a value, `ub` when the C code would
  dereference an invalid pointer (or call a NULL function pointer, or free an
  invalid pointer), or `timeout` when a loop budget is exhausted.
* `size_t` arithmetic that can wrap is written with an explicit `% 2 ^ 64`.
* The value returned by a call of `malloc_fptr` is an explicit argument of the
  function that performs the call (`NULL` when the allocation fails).
-/

namespace Level2

/-! ## Data model -/

/-- Machine addresses. -/
abbrev Ptr := Nat

/-- The null pointer. -/
abbrev NULL : Ptr := 0

/-- Number of values of `size_t` (64-bit target). -/
abbrev SIZE_MOD : Nat := 2 ^ 64

/-- Largest `size_t`, the sentinel returned by size/find on failure. -/
abbrev SIZE_MAX : Nat := 2 ^ 64 - 1

/-- The `struct node` of linked_list.h. -/
structure node where
  next : Ptr
  data : Nat
deriving DecidableEq

/-- The `struct linked_list` of linked_list.h. -/
structure linked_list where
  head : Ptr
  tail : Ptr
  size : Nat
deriving DecidableEq

/-- The `struct iterator` of linked_list.h. -/
structure iterator where
  ll : Ptr
  current_node : Ptr
  current_index : Nat
  data : Nat
deriving DecidableEq

/-- The `struct queue`, as used by queue.c (fields `ll` and `head_data`). -/
structure queue where
  ll : Ptr
  head_data : Nat
deriving DecidableEq

/-- The two static function pointers of a translation unit
(`malloc_fptr`, `free_fptr`); `NULL` while unregistered. -/
structure Registry where
  malloc_fptr : Ptr
  free_fptr : Ptr
deriving DecidableEq

/-- Memory: the live objects of each struct type, and the log of the pointers
handed to the registered free function (oldest first). -/
structure Mem where
  nodes : Ptr → Option node
  lists : Ptr → Option linked_list
  iters : Ptr → Option iterator
  queues : Ptr → Option queue
  freed : List Ptr

/-- Result of running a C function. -/
inductive Res (α : Type) where
  | ok : α → Res α
  | ub : Res α
  | timeout : Res α

/-- Sequencing of results. -/
def Res.bind {α β : Type} (x : Res α) (f : α → Res β) : Res β :=
  match x with
  | .ok a => f a
  | .ub => .ub
  | .timeout => .timeout

instance : Monad Res where
  pure := Res.ok
  bind := Res.bind

/-- Read `*p` for a `struct iterator *p`. -/
def Mem.iter_at (m : Mem) (p : Ptr) : Res iterator :=
  if p = NULL then .ub else
    match m.iters p with
    | some i => .ok i
    | none => .ub

/-- Pointwise update of an object store. -/
def upd {α : Type} (f : Ptr → Option α) (p : Ptr) (v : Option α) : Ptr → Option α :=
  fun q => if q = p then v else f q

/-- Memory without any live object. -/
def Mem.empty : Mem := ⟨fun _ => none, fun _ => none, fun _ => none, fun _ => none, []⟩

/-- Read `*p` for a `struct node *p`. -/
def Mem.node_at (m : Mem) (p : Ptr) : Res node :=
  if p = NULL then .ub else
    match m.nodes p with
    | some n => .ok n
    | none => .ub

/-- Read `*p` for a `struct linked_list *p`. -/
def Mem.list_at (m : Mem) (p : Ptr) : Res linked_list :=
  if p = NULL then .ub else
    match m.lists p with
    | some l => .ok l
    | none => .ub

/-- Read `*p` for a `struct queue *p`. -/
def Mem.queue_at (m : Mem) (p : Ptr) : Res queue :=
  if p = NULL then .ub else
    match m.queues p with
    | some q => .ok q
    | none => .ub

/-- Store a node object at `p`. -/
def Mem.set_node (m : Mem) (p : Ptr) (n : node) : Mem :=
  { m with nodes := upd m.nodes p (some n) }

/-- Store a list object at `p`. -/
def Mem.set_list (m : Mem) (p : Ptr) (l : linked_list) : Mem :=
  { m with lists := upd m.lists p (some l) }

/-- Store an iterator object at `p`. -/
def Mem.set_iter (m : Mem) (p : Ptr) (i : iterator) : Mem :=
  { m with iters := upd m.iters p (some i) }

/-- Store a queue object at `p`. -/
def Mem.set_queue (m : Mem) (p : Ptr) (q : queue) : Mem :=
  { m with queues := upd m.queues p (some q) }

/-- Call `free_fptr(p)` on a node pointer: a free()-like function accepts NULL
(no effect) and a live object (which dies); anything else is undefined. -/
def Mem.free_node (m : Mem) (p : Ptr) : Res Mem :=
  if p = NULL then .ok { m with freed := m.freed ++ [p] } else
    match m.nodes p with
    | some _ => .ok { m with nodes := upd m.nodes p none, freed := m.freed ++ [p] }
    | none => .ub

/-- Call `free_fptr(p)` on a list pointer. -/
def Mem.free_list (m : Mem) (p : Ptr) : Res Mem :=
  if p = NULL then .ok { m with freed := m.freed ++ [p] } else
    match m.lists p with
    | some _ => .ok { m with lists := upd m.lists p none, freed := m.freed ++ [p] }
    | none => .ub

/-- Call `free_fptr(p)` on an iterator pointer. -/
def Mem.free_iter (m : Mem) (p : Ptr) : Res Mem :=
  if p = NULL then .ok { m with freed := m.freed ++ [p] } else
    match m.iters p with
    | some _ => .ok { m with iters := upd m.iters p none, freed := m.freed ++ [p] }
    | none => .ub

/-- Call `free_fptr(p)` on a queue pointer. -/
def Mem.free_queue (m : Mem) (p : Ptr) : Res Mem :=
  if p = NULL then .ok { m with freed := m.freed ++ [p] } else
    match m.queues p with
    | some _ => .ok { m with queues := upd m.queues p none, freed := m.freed ++ [p] }
    | none => .ub

/-- Contents of a stack iterator before it is populated (never read). -/
def uninit_iterator : iterator := ⟨NULL, NULL, 0, 0⟩

/-! ## linked_list.c -/

/-- Embeds `linked_list_create`; `a` is what `malloc_fptr` returns if called. -/
def linked_list_create (R : Registry) (a : Ptr) (m : Mem) : Res (Ptr × Mem) :=
  if R.malloc_fptr = NULL then .ok (NULL, m) else
    let ll := a
    if ll = NULL then .ok (NULL, m) else
      -- ll->head = NULL; ll->tail = NULL; ll->size = 0;
      .ok (ll, m.set_list ll ⟨NULL, NULL, 0⟩)

/-- The loop of `linked_list_delete`:
`while (curr != NULL) { next = curr->next; free_fptr(curr); curr = next; }`. -/
def delete_loop : Nat → Mem → Ptr → Res Mem
  | 0, _, _ => .timeout
  | fuel + 1, m, curr =>
    if curr = NULL then .ok m else do
      let n ← m.node_at curr
      let m1 ← m.free_node curr
      delete_loop fuel m1 n.next

/-- Embeds `linked_list_delete`, with a budget for its loop. -/
def linked_list_delete (fuel : Nat) (R : Registry) (m : Mem) (ll : Ptr) : Res (Bool × Mem) :=
  if ll = NULL ∨ R.free_fptr = NULL then .ok (false, m) else do
    let L ← m.list_at ll
    let m1 ← delete_loop fuel m L.head
    let m2 ← m1.free_list ll
    pure (true, m2)

/-- Embeds `linked_list_size`. -/
def linked_list_size (m : Mem) (ll : Ptr) : Res Nat :=
  if ll = NULL then .ok SIZE_MAX else do
    let L ← m.list_at ll
    pure L.size

/-- Embeds `linked_list_insert_end`; `a` is what `malloc_fptr` returns if called. -/
def linked_list_insert_end (R : Registry) (a : Ptr) (m : Mem) (ll : Ptr) (data : Nat) :
    Res (Bool × Mem) :=
  if ll = NULL ∨ R.malloc_fptr = NULL then .ok (false, m) else
    let new_node := a
    if new_node = NULL then .ok (false, m) else do
      -- new_node->data = data; new_node->next = NULL;
      let m1 := m.set_node new_node ⟨NULL, data⟩
      let L ← m1.list_at ll
      if L.tail = NULL then
        -- ll->tail = new_node; ll->head = new_node; ll->size++;
        pure (true, m1.set_list ll ⟨new_node, new_node, (L.size + 1) % SIZE_MOD⟩)
      else do
        -- ll->tail->next = new_node; ll->tail = new_node; ll->size++;
        let t ← m1.node_at L.tail
        let m2 := m1.set_node L.tail ⟨new_node, t.data⟩
        pure (true, m2.set_list ll ⟨L.head, new_node, (L.size + 1) % SIZE_MOD⟩)

/-- Embeds `linked_list_insert_front`; `a` is what `malloc_fptr` returns if called. -/
def linked_list_insert_front (R : Registry) (a : Ptr) (m : Mem) (ll : Ptr) (data : Nat) :
    Res (Bool × Mem) :=
  if ll = NULL ∨ R.malloc_fptr = NULL then .ok (false, m) else
    let new_node := a
    if new_node = NULL then .ok (false, m) else do
      -- new_node->data = data; new_node->next = NULL;
      let m1 := m.set_node new_node ⟨NULL, data⟩
      let L ← m1.list_at ll
      if L.head = NULL then
        -- ll->tail = new_node; ll->head = new_node; ll->size++;
        pure (true, m1.set_list ll ⟨new_node, new_node, (L.size + 1) % SIZE_MOD⟩)
      else
        -- new_node->next = ll->head; ll->head = new_node; ll->size++;
        let m2 := m1.set_node new_node ⟨L.head, data⟩
        pure (true, m2.set_list ll ⟨new_node, L.tail, (L.size + 1) % SIZE_MOD⟩)

/-- The traversal loop shared by `linked_list_create_iterator` and
`__linked_list_populate_iterator`:
`while (curr != NULL && curr_idx < index) { curr = curr->next; curr_idx++; }`,
by recursion on `index - curr_idx`. -/
def traverse (m : Mem) : Nat → Ptr → Res Ptr
  | 0, curr => .ok curr
  | k + 1, curr =>
    if curr = NULL then .ok curr else do
      let n ← m.node_at curr
      traverse m k n.next

/-- Embeds `__linked_list_populate_iterator`; `iter` is the pointee of the
caller-owned iterator (`none` for a NULL pointer), returned updated. -/
def __linked_list_populate_iterator (m : Mem) (ll : Ptr) (index : Nat)
    (iter : Option iterator) : Res (Bool × Option iterator) :=
  if iter = none ∨ ll = NULL then .ok (false, iter) else do
    let L ← m.list_at ll
    if index ≥ L.size then pure (false, iter) else do
      let curr ← traverse m index L.head
      -- iterator->data = curr->data
      let c ← m.node_at curr
      pure (true, some ⟨ll, curr, index, c.data⟩)

/-- Embeds `linked_list_create_iterator`; `a` is what `malloc_fptr` returns if
called. The new iterator object lives at the returned pointer. -/
def linked_list_create_iterator (R : Registry) (a : Ptr) (m : Mem) (ll : Ptr) (index : Nat) :
    Res (Ptr × Mem) :=
  if ll = NULL ∨ R.malloc_fptr = NULL ∨ R.free_fptr = NULL then .ok (NULL, m) else do
    let L ← m.list_at ll
    if index ≥ L.size then pure (NULL, m) else
      let iter := a
      if iter = NULL then pure (NULL, m) else do
        let curr ← traverse m index L.head
        -- iterator->data = curr->data
        let c ← m.node_at curr
        pure (iter, m.set_iter iter ⟨ll, curr, index, c.data⟩)

/-- Embeds `linked_list_delete_iterator`. -/
def linked_list_delete_iterator (R : Registry) (m : Mem) (iter : Ptr) : Res (Bool × Mem) :=
  if iter = NULL ∨ R.free_fptr = NULL then .ok (false, m) else do
    let m1 ← m.free_iter iter
    pure (true, m1)

/-- Embeds `linked_list_iterate`; `iter` is the pointee of the iterator (`none`
for a NULL pointer), returned updated. -/
def linked_list_iterate (m : Mem) (iter : Option iterator) : Res (Bool × Option iterator) :=
  match iter with
  | none => .ok (false, none)
  | some it =>
    if it.current_node = NULL then .ok (false, some it) else do
      let n ← m.node_at it.current_node
      if n.next = NULL then pure (false, some it) else do
        -- iter->current_node = iter->current_node->next; iter->current_index++;
        -- iter->data = iter->current_node->data;
        let n1 ← m.node_at n.next
        pure (true, some ⟨it.ll, n.next, (it.current_index + 1) % SIZE_MOD, n1.data⟩)

/-- The loop of `linked_list_insert` and `linked_list_remove`:
`while (linked_list_iterate(&iter) && iter.current_index < index - 1) {}`.
It is only entered with `index ≠ 0`, so `index - 1` does not wrap. -/
def walk_loop (m : Mem) (index : Nat) : Nat → iterator → Res iterator
  | 0, _ => .timeout
  | fuel + 1, iter => do
    let (b, r) ← linked_list_iterate m (some iter)
    let iter1 := r.getD iter
    if b = true ∧ iter1.current_index < index - 1 then walk_loop m index fuel iter1
    else pure iter1

/-- Embeds `linked_list_insert`; `a` is what `malloc_fptr` returns if called.
The loop runs at most `index` times, which is its budget. -/
def linked_list_insert (R : Registry) (a : Ptr) (m : Mem) (ll : Ptr) (index : Nat)
    (data : Nat) : Res (Bool × Mem) :=
  if ll = NULL ∨ R.malloc_fptr = NULL ∨ R.free_fptr = NULL then .ok (false, m) else do
    let L ← m.list_at ll
    if index > L.size then pure (false, m)
    else if index = 0 then linked_list_insert_front R a m ll data
    else if index = L.size then linked_list_insert_end R a m ll data
    else do
      let (b, r) ← __linked_list_populate_iterator m ll 0 (some uninit_iterator)
      if b = false then pure (false, m) else do
        let iter ← walk_loop m index index (r.getD uninit_iterator)
        let curr := iter.current_node
        let new_node := a
        if new_node = NULL then pure (false, m) else do
          -- new_node->data = data; new_node->next = curr->next;
          let c ← m.node_at curr
          let m1 := m.set_node new_node ⟨c.next, data⟩
          -- curr->next = new_node;
          let c1 ← m1.node_at curr
          let m2 := m1.set_node curr ⟨new_node, c1.data⟩
          -- ll->size++;
          let L2 ← m2.list_at ll
          pure (true, m2.set_list ll ⟨L2.head, L2.tail, (L2.size + 1) % SIZE_MOD⟩)

/-- The loop of `linked_list_find`:
`while (linked_list_iterate(&iter)) { if (iter.data == data) return iter.current_index; }`
followed by `return SIZE_MAX`. -/
def find_loop (m : Mem) (data : Nat) : Nat → iterator → Res Nat
  | 0, _ => .timeout
  | fuel + 1, iter => do
    let (b, r) ← linked_list_iterate m (some iter)
    let iter1 := r.getD iter
    if b = true then
      if iter1.data = data then pure iter1.current_index else find_loop m data fuel iter1
    else pure SIZE_MAX

/-- Embeds `linked_list_find`, with a budget for its loop. -/
def linked_list_find (fuel : Nat) (m : Mem) (ll : Ptr) (data : Nat) : Res Nat :=
  if ll = NULL then .ok SIZE_MAX else do
    let (b, r) ← __linked_list_populate_iterator m ll 0 (some uninit_iterator)
    if b = false then pure SIZE_MAX else
      let iter := r.getD uninit_iterator
      if iter.data = data then pure iter.current_index
      else find_loop m data fuel iter

/-- Embeds `linked_list_remove`. The loop runs at most `index` times, which is
its budget; `size--` is reached only with `index < size`, so it does not wrap. -/
def linked_list_remove (R : Registry) (m : Mem) (ll : Ptr) (index : Nat) : Res (Bool × Mem) :=
  if ll = NULL ∨ R.free_fptr = NULL then .ok (false, m) else do
    let L ← m.list_at ll
    if index ≥ L.size then pure (false, m)
    else if index = 0 then
      let curr := L.head
      if L.size = 1 then do
        -- free_fptr(curr); ll->head = NULL; ll->tail = NULL; ll->size--;
        let m1 ← m.free_node curr
        pure (true, m1.set_list ll ⟨NULL, NULL, L.size - 1⟩)
      else do
        -- ll->head = ll->head->next; free_fptr(curr); ll->size--;
        let h ← m.node_at L.head
        let m1 := m.set_list ll ⟨h.next, L.tail, L.size⟩
        let m2 ← m1.free_node curr
        pure (true, m2.set_list ll ⟨h.next, L.tail, L.size - 1⟩)
    else do
      let (b, r) ← __linked_list_populate_iterator m ll 0 (some uninit_iterator)
      if b = false then pure (false, m) else do
        let iter ← walk_loop m index index (r.getD uninit_iterator)
        let curr := iter.current_node
        -- toBeDeteled = curr->next
        let c ← m.node_at curr
        let toBeDeteled := c.next
        if toBeDeteled = L.tail then do
          -- ll->tail = curr; ll->tail->next = NULL;
          let m1 := (m.set_list ll ⟨L.head, curr, L.size⟩).set_node curr ⟨NULL, c.data⟩
          let m2 ← m1.free_node toBeDeteled
          pure (true, m2.set_list ll ⟨L.head, curr, L.size - 1⟩)
        else do
          -- curr->next = toBeDeteled->next;
          let d ← m.node_at toBeDeteled
          let m1 := m.set_node curr ⟨d.next, c.data⟩
          let m2 ← m1.free_node toBeDeteled
          pure (true, m2.set_list ll ⟨L.head, L.tail, L.size - 1⟩)

/-- Embeds `linked_list_register_malloc`: returns the flag and the new registry. -/
def linked_list_register_malloc (R : Registry) (malloc : Ptr) : Bool × Registry :=
  if malloc = NULL then (false, R) else (true, { R with malloc_fptr := malloc })

/-- Embeds `linked_list_register_free`: returns the flag and the new registry. -/
def linked_list_register_free (R : Registry) (free : Ptr) : Bool × Registry :=
  if free = NULL then (false, R) else (true, { R with free_fptr := free })

/-! ## queue.c

`QR` is the registry of queue.c, `LR` the registry of linked_list.c. -/

/-- Embeds `queue_create`; `aq` and `al` are what the two `malloc_fptr` calls
(queue struct, inner list struct) return if made, and `garbage` is the
indeterminate initial content of the queue struct. -/
def queue_create (QR LR : Registry) (aq al : Ptr) (garbage : queue) (m : Mem) :
    Res (Ptr × Mem) :=
  if QR.malloc_fptr = NULL then .ok (NULL, m) else
    let queue := aq
    if queue = NULL then .ok (NULL, m) else do
      let m1 := m.set_queue queue garbage
      -- queue->ll = linked_list_create();
      let (l, m2) ← linked_list_create LR al m1
      let q ← m2.queue_at queue
      let m3 := m2.set_queue queue ⟨l, q.head_data⟩
      if l = NULL then
        -- free_fptr(queue); return NULL;
        if QR.free_fptr = NULL then .ub else do
          let m4 ← m3.free_queue queue
          pure (NULL, m4)
      else pure (queue, m3)

/-- Embeds `queue_delete`, with a budget for the loop of `linked_list_delete`. -/
def queue_delete (fuel : Nat) (QR LR : Registry) (m : Mem) (queue : Ptr) : Res (Bool × Mem) :=
  if queue = NULL ∨ QR.free_fptr = NULL then .ok (false, m) else do
    let q ← m.queue_at queue
    let (successful, m1) ← linked_list_delete fuel LR m q.ll
    let m2 ← m1.free_queue queue
    pure (successful, m2)

/-- Embeds `queue_push`; `a` is what `malloc_fptr` returns if called. -/
def queue_push (LR : Registry) (a : Ptr) (m : Mem) (queue : Ptr) (data : Nat) :
    Res (Bool × Mem) :=
  if queue = NULL then .ok (false, m) else do
    let q ← m.queue_at queue
    let (success, m1) ← linked_list_insert_end LR a m q.ll data
    if success = true then do
      -- queue->head_data = queue->ll->head->data;
      let q1 ← m1.queue_at queue
      let L ← m1.list_at q1.ll
      let h ← m1.node_at L.head
      pure (success, m1.set_queue queue ⟨q1.ll, h.data⟩)
    else pure (success, m1)

/-- Embeds `queue_pop`; `popped_data` is the pointee of the output location
(`none` for a NULL pointer), returned updated. -/
def queue_pop (LR : Registry) (m : Mem) (queue : Ptr) (popped_data : Option Nat) :
    Res (Bool × Option Nat × Mem) :=
  if queue = NULL then .ok (false, popped_data, m) else do
    let q ← m.queue_at queue
    if q.ll = NULL then pure (false, popped_data, m) else do
      let L ← m.list_at q.ll
      if L.head = NULL ∨ popped_data = none then pure (false, popped_data, m) else do
        -- *popped_data = queue->head_data;
        let out := some q.head_data
        let (success, m1) ← linked_list_remove LR m q.ll 0
        if success = true then do
          let q1 ← m1.queue_at queue
          let L1 ← m1.list_at q1.ll
          if L1.size > 0 then do
            -- queue->head_data = queue->ll->head->data;
            let h ← m1.node_at L1.head
            pure (success, out, m1.set_queue queue ⟨q1.ll, h.data⟩)
          else pure (success, out, m1)
        else pure (success, out, m1)

/-- Embeds `queue_size`. -/
def queue_size (m : Mem) (queue : Ptr) : Res Nat :=
  if queue = NULL then .ok SIZE_MAX else do
    let q ← m.queue_at queue
    linked_list_size m q.ll

/-- Embeds `queue_has_next`. -/
def queue_has_next (m : Mem) (queue : Ptr) : Res Bool :=
  if queue = NULL then .ok false else do
    let q ← m.queue_at queue
    if q.ll = NULL then pure false else do
      let L ← m.list_at q.ll
      pure (decide (L.size > 0))

/-- Embeds `queue_next`; `popped_data` is the pointee of the output location
(`none` for a NULL pointer), returned updated. -/
def queue_next (m : Mem) (queue : Ptr) (popped_data : Option Nat) :
    Res (Bool × Option Nat) :=
  if queue = NULL then .ok (false, popped_data) else do
    let q ← m.queue_at queue
    if q.ll = NULL then pure (false, popped_data) else do
      let L ← m.list_at q.ll
      if L.size = 0 ∨ popped_data = none then pure (false, popped_data)
      else pure (true, some q.head_data)

/-- Embeds `queue_register_malloc`: returns the flag and the new registries of
queue.c and linked_list.c. -/
def queue_register_malloc (QR LR : Registry) (malloc : Ptr) : Bool × Registry × Registry :=
  if malloc = NULL then (false, QR, LR)
  else (true, { QR with malloc_fptr := malloc }, (linked_list_register_malloc LR malloc).2)

/-- Embeds `queue_register_free`: returns the flag and the new registries of
queue.c and linked_list.c. -/
def queue_register_free (QR LR : Registry) (free : Ptr) : Bool × Registry × Registry :=
  if free = NULL then (false, QR, LR)
  else (true, { QR with free_fptr := free }, (linked_list_register_free LR free).2)

/-! ## Observation and representation -/

/-- Values met when following `next` from `p` until NULL; `none` when a dead
node is met or more than `fuel` nodes are. -/
def read_chain (nodes : Ptr → Option node) : Nat → Ptr → Option (List Nat)
  | 0, p => if p = NULL then some [] else none
  | fuel + 1, p =>
    if p = NULL then some [] else
      match nodes p with
      | some n => (read_chain nodes fuel n.next).map (fun xs => n.data :: xs)
      | none => none

/-- The values of the list at `ll`, read from head, provided the chain from
head ends after exactly `size` nodes. -/
def linked_list_values (m : Mem) (ll : Ptr) : Option (List Nat) :=
  match m.lists ll with
  | some L =>
    match read_chain m.nodes L.size L.head with
    | some xs => if xs.length = L.size then some xs else none
    | none => none
  | none => none

/-- Chain segment: following `next` from `p` visits exactly the cells `cs`
(address and payload, in order), all non-NULL and live, and then reaches `q`. -/
def Seg (nodes : Ptr → Option node) : Ptr → List (Ptr × Nat) → Ptr → Prop
  | p, [], q => p = q
  | p, c :: cs, q => p = c.1 ∧ c.1 ≠ NULL ∧ ∃ nx, nodes c.1 = some ⟨nx, c.2⟩ ∧ Seg nodes nx cs q

/-- The list at `ll` is well formed with cells `cs`: the chain from head is
exactly `cs` and ends in NULL, `size` counts the cells, tail is the last cell
(NULL for the empty list), and every node address fits a pointer. -/
def WellFormed (m : Mem) (ll : Ptr) (cs : List (Ptr × Nat)) : Prop :=
  ll ≠ NULL ∧ ∃ L, m.lists ll = some L ∧ Seg m.nodes L.head cs NULL ∧
    L.size = cs.length ∧ L.tail = (cs.map Prod.fst).getLastD NULL ∧
    ∀ c ∈ cs, c.1 < SIZE_MOD

/-- The list at `ll` is well formed and holds the values `xs`, in order. -/
def Holds (m : Mem) (ll : Ptr) (xs : List Nat) : Prop :=
  ∃ cs, WellFormed m ll cs ∧ cs.map Prod.snd = xs

/-- Nothing lives at `a`. -/
def Unused (m : Mem) (a : Ptr) : Prop :=
  m.nodes a = none ∧ m.lists a = none ∧ m.iters a = none ∧ m.queues a = none

/-- A successful allocation: `malloc_fptr` returned a non-NULL address that
fits a pointer and at which nothing lives. -/
def AllocOk (m : Mem) (a : Ptr) : Prop :=
  a ≠ NULL ∧ a < SIZE_MOD ∧ Unused m a

/-! ## Call sequences -/

/-- The queue at `q` is well formed with cells `cs`: its list is well formed
with these cells, and when there is a first cell the cache holds its value. -/
def QueueOk (m : Mem) (q : Ptr) (cs : List (Ptr × Nat)) : Prop :=
  q ≠ NULL ∧ ∃ Q, m.queues q = some Q ∧ WellFormed m Q.ll cs ∧
    ∀ c, cs.head? = some c → Q.head_data = c.2

/-- A run of successful allocations with no free in between: the addresses
returned are pairwise distinct and each is a successful allocation for the
memory the run starts from. -/
def AllocsOk (m : Mem) (addrs : List Ptr) : Prop :=
  addrs.Nodup ∧ ∀ a ∈ addrs, AllocOk m a

/-- Calls `queue_push(queue, v)` for each `(a, v)` in turn, `a` being what
`malloc_fptr` returns in that call; collects the flags returned. -/
def queue_push_all (LR : Registry) (queue : Ptr) : Mem → List (Ptr × Nat) → Res (List Bool × Mem)
  | m, [] => .ok ([], m)
  | m, (a, v) :: rest => do
    let (b, m1) ← queue_push LR a m queue v
    let (bs, m2) ← queue_push_all LR queue m1 rest
    pure (b :: bs, m2)

/-- Calls `queue_pop(queue, popped_data)` `n` times; collects, for each call,
the flag returned and the content of the output location after it. -/
def queue_pop_n (LR : Registry) (queue : Ptr) :
    Nat → Mem → Option Nat → Res (List (Bool × Option Nat) × Mem)
  | 0, m, _ => .ok ([], m)
  | n + 1, m, popped_data => do
    let (b, out, m1) ← queue_pop LR m queue popped_data
    let (rs, m2) ← queue_pop_n LR queue n m1 out
    pure ((b, out) :: rs, m2)

/-- One call of `linked_list_insert_end` or `linked_list_insert_front`, with
the value inserted and what `malloc_fptr` returns in the call. -/
inductive InsertCall where
  | at_end (v : Nat) (a : Ptr) : InsertCall
  | at_front (v : Nat) (a : Ptr) : InsertCall

/-- The address `malloc_fptr` returns in the call. -/
def InsertCall.addr : InsertCall → Ptr
  | .at_end _ a => a
  | .at_front _ a => a

/-- Runs the call on the list at `ll`. -/
def InsertCall.run (R : Registry) (m : Mem) (ll : Ptr) : InsertCall → Res (Bool × Mem)
  | .at_end v a => linked_list_insert_end R a m ll v
  | .at_front v a => linked_list_insert_front R a m ll v

/-- The effect of the call on a sequence of values: append or prepend. -/
def InsertCall.apply (xs : List Nat) : InsertCall → List Nat
  | .at_end v _ => xs ++ [v]
  | .at_front v _ => v :: xs

/-- Runs the calls in turn on the list at `ll`; collects the flags returned. -/
def run_inserts (R : Registry) (ll : Ptr) : Mem → List InsertCall → Res (List Bool × Mem)
  | m, [] => .ok ([], m)
  | m, c :: rest => do
    let (b, m1) ← c.run R m ll
    let (bs, m2) ← run_inserts R ll m1 rest
    pure (b :: bs, m2)

/-- Calls `linked_list_iterate` `k` times on the same iterator; collects the
flags returned and gives the final pointee. -/
def iterate_calls (m : Mem) : Nat → Option iterator → Res (List Bool × Option iterator)
  | 0, iter => .ok ([], iter)
  | k + 1, iter => do
    let (b, iter1) ← linked_list_iterate m iter
    let (bs, iter2) ← iterate_calls m k iter1
    pure (b :: bs, iter2)

instance (m : Mem) (a : Ptr) : Decidable (Unused m a) := by
  unfold Unused; infer_instance

instance (m : Mem) (a : Ptr) : Decidable (AllocOk m a) := by
  unfold AllocOk; infer_instance

instance (m : Mem) (addrs : List Ptr) : Decidable (AllocsOk m addrs) := by
  unfold AllocsOk; infer_instance

/-! ## Concrete inputs -/

/-- A registry with both function pointers set. -/
def registered : Registry := ⟨4096, 4104⟩

/-- A memory holding, at address 64, the well-formed list `[7, 8, 9]` with
nodes at 8, 16 and 24. -/
def three_mem : Mem :=
  { nodes := upd (upd (upd (fun _ => none) 8 (some ⟨16, 7⟩)) 16 (some ⟨24, 8⟩)) 24 (some ⟨NULL, 9⟩)
    lists := upd (fun _ => none) 64 (some ⟨8, 24, 3⟩)
    iters := fun _ => none
    queues := fun _ => none
    freed := [] }

/-- The cells of the list of `three_mem`. -/
def three_cells : List (Ptr × Nat) := [(8, 7), (16, 8), (24, 9)]

/-- Soundness of the allocator over a run without frees: the addresses it
returns fit a pointer, are pairwise distinct, and are not those of nodes
live when the run starts. -/
def AllocsSound (m : Mem) (addrs : List Ptr) : Prop :=
  addrs.Nodup ∧ ∀ a ∈ addrs, a < SIZE_MOD ∧ m.nodes a = none

instance (m : Mem) (addrs : List Ptr) : Decidable (AllocsSound m addrs) := by
  unfold AllocsSound; infer_instance

/-- The memory reached from the empty memory by creating a list at 64, then
`insert_end(10)` with a node at 8 and `insert_front(5)` with a node at 16. -/
def two_inserts_mem : Mem :=
  (((((Mem.empty.set_list 64 ⟨NULL, NULL, 0⟩).set_node 8 ⟨NULL, 10⟩).set_list 64
    ⟨8, 8, 1⟩).set_node 16 ⟨NULL, 5⟩).set_node 16 ⟨8, 5⟩).set_list 64 ⟨16, 8, 2⟩

/-- The first invariant of the data model on a list struct:
`size == 0 ⇔ head == null ⇔ tail == null`. -/
def EmptyIff (L : linked_list) : Prop :=
  (L.size = 0 ↔ L.head = NULL) ∧ (L.head = NULL ↔ L.tail = NULL)

instance (L : linked_list) : Decidable (EmptyIff L) := by
  unfold EmptyIff; infer_instance

/-- States of the queue at `q` reachable from `queue_create` by calls of
`queue_push`, `queue_pop` and `queue_next`, successful or not, together with
the values the queue holds, oldest first: a push that returns true adds its
value at the end, a pop that returns true drops the first value. In a push the
allocator returns NULL or a successful allocation. -/
inductive QueueReach (QR LR : Registry) (q : Ptr) : Mem → List Nat → Prop where
  | create (m0 m : Mem) (aq al : Ptr) (garbage : queue) :
      queue_create QR LR aq al garbage m0 = .ok (q, m) → q ≠ NULL →
      QueueReach QR LR q m []
  | push (m m1 : Mem) (vs : List Nat) (a : Ptr) (v : Nat) (b : Bool) :
      QueueReach QR LR q m vs → (a = NULL ∨ AllocOk m a) →
      queue_push LR a m q v = .ok (b, m1) →
      QueueReach QR LR q m1 (if b = true then vs ++ [v] else vs)
  | pop (m m1 : Mem) (vs : List Nat) (o o1 : Option Nat) (b : Bool) :
      QueueReach QR LR q m vs →
      queue_pop LR m q o = .ok (b, o1, m1) →
      QueueReach QR LR q m1 (if b = true then vs.tail else vs)
  | next (m : Mem) (vs : List Nat) (o o1 : Option Nat) (b : Bool) :
      QueueReach QR LR q m vs →
      queue_next m q o = .ok (b, o1) →
      QueueReach QR LR q m vs

/-- A registry with only the allocate function set. -/
def malloc_only : Registry := ⟨4096, NULL⟩

/-- The memory reached from the empty memory by `queue_create` with the queue
struct at 64 and its list at 96. -/
def created_queue_mem : Mem :=
  ((Mem.empty.set_queue 64 ⟨0, 0⟩).set_list 96 ⟨NULL, NULL, 0⟩).set_queue 64 ⟨96, 0⟩

/-- The memory reached from `created_queue_mem` by `queue_push(11)` with the
node at 8. -/
def one_push_mem : Mem :=
  ((created_queue_mem.set_node 8 ⟨NULL, 11⟩).set_list 96 ⟨8, 8, 1⟩).set_queue 64 ⟨96, 11⟩

/-- The iterator can be used: its current node, when not NULL, is live, and
so is that node's successor when not NULL. -/
def IterValid (m : Mem) (it : iterator) : Prop :=
  it.current_node ≠ NULL →
    ∃ n, m.nodes it.current_node = some n ∧ (n.next ≠ NULL → ∃ n1, m.nodes n.next = some n1)

/-! ## Lists built by the functions -/

/-- The live nodes at non-NULL, pointer-sized addresses. -/
def live_nodes (nodes : Ptr → Option node) : Finset Nat :=
  (Finset.Ico 1 SIZE_MOD).filter (fun p => (nodes p).isSome = true)

/-- States of the list at `ll` reachable from `linked_list_create` by calls of
`linked_list_insert_end`, `linked_list_insert_front`, `linked_list_insert` and
`linked_list_remove` that return, successful or not, each under whatever
registry is in force at the time. In an inserting call the allocator returns
NULL or a successful allocation, which may reuse the address of a node freed
before. Between these calls the memory may change in any way that leaves the
nodes and the list struct alone (iterators created and deleted, the cache of
an enclosing queue updated). -/
inductive ListReach (ll : Ptr) : Mem → Prop where
  | create (R : Registry) (m0 m : Mem) (al : Ptr) :
      linked_list_create R al m0 = .ok (ll, m) → ll ≠ NULL → ListReach ll m
  | insert_end (R : Registry) (m m1 : Mem) (a : Ptr) (v : Nat) (b : Bool) :
      ListReach ll m → (a = NULL ∨ AllocOk m a) →
      linked_list_insert_end R a m ll v = .ok (b, m1) → ListReach ll m1
  | insert_front (R : Registry) (m m1 : Mem) (a : Ptr) (v : Nat) (b : Bool) :
      ListReach ll m → (a = NULL ∨ AllocOk m a) →
      linked_list_insert_front R a m ll v = .ok (b, m1) → ListReach ll m1
  | insert (R : Registry) (m m1 : Mem) (a : Ptr) (index v : Nat) (b : Bool) :
      ListReach ll m → (a = NULL ∨ AllocOk m a) →
      linked_list_insert R a m ll index v = .ok (b, m1) → ListReach ll m1
  | remove (R : Registry) (m m1 : Mem) (index : Nat) (b : Bool) :
      ListReach ll m →
      linked_list_remove R m ll index = .ok (b, m1) → ListReach ll m1
  | other (m m1 : Mem) :
      ListReach ll m → m1.nodes = m.nodes → m1.lists ll = m.lists ll → ListReach ll m1

/-- What every reachable list satisfies: the list struct is live, the chain
from head is a NULL-terminated chain of live nodes at pointer-sized addresses,
`size` does not exceed the number of live nodes, and head and tail are NULL
when `size` is 0. Neither `size` nor `tail` need agree with the chain. -/
def ReachInv (m : Mem) (ll : Ptr) : Prop :=
  ll ≠ NULL ∧ ∃ L cs, m.lists ll = some L ∧ Seg m.nodes L.head cs NULL ∧
    (∀ c ∈ cs, c.1 < SIZE_MOD) ∧ L.size ≤ (live_nodes m.nodes).card ∧
    (L.size = 0 → L.head = NULL ∧ L.tail = NULL)

/-- The memory reached from the empty memory by creating a list at 64, then
`insert_end(1)` with a node at 8, `insert_end(2)` with a node at 16 and
`linked_list_insert(ll, 1, 99)` with a node at 24: the chain is 8, 16, 24 but
the tail is still the node at 16. -/
def stale_tail_mem : Mem :=
  ((((((((Mem.empty.set_list 64 ⟨NULL, NULL, 0⟩).set_node 8 ⟨NULL, 1⟩).set_list 64
    ⟨8, 8, 1⟩).set_node 16 ⟨NULL, 2⟩).set_node 8 ⟨16, 1⟩).set_list 64
    ⟨8, 16, 2⟩).set_node 24 ⟨NULL, 99⟩).set_node 16 ⟨24, 2⟩).set_list 64 ⟨8, 16, 3⟩

/-! ## Basic facts -/

section basics

variable {α β : Type}

@[simp] theorem Res.ok_bind (a : α) (f : α → Res β) : (Res.ok a >>= f) = f a := rfl

@[simp] theorem Res.ub_bind (f : α → Res β) : ((Res.ub : Res α) >>= f) = Res.ub := rfl

@[simp] theorem Res.timeout_bind (f : α → Res β) :
    ((Res.timeout : Res α) >>= f) = Res.timeout := rfl

@[simp] theorem Res.pure_eq (a : α) : (pure a : Res α) = Res.ok a := rfl

@[simp] theorem upd_same (f : Ptr → Option α) (p : Ptr) (v : Option α) : upd f p v p = v := by
  simp [upd]

theorem upd_other (f : Ptr → Option α) {p q : Ptr} (v : Option α) (h : q ≠ p) :
    upd f p v q = f q := by
  simp [upd, h]

theorem node_at_of_live {m : Mem} {p : Ptr} {n : node} (hp : p ≠ NULL)
    (h : m.nodes p = some n) : m.node_at p = Res.ok n := by
  simp [Mem.node_at, hp, h]

theorem list_at_of_live {m : Mem} {p : Ptr} {l : linked_list} (hp : p ≠ NULL)
    (h : m.lists p = some l) : m.list_at p = Res.ok l := by
  simp [Mem.list_at, hp, h]

theorem queue_at_of_live {m : Mem} {p : Ptr} {q : queue} (hp : p ≠ NULL)
    (h : m.queues p = some q) : m.queue_at p = Res.ok q := by
  simp [Mem.queue_at, hp, h]

end basics

/-! ## Chain segments -/

@[simp] theorem seg_nil (nodes : Ptr → Option node) (p q : Ptr) :
    Seg nodes p [] q ↔ p = q := Iff.rfl

theorem seg_cons (nodes : Ptr → Option node) (p q : Ptr) (c : Ptr × Nat)
    (cs : List (Ptr × Nat)) :
    Seg nodes p (c :: cs) q ↔
      p = c.1 ∧ c.1 ≠ NULL ∧ ∃ nx, nodes c.1 = some ⟨nx, c.2⟩ ∧ Seg nodes nx cs q := Iff.rfl

/-- A segment only depends on the nodes it visits. -/
theorem seg_frame {nodes nodes1 : Ptr → Option node} :
    ∀ (cs : List (Ptr × Nat)) (p q : Ptr),
      (∀ c ∈ cs, nodes1 c.1 = nodes c.1) → Seg nodes p cs q → Seg nodes1 p cs q
  | [], _, _, _, h => h
  | c :: cs, p, q, hf, h => by
    obtain ⟨h1, h2, nx, h3, h4⟩ := h
    refine ⟨h1, h2, nx, ?_, ?_⟩
    · rw [hf c (List.mem_cons_self _ _)]; exact h3
    · exact seg_frame cs nx q (fun d hd => hf d (List.mem_cons_of_mem _ hd)) h4

/-- Splitting and joining segments. -/
theorem seg_append {nodes : Ptr → Option node} :
    ∀ (cs ds : List (Ptr × Nat)) (p q : Ptr),
      Seg nodes p (cs ++ ds) q ↔ ∃ r, Seg nodes p cs r ∧ Seg nodes r ds q
  | [], ds, p, q => by
    constructor
    · intro h; exact ⟨p, rfl, h⟩
    · rintro ⟨r, h1, h2⟩
      have : p = r := h1
      subst this; exact h2
  | c :: cs, ds, p, q => by
    constructor
    · rintro ⟨h1, h2, nx, h3, h4⟩
      obtain ⟨r, h5, h6⟩ := (seg_append cs ds nx q).1 h4
      exact ⟨r, ⟨h1, h2, nx, h3, h5⟩, h6⟩
    · rintro ⟨r, ⟨h1, h2, nx, h3, h5⟩, h6⟩
      exact ⟨h1, h2, nx, h3, (seg_append cs ds nx q).2 ⟨r, h5, h6⟩⟩

/-- Every cell of a segment is live. -/
theorem seg_live {nodes : Ptr → Option node} :
    ∀ (cs : List (Ptr × Nat)) (p q : Ptr), Seg nodes p cs q →
      ∀ c ∈ cs, c.1 ≠ NULL ∧ ∃ nx, nodes c.1 = some ⟨nx, c.2⟩
  | [], _, _, _, c, hc => by simp at hc
  | d :: cs, p, q, h, c, hc => by
    obtain ⟨_, h2, nx, h3, h4⟩ := h
    rcases List.mem_cons.1 hc with rfl | hc
    · exact ⟨h2, nx, h3⟩
    · exact seg_live cs nx q h4 c hc

/-- The chain that ends in NULL is determined by its first pointer. -/
theorem seg_null_unique {nodes : Ptr → Option node} :
    ∀ (cs ds : List (Ptr × Nat)) (p : Ptr),
      Seg nodes p cs NULL → Seg nodes p ds NULL → cs = ds
  | [], [], _, _, _ => rfl
  | [], d :: ds, p, h1, h2 => by
    have hp : p = NULL := h1
    obtain ⟨h3, h4, _⟩ := h2
    exact absurd (h3.symm.trans hp) h4
  | c :: cs, [], p, h1, h2 => by
    have hp : p = NULL := h2
    obtain ⟨h3, h4, _⟩ := h1
    exact absurd (h3.symm.trans hp) h4
  | c :: cs, d :: ds, p, h1, h2 => by
    obtain ⟨a1, _, nx, a3, a4⟩ := h1
    obtain ⟨b1, _, ny, b3, b4⟩ := h2
    have hcd : c.1 = d.1 := a1.symm.trans b1
    rw [hcd, b3] at a3
    have hn : (⟨ny, d.2⟩ : node) = ⟨nx, c.2⟩ := Option.some.inj a3
    have hnx : ny = nx := congrArg node.next hn
    have hdat : d.2 = c.2 := congrArg node.data hn
    have hc : c = d := Prod.ext hcd hdat.symm
    subst hnx
    rw [hc, seg_null_unique cs ds ny a4 b4]

/-- A chain that ends in NULL visits no address twice. -/
theorem seg_null_nodup {nodes : Ptr → Option node} :
    ∀ (cs : List (Ptr × Nat)) (p : Ptr), Seg nodes p cs NULL → (cs.map Prod.fst).Nodup
  | [], _, _ => by simp
  | c :: cs, p, h => by
    obtain ⟨h1, h2, nx, h3, h4⟩ := h
    rw [List.map_cons, List.nodup_cons]
    refine ⟨?_, seg_null_nodup cs nx h4⟩
    intro hmem
    obtain ⟨d, hd, hdc⟩ := List.mem_map.1 hmem
    obtain ⟨pre, post, hsplit⟩ := List.append_of_mem hd
    -- the chain from `d` ends in NULL both after `post` and after `cs`
    rw [hsplit] at h4
    obtain ⟨r, _, h6⟩ := (seg_append pre (d :: post) nx NULL).1 h4
    obtain ⟨e1, e2, ny, e3, e4⟩ := h6
    rw [hdc, h3] at e3
    have hn : (⟨nx, c.2⟩ : node) = ⟨ny, d.2⟩ := Option.some.inj e3
    have hnx : nx = ny := congrArg node.next hn
    subst hnx
    have hlen := congrArg List.length (seg_null_unique _ _ nx h4 e4)
    simp at hlen
    omega

/-- Distinct non-NULL addresses below a bound are fewer than the bound. -/
theorem length_le_of_nodup_bounded (l : List Nat) (N : Nat) (hnd : l.Nodup)
    (hb : ∀ x ∈ l, x ≠ 0 ∧ x < N) : l.length ≤ N - 1 := by
  have hsub : l.toFinset ⊆ Finset.Ico 1 N := by
    intro x hx
    have := hb x (List.mem_toFinset.1 hx)
    exact Finset.mem_Ico.2 ⟨Nat.pos_of_ne_zero this.1, this.2⟩
  have hc := Finset.card_le_card hsub
  rw [List.toFinset_card_of_nodup hnd, Nat.card_Ico] at hc
  exact hc


/-! ## Well-formed lists -/

/-- A NULL-terminated chain of pointer-sized addresses has fewer than
`2 ^ 64` cells. -/
theorem seg_length_lt {nodes : Ptr → Option node} {cs : List (Ptr × Nat)} {p : Ptr}
    (h : Seg nodes p cs NULL) (hb : ∀ c ∈ cs, c.1 < SIZE_MOD) : cs.length < SIZE_MOD := by
  have hl := seg_live cs p NULL h
  have := length_le_of_nodup_bounded (cs.map Prod.fst) SIZE_MOD (seg_null_nodup cs p h) (by
    intro x hx
    obtain ⟨c, hc, rfl⟩ := List.mem_map.1 hx
    exact ⟨(hl c hc).1, hb c hc⟩)
  simp at this
  have hpos : 0 < SIZE_MOD := by norm_num [SIZE_MOD]
  omega

theorem wf_nil_iff (m : Mem) (ll : Ptr) :
    WellFormed m ll [] ↔ ll ≠ NULL ∧ ∃ L, m.lists ll = some L ∧ L.head = NULL ∧
      L.size = 0 ∧ L.tail = NULL := by
  simp [WellFormed]

/-- The head of a non-empty well-formed list is its first cell. -/
theorem wf_head {m : Mem} {ll : Ptr} {c : Ptr × Nat} {cs : List (Ptr × Nat)}
    (h : WellFormed m ll (c :: cs)) :
    ∃ L nx, m.lists ll = some L ∧ L.head = c.1 ∧ c.1 ≠ NULL ∧ L.size = cs.length + 1 ∧
      m.nodes c.1 = some ⟨nx, c.2⟩ ∧ Seg m.nodes nx cs NULL := by
  obtain ⟨_, L, hL, hseg, hsz, _, _⟩ := h
  obtain ⟨h1, h2, nx, h3, h4⟩ := hseg
  exact ⟨L, nx, hL, h1, h2, by simpa using hsz, h3, h4⟩

/-- The size field of a well-formed list fits a `size_t`. -/
theorem wf_size_lt {m : Mem} {ll : Ptr} {cs : List (Ptr × Nat)} (h : WellFormed m ll cs) :
    cs.length < SIZE_MOD := by
  obtain ⟨_, L, _, hseg, _, _, hb⟩ := h
  exact seg_length_lt hseg hb

/-- Appending: `linked_list_insert_end` on a well-formed list, with a
successful allocation. -/
theorem insert_end_wf {R : Registry} {m : Mem} {ll : Ptr} {cs : List (Ptr × Nat)}
    (a v : Nat) (hR : R.malloc_fptr ≠ NULL) (hwf : WellFormed m ll cs)
    (ha0 : a ≠ NULL) (hab : a < SIZE_MOD) (haf : m.nodes a = none) :
    ∃ m1, linked_list_insert_end R a m ll v = .ok (true, m1) ∧
      WellFormed m1 ll (cs ++ [(a, v)]) ∧
      m1.queues = m.queues ∧ m1.iters = m.iters ∧ m1.freed = m.freed ∧
      (∀ p, p ≠ ll → m1.lists p = m.lists p) ∧
      (∀ p, p ≠ a → m.nodes p = none → m1.nodes p = none) := by
  obtain ⟨hll, L, hL, hseg, hsz, htl, hb⟩ := hwf
  have hb1 : ∀ c ∈ cs ++ [(a, v)], c.1 < SIZE_MOD := by
    intro c hc
    rcases List.mem_append.1 hc with hc | hc
    · exact hb c hc
    · simp at hc; subst hc; exact hab
  have hlive := seg_live cs _ _ hseg
  have hfresh : ∀ c ∈ cs, c.1 ≠ a := by
    intro c hc heq
    obtain ⟨_, nx, hnx⟩ := hlive c hc
    rw [heq, haf] at hnx
    exact Option.noConfusion hnx
  rcases List.eq_nil_or_concat cs with rfl | ⟨cs1, t, hcs⟩
  · -- empty list
    have hhead : L.head = NULL := hseg
    have htail : L.tail = NULL := by simpa using htl
    have hsize : L.size = 0 := by simpa using hsz
    refine ⟨(m.set_node a ⟨NULL, v⟩).set_list ll ⟨a, a, 1⟩, ?_, ?_, rfl, rfl, rfl, ?_, ?_⟩
    · simp [linked_list_insert_end, hll, hR, ha0, Mem.set_node, Mem.list_at, hL, htail, hsize]
    · refine ⟨hll, ⟨a, a, 1⟩, by simp [Mem.set_list, Mem.set_node], ?_, by simp, by simp, hb1⟩
      exact ⟨rfl, ha0, NULL, by simp [Mem.set_list, Mem.set_node], rfl⟩
    · intro p hp; simp [Mem.set_list, Mem.set_node, upd_other _ _ hp]
    · intro p hp hn; simp [Mem.set_list, Mem.set_node, upd_other _ _ hp, hn]
  · -- non-empty list, last cell `t`
    rw [List.concat_eq_append] at hcs
    subst hcs
    obtain ⟨r, hs1, hs2⟩ := (seg_append cs1 [t] L.head NULL).1 hseg
    obtain ⟨hrt, ht0, nx, hnt, hnx⟩ := hs2
    have hnx0 : nx = NULL := hnx
    subst hnx0
    subst hrt
    have htail : L.tail = t.1 := by simpa using htl
    have hta : t.1 ≠ a := hfresh t (by simp)
    have hnd := seg_null_nodup _ _ hseg
    have hcs1t : ∀ c ∈ cs1, c.1 ≠ t.1 := by
      intro c hc heq
      rw [List.map_append, List.nodup_append] at hnd
      exact hnd.2.2 (List.mem_map_of_mem _ hc) (by simp [heq])
    -- the new chain
    have hnew : Seg (upd (upd m.nodes a (some ⟨NULL, v⟩)) t.1 (some ⟨a, t.2⟩)) L.head
        ((cs1 ++ [t]) ++ [(a, v)]) NULL := by
      rw [List.append_assoc]
      refine (seg_append _ _ _ _).2 ⟨t.1, ?_, ?_⟩
      · refine seg_frame cs1 _ _ ?_ hs1
        intro c hc
        rw [upd_other _ _ (hcs1t c hc), upd_other _ _ (hfresh c (by simp [hc]))]
      · refine ⟨rfl, ht0, a, by simp, rfl, ha0, NULL, ?_, rfl⟩
        rw [upd_other _ _ (Ne.symm hta)]; simp
    have hlen := seg_length_lt hnew hb1
    refine ⟨((m.set_node a ⟨NULL, v⟩).set_node t.1 ⟨a, t.2⟩).set_list ll
      ⟨L.head, a, (L.size + 1) % SIZE_MOD⟩, ?_, ?_, rfl, rfl, rfl, ?_, ?_⟩
    · simp [linked_list_insert_end, hll, hR, ha0, Mem.set_node, Mem.list_at, hL, htail, ht0,
        Mem.node_at, upd_other _ _ hta, hnt]
    · refine ⟨hll, ⟨L.head, a, (L.size + 1) % SIZE_MOD⟩, by simp [Mem.set_list, Mem.set_node],
        hnew, ?_, by simp, hb1⟩
      simp only [List.length_append, List.length_singleton] at hlen hsz ⊢
      rw [hsz, Nat.mod_eq_of_lt hlen]
    · intro p hp; simp [Mem.set_list, Mem.set_node, upd_other _ _ hp]
    · intro p hp hn
      have hpt : p ≠ t.1 := by
        intro heq; rw [heq, hnt] at hn; exact Option.noConfusion hn
      simp [Mem.set_list, Mem.set_node, upd_other _ _ hp, upd_other _ _ hpt, hn]


/-- Prepending: `linked_list_insert_front` on a well-formed list, with a
successful allocation. -/
theorem insert_front_wf {R : Registry} {m : Mem} {ll : Ptr} {cs : List (Ptr × Nat)}
    (a v : Nat) (hR : R.malloc_fptr ≠ NULL) (hwf : WellFormed m ll cs)
    (ha0 : a ≠ NULL) (hab : a < SIZE_MOD) (haf : m.nodes a = none) :
    ∃ m1, linked_list_insert_front R a m ll v = .ok (true, m1) ∧
      WellFormed m1 ll ((a, v) :: cs) ∧
      m1.queues = m.queues ∧ m1.iters = m.iters ∧ m1.freed = m.freed ∧
      (∀ p, p ≠ ll → m1.lists p = m.lists p) ∧
      (∀ p, p ≠ a → m1.nodes p = m.nodes p) := by
  obtain ⟨hll, L, hL, hseg, hsz, htl, hb⟩ := hwf
  have hb1 : ∀ c ∈ (a, v) :: cs, c.1 < SIZE_MOD := by
    intro c hc
    rcases List.mem_cons.1 hc with rfl | hc
    · exact hab
    · exact hb c hc
  have hlive := seg_live cs _ _ hseg
  have hfresh : ∀ c ∈ cs, c.1 ≠ a := by
    intro c hc heq
    obtain ⟨_, nx, hnx⟩ := hlive c hc
    rw [heq, haf] at hnx
    exact Option.noConfusion hnx
  cases cs with
  | nil =>
    have hhead : L.head = NULL := hseg
    have htail : L.tail = NULL := by simpa using htl
    have hsize : L.size = 0 := by simpa using hsz
    refine ⟨(m.set_node a ⟨NULL, v⟩).set_list ll ⟨a, a, 1⟩, ?_, ?_, rfl, rfl, rfl, ?_, ?_⟩
    · simp [linked_list_insert_front, hll, hR, ha0, Mem.set_node, Mem.list_at, hL, hhead, hsize]
    · refine ⟨hll, ⟨a, a, 1⟩, by simp [Mem.set_list, Mem.set_node], ?_, by simp, by simp, hb1⟩
      exact ⟨rfl, ha0, NULL, by simp [Mem.set_list, Mem.set_node], rfl⟩
    · intro p hp; simp [Mem.set_list, Mem.set_node, upd_other _ _ hp]
    · intro p hp; simp [Mem.set_list, Mem.set_node, upd_other _ _ hp]
  | cons c cs1 =>
    have hhead : L.head = c.1 := hseg.1
    have hc0 : c.1 ≠ NULL := hseg.2.1
    have hnew : Seg (upd (upd m.nodes a (some ⟨NULL, v⟩)) a (some ⟨L.head, v⟩)) a
        ((a, v) :: c :: cs1) NULL := by
      refine ⟨rfl, ha0, L.head, by simp, ?_⟩
      refine seg_frame (c :: cs1) _ _ ?_ hseg
      intro d hd
      rw [upd_other _ _ (hfresh d hd), upd_other _ _ (hfresh d hd)]
    have hlen := seg_length_lt hnew hb1
    refine ⟨((m.set_node a ⟨NULL, v⟩).set_node a ⟨L.head, v⟩).set_list ll
      ⟨a, L.tail, (L.size + 1) % SIZE_MOD⟩, ?_, ?_, rfl, rfl, rfl, ?_, ?_⟩
    · simp [linked_list_insert_front, hll, hR, ha0, Mem.set_node, Mem.list_at, hL, hhead, hc0]
    · refine ⟨hll, ⟨a, L.tail, (L.size + 1) % SIZE_MOD⟩, by simp [Mem.set_list, Mem.set_node],
        hnew, ?_, ?_, hb1⟩
      · simp only [List.length_cons] at hlen hsz ⊢
        rw [hsz, Nat.mod_eq_of_lt hlen]
      · simpa using htl
    · intro p hp; simp [Mem.set_list, Mem.set_node, upd_other _ _ hp]
    · intro p hp; simp [Mem.set_list, Mem.set_node, upd_other _ _ hp]

/-- Removing the first element: `linked_list_remove` at index 0 on a non-empty
well-formed list. -/
theorem remove_zero_wf {R : Registry} {m : Mem} {ll : Ptr} {c : Ptr × Nat}
    {cs : List (Ptr × Nat)} (hR : R.free_fptr ≠ NULL) (hwf : WellFormed m ll (c :: cs)) :
    ∃ m1, linked_list_remove R m ll 0 = .ok (true, m1) ∧
      WellFormed m1 ll cs ∧
      m1.queues = m.queues ∧ m1.iters = m.iters ∧ m1.freed = m.freed ++ [c.1] ∧
      (∀ p, p ≠ ll → m1.lists p = m.lists p) ∧
      m1.nodes = upd m.nodes c.1 none := by
  have hnd := seg_null_nodup _ _ hwf.2.choose_spec.2.1
  obtain ⟨hll, L, hL, hseg, hsz, htl, hb⟩ := hwf
  obtain ⟨hhead, hc0, nx, hnc, hrest⟩ := hseg
  have hb1 : ∀ d ∈ cs, d.1 < SIZE_MOD := fun d hd => hb d (List.mem_cons_of_mem _ hd)
  have hcs : ∀ d ∈ cs, d.1 ≠ c.1 := by
    intro d hd heq
    rw [List.map_cons, List.nodup_cons] at hnd
    exact hnd.1 (heq ▸ List.mem_map_of_mem _ hd)
  have hrest1 : Seg (upd m.nodes c.1 none) nx cs NULL :=
    seg_frame cs _ _ (fun d hd => upd_other _ _ (hcs d hd)) hrest
  have hsize : L.size = cs.length + 1 := by simpa using hsz
  cases cs with
  | nil =>
    have hnx : nx = NULL := hrest
    refine ⟨({ m with nodes := upd m.nodes c.1 none, freed := m.freed ++ [c.1] } : Mem).set_list
      ll ⟨NULL, NULL, 0⟩, ?_, ?_, rfl, rfl, rfl, ?_, rfl⟩
    · simp [linked_list_remove, hll, hR, Mem.list_at, hL, hsize, Mem.free_node, hhead, hc0, hnc]
    · exact (wf_nil_iff _ _).2 ⟨hll, ⟨NULL, NULL, 0⟩, by simp [Mem.set_list], rfl, rfl, rfl⟩
    · intro p hp; simp [Mem.set_list, upd_other _ _ hp]
  | cons d cs1 =>
    refine ⟨({ (m.set_list ll ⟨nx, L.tail, L.size⟩) with
        nodes := upd m.nodes c.1 none, freed := m.freed ++ [c.1] } : Mem).set_list
      ll ⟨nx, L.tail, L.size - 1⟩, ?_, ?_, rfl, rfl, rfl, ?_, rfl⟩
    · simp [linked_list_remove, hll, hR, Mem.list_at, hL, hsize, Mem.free_node, hhead, hc0, hnc,
        Mem.node_at, Mem.set_list]
    · refine ⟨hll, ⟨nx, L.tail, L.size - 1⟩, by simp [Mem.set_list], hrest1, ?_, ?_, hb1⟩
      · simp [hsize]
      · simpa using htl
    · intro p hp; simp [Mem.set_list, upd_other _ _ hp]


/-! ## Traversal and iteration -/

/-- The cell at position `i` of a NULL-terminated chain: it is live, the
cells before it lead to it, and its `next` starts the chain of the cells
after it. -/
theorem seg_split_at {nodes : Ptr → Option node} :
    ∀ (cs : List (Ptr × Nat)) (p : Ptr) (i : Nat) (c : Ptr × Nat),
      Seg nodes p cs NULL → cs[i]? = some c →
      c.1 ≠ NULL ∧ Seg nodes p (cs.take i) c.1 ∧
        ∃ nx, nodes c.1 = some ⟨nx, c.2⟩ ∧ Seg nodes nx (cs.drop (i + 1)) NULL
  | [], _, _, _, _, hc => by simp at hc
  | d :: cs, p, 0, c, h, hc => by
    obtain ⟨h1, h2, nx, h3, h4⟩ := h
    simp at hc; subst hc
    exact ⟨h2, h1, nx, h3, h4⟩
  | d :: cs, p, i + 1, c, h, hc => by
    obtain ⟨h1, h2, nx, h3, h4⟩ := h
    simp at hc
    obtain ⟨g1, g2, g3⟩ := seg_split_at cs nx i c h4 hc
    exact ⟨g1, ⟨h1, h2, nx, h3, g2⟩, g3⟩

/-- The traversal loop follows a segment to its end. -/
theorem traverse_seg {m : Mem} :
    ∀ (cs : List (Ptr × Nat)) (p q : Ptr), Seg m.nodes p cs q →
      traverse m cs.length p = .ok q
  | [], p, q, h => by
    have : p = q := h
    simp [traverse, this]
  | c :: cs, p, q, h => by
    obtain ⟨h1, h2, nx, h3, h4⟩ := h
    subst h1
    simp [traverse, h2, Mem.node_at, h3, traverse_seg cs nx q h4]

/-- Populating an iterator at a valid index of a well-formed list. -/
theorem populate_wf {m : Mem} {ll : Ptr} {cs : List (Ptr × Nat)} {i : Nat} {c : Ptr × Nat}
    (hwf : WellFormed m ll cs) (hc : cs[i]? = some c) (junk : iterator) :
    __linked_list_populate_iterator m ll i (some junk) = .ok (true, some ⟨ll, c.1, i, c.2⟩) := by
  obtain ⟨hll, L, hL, hseg, hsz, _, _⟩ := hwf
  obtain ⟨h0, hpre, nx, hn, _⟩ := seg_split_at cs _ i c hseg hc
  have hi : i < cs.length := (List.getElem?_eq_some_iff.1 hc).1
  have htr := traverse_seg _ _ _ hpre
  rw [List.length_take, Nat.min_eq_left (Nat.le_of_lt hi)] at htr
  have hnot : ¬ (L.size ≤ i) := by omega
  simp [__linked_list_populate_iterator, hll, Mem.list_at, hL, hnot, htr, Mem.node_at, h0, hn]

/-- Creating an iterator at a valid index of a well-formed list, with a
successful allocation. -/
theorem create_iterator_wf {R : Registry} {m : Mem} {ll : Ptr} {cs : List (Ptr × Nat)}
    {i : Nat} {c : Ptr × Nat} (hwf : WellFormed m ll cs) (hc : cs[i]? = some c)
    (hR : R.malloc_fptr ≠ NULL) (hF : R.free_fptr ≠ NULL) (a : Ptr) (ha : a ≠ NULL) :
    linked_list_create_iterator R a m ll i = .ok (a, m.set_iter a ⟨ll, c.1, i, c.2⟩) := by
  obtain ⟨hll, L, hL, hseg, hsz, _, _⟩ := hwf
  obtain ⟨h0, hpre, nx, hn, _⟩ := seg_split_at cs _ i c hseg hc
  have hi : i < cs.length := (List.getElem?_eq_some_iff.1 hc).1
  have htr := traverse_seg _ _ _ hpre
  rw [List.length_take, Nat.min_eq_left (Nat.le_of_lt hi)] at htr
  have hnot : ¬ (L.size ≤ i) := by omega
  simp [linked_list_create_iterator, hll, hR, hF, Mem.list_at, hL, hnot, htr, Mem.node_at, h0,
    hn, ha]

/-- Iterating from the last node fails and leaves the iterator alone. -/
theorem iterate_last {m : Mem} {p : Ptr} {x : Nat} (hp : p ≠ NULL)
    (hn : m.nodes p = some ⟨NULL, x⟩) (l : Ptr) (i d : Nat) :
    linked_list_iterate m (some ⟨l, p, i, d⟩) = .ok (false, some ⟨l, p, i, d⟩) := by
  simp [linked_list_iterate, hp, Mem.node_at, hn]

/-- Iterating from a node with a live successor moves to the successor. -/
theorem iterate_next {m : Mem} {p q nx : Ptr} {x y : Nat} (hp : p ≠ NULL) (hq : q ≠ NULL)
    (hn : m.nodes p = some ⟨q, x⟩) (hn1 : m.nodes q = some ⟨nx, y⟩) (l : Ptr) (i d : Nat) :
    linked_list_iterate m (some ⟨l, p, i, d⟩) =
      .ok (true, some ⟨l, q, (i + 1) % SIZE_MOD, y⟩) := by
  simp [linked_list_iterate, hp, hq, Mem.node_at, hn, hn1]

/-- The loop of `linked_list_find`, started on a live node whose successors
are the cells `rest`: it stops at the first cell of `rest` holding `v`. -/
theorem find_loop_seg (m : Mem) (v : Nat) :
    ∀ (rest : List (Ptr × Nat)) (fuel : Nat) (l p nx : Ptr) (i x : Nat),
      p ≠ NULL → m.nodes p = some ⟨nx, x⟩ → Seg m.nodes nx rest NULL →
      rest.length < fuel → i + rest.length < SIZE_MOD →
      (∃ j, j < rest.length ∧ (rest.map Prod.snd)[j]? = some v ∧
          (∀ k, k < j → (rest.map Prod.snd)[k]? ≠ some v) ∧
          find_loop m v fuel ⟨l, p, i, x⟩ = .ok (i + 1 + j)) ∨
        (v ∉ rest.map Prod.snd ∧ find_loop m v fuel ⟨l, p, i, x⟩ = .ok SIZE_MAX)
  | [], fuel, l, p, nx, i, x, hp, hn, hseg, hf, _ => by
    have hnx : nx = NULL := hseg
    subst hnx
    obtain ⟨f, rfl⟩ : ∃ f, fuel = f + 1 := ⟨fuel - 1, by simp at hf; omega⟩
    right
    simp [find_loop, iterate_last hp hn]
  | c :: rest, fuel, l, p, nx, i, x, hp, hn, hseg, hf, hi => by
    obtain ⟨h1, h2, ny, h3, h4⟩ := hseg
    subst h1
    obtain ⟨f, rfl⟩ : ∃ f, fuel = f + 1 := ⟨fuel - 1, by omega⟩
    simp only [List.length_cons] at hf hi
    have hmod : (i + 1) % SIZE_MOD = i + 1 := Nat.mod_eq_of_lt (by omega)
    by_cases hv : c.2 = v
    · left
      refine ⟨0, by simp, by simp [hv], by simp, ?_⟩
      simp [find_loop, iterate_next hp h2 hn h3, hv, hmod]
    · have ih := find_loop_seg m v rest f l c.1 ny (i + 1) c.2 h2 h3 h4 (by omega) (by omega)
      have hstep : find_loop m v (f + 1) ⟨l, p, i, x⟩ = find_loop m v f ⟨l, c.1, i + 1, c.2⟩ := by
        simp [find_loop, iterate_next hp h2 hn h3, hv, hmod]
      rw [hstep]
      rcases ih with ⟨j, hj, hjv, hmin, hres⟩ | ⟨hnot, hres⟩
      · left
        refine ⟨j + 1, by simp [hj], by simpa using hjv, ?_, ?_⟩
        · intro k hk
          cases k with
          | zero => simpa using hv
          | succ k => simpa using hmin k (by omega)
        · rw [hres]; congr 1; omega
      · right
        refine ⟨?_, hres⟩
        simp only [List.map_cons, List.mem_cons, not_or]
        exact ⟨fun h => hv h.symm, hnot⟩

/-- The result of `linked_list_find` on a well-formed list: the first index
holding `v`, or `SIZE_MAX` when there is none. -/
theorem find_wf {m : Mem} {ll : Ptr} {cs : List (Ptr × Nat)} (v fuel : Nat)
    (hwf : WellFormed m ll cs) (hf : cs.length ≤ fuel) :
    (∃ j, j < cs.length ∧ (cs.map Prod.snd)[j]? = some v ∧
        (∀ k, k < j → (cs.map Prod.snd)[k]? ≠ some v) ∧
        linked_list_find fuel m ll v = .ok j) ∨
      (v ∉ cs.map Prod.snd ∧ linked_list_find fuel m ll v = .ok SIZE_MAX) := by
  have hlen := wf_size_lt hwf
  cases cs with
  | nil =>
    obtain ⟨hll, L, hL, hhead, hsize, _⟩ := (wf_nil_iff _ _).1 hwf
    right
    simp [linked_list_find, hll, __linked_list_populate_iterator, Mem.list_at, hL, hsize]
  | cons c rest =>
    have hpop := populate_wf (i := 0) (c := c) hwf (by simp) uninit_iterator
    obtain ⟨L, nx, hL, hhead, hc0, hsize, hn, hseg⟩ := wf_head hwf
    simp only [List.length_cons] at hf hlen
    by_cases hv : c.2 = v
    · left
      refine ⟨0, by simp, by simp [hv], by simp, ?_⟩
      simp [linked_list_find, hwf.1, hpop, hv]
    · have hstep : linked_list_find fuel m ll v = find_loop m v fuel ⟨ll, c.1, 0, c.2⟩ := by
        simp [linked_list_find, hwf.1, hpop, hv]
      rw [hstep]
      rcases find_loop_seg m v rest fuel ll c.1 nx 0 c.2 hc0 hn hseg (by omega) (by omega) with
        ⟨j, hj, hjv, hmin, hres⟩ | ⟨hnot, hres⟩
      · left
        refine ⟨j + 1, by simp [hj], by simpa using hjv, ?_, ?_⟩
        · intro k hk
          cases k with
          | zero => simpa using hv
          | succ k => simpa using hmin k (by omega)
        · rw [hres]; congr 1; omega
      · right
        refine ⟨?_, hres⟩
        simp only [List.map_cons, List.mem_cons, not_or]
        exact ⟨fun h => hv h.symm, hnot⟩


/-! ## Queue operations on a well-formed queue -/

/-- Well-formedness of a list does not depend on the queue store. -/
theorem wf_set_queue {m : Mem} {ll : Ptr} {cs : List (Ptr × Nat)} (q : Ptr) (Q : queue)
    (h : WellFormed m ll cs) : WellFormed (m.set_queue q Q) ll cs := h

/-- A freshly created queue is well formed and empty. -/
theorem queue_create_ok {QR LR : Registry} (hQ : QR.malloc_fptr ≠ NULL)
    (hL : LR.malloc_fptr ≠ NULL) {aq al : Ptr} (haq : aq ≠ NULL) (hal : al ≠ NULL)
    (g : queue) (m : Mem) :
    ∃ m1, queue_create QR LR aq al g m = .ok (aq, m1) ∧ QueueOk m1 aq [] ∧
      m1.nodes = m.nodes := by
  refine ⟨((m.set_queue aq g).set_list al ⟨NULL, NULL, 0⟩).set_queue aq ⟨al, g.head_data⟩,
    ?_, ?_, rfl⟩
  · simp [queue_create, hQ, haq, linked_list_create, hL, hal, Mem.queue_at, Mem.set_queue,
      Mem.set_list]
  · refine ⟨haq, ⟨al, g.head_data⟩, by simp [Mem.set_queue], ?_, by simp⟩
    exact (wf_nil_iff _ _).2 ⟨hal, ⟨NULL, NULL, 0⟩, by simp [Mem.set_queue, Mem.set_list],
      rfl, rfl, rfl⟩

/-- Pushing onto a well-formed queue, with a successful allocation. -/
theorem queue_push_ok {LR : Registry} {m : Mem} {q : Ptr} {cs : List (Ptr × Nat)}
    (a v : Nat) (hR : LR.malloc_fptr ≠ NULL) (h : QueueOk m q cs)
    (ha0 : a ≠ NULL) (hab : a < SIZE_MOD) (haf : m.nodes a = none) :
    ∃ m1, queue_push LR a m q v = .ok (true, m1) ∧ QueueOk m1 q (cs ++ [(a, v)]) ∧
      (∀ p, p ≠ a → m.nodes p = none → m1.nodes p = none) := by
  obtain ⟨hq, Q, hQ, hwf, hhd⟩ := h
  obtain ⟨m1, hrun, hwf1, hqs, _, _, _, hfr⟩ := insert_end_wf a v hR hwf ha0 hab haf
  obtain ⟨c0, rest, hc0⟩ : ∃ c0 rest, cs ++ [(a, v)] = c0 :: rest := by
    cases cs with
    | nil => exact ⟨_, _, rfl⟩
    | cons c cs1 => exact ⟨_, _, rfl⟩
  have hwf1c := hwf1
  rw [hc0] at hwf1c
  obtain ⟨L1, nx, hL1, hhead, hc00, _, hn, _⟩ := wf_head hwf1c
  have hQ1 : m1.queues q = some Q := by rw [hqs]; exact hQ
  refine ⟨m1.set_queue q ⟨Q.ll, c0.2⟩, ?_, ?_, ?_⟩
  · simp [queue_push, hq, Mem.queue_at, hQ, hrun, hQ1, Mem.list_at, hwf.1, hL1, Mem.node_at,
      hhead, hc00, hn]
  · refine ⟨hq, ⟨Q.ll, c0.2⟩, by simp [Mem.set_queue], wf_set_queue _ _ hwf1, ?_⟩
    intro c hc
    rw [hc0] at hc
    simp at hc
    rw [hc]
  · intro p hp hn; exact hfr p hp hn

/-- Popping from a well-formed non-empty queue. -/
theorem queue_pop_ok {LR : Registry} {m : Mem} {q : Ptr} {c : Ptr × Nat}
    {cs : List (Ptr × Nat)} (o : Nat) (hR : LR.free_fptr ≠ NULL) (h : QueueOk m q (c :: cs)) :
    ∃ m1, queue_pop LR m q (some o) = .ok (true, some c.2, m1) ∧ QueueOk m1 q cs := by
  obtain ⟨hq, Q, hQ, hwf, hhd⟩ := h
  obtain ⟨L, nx, hL, hhead, hc0, _, _, _⟩ := wf_head hwf
  obtain ⟨m1, hrun, hwf1, hqs, _, _, _, _⟩ := remove_zero_wf hR hwf
  have hQ1 : m1.queues q = some Q := by rw [hqs]; exact hQ
  have hdata : Q.head_data = c.2 := hhd c rfl
  have hhne : ¬ (L.head = 0) := by rw [hhead]; exact hc0
  cases cs with
  | nil =>
    obtain ⟨_, L1, hL1, _, hsize1, _⟩ := (wf_nil_iff _ _).1 hwf1
    refine ⟨m1, ?_, hq, Q, hQ1, hwf1, by simp⟩
    simp [queue_pop, hq, Mem.queue_at, hQ, hwf.1, Mem.list_at, hL, hhne, hrun, hQ1, hL1,
      hsize1, hdata]
  | cons d cs1 =>
    obtain ⟨L1, ny, hL1, hhead1, hd0, hsize1, hn1, _⟩ := wf_head hwf1
    refine ⟨m1.set_queue q ⟨Q.ll, d.2⟩, ?_, hq, ⟨Q.ll, d.2⟩, by simp [Mem.set_queue],
      wf_set_queue _ _ hwf1, by simp⟩
    simp [queue_pop, hq, Mem.queue_at, hQ, hwf.1, Mem.list_at, hL, hhne, hrun, hQ1, hL1,
      hsize1, hdata, Mem.node_at, hhead1, hd0, hn1]

/-- Peeking at a well-formed non-empty queue. -/
theorem queue_next_ok {m : Mem} {q : Ptr} {c : Ptr × Nat} {cs : List (Ptr × Nat)} (o : Nat)
    (h : QueueOk m q (c :: cs)) : queue_next m q (some o) = .ok (true, some c.2) := by
  obtain ⟨hq, Q, hQ, hwf, hhd⟩ := h
  obtain ⟨L, nx, hL, _, _, hsize, _, _⟩ := wf_head hwf
  simp [queue_next, hq, Mem.queue_at, hQ, hwf.1, Mem.list_at, hL, hsize, hhd c rfl]

/-- The size of a well-formed queue is the number of its cells. -/
theorem queue_size_ok {m : Mem} {q : Ptr} {cs : List (Ptr × Nat)} (h : QueueOk m q cs) :
    queue_size m q = .ok cs.length := by
  obtain ⟨hq, Q, hQ, ⟨hll, L, hL, _, hsize, _, _⟩, _⟩ := h
  simp [queue_size, hq, Mem.queue_at, hQ, linked_list_size, hll, Mem.list_at, hL, hsize]

/-- On a well-formed queue, `queue_has_next` tells whether there is a cell. -/
theorem queue_has_next_ok {m : Mem} {q : Ptr} {cs : List (Ptr × Nat)} (h : QueueOk m q cs) :
    queue_has_next m q = .ok (decide (cs.length > 0)) := by
  obtain ⟨hq, Q, hQ, ⟨hll, L, hL, _, hsize, _, _⟩, _⟩ := h
  simp [queue_has_next, hq, Mem.queue_at, hQ, hll, Mem.list_at, hL, hsize]

/-- Popping from a well-formed empty queue fails and changes nothing. -/
theorem queue_pop_empty {LR : Registry} {m : Mem} {q : Ptr} (o : Option Nat)
    (h : QueueOk m q []) : queue_pop LR m q o = .ok (false, o, m) := by
  obtain ⟨hq, Q, hQ, hwf, _⟩ := h
  obtain ⟨hll, L, hL, hhead, _, _⟩ := (wf_nil_iff _ _).1 hwf
  simp [queue_pop, hq, Mem.queue_at, hQ, hll, Mem.list_at, hL, hhead]

/-- A run of pushes with successful allocations. -/
theorem queue_push_all_ok {LR : Registry} (hR : LR.malloc_fptr ≠ NULL) {q : Ptr} :
    ∀ (cells : List (Ptr × Nat)) (m : Mem) (cs : List (Ptr × Nat)),
      QueueOk m q cs → (cells.map Prod.fst).Nodup →
      (∀ c ∈ cells, c.1 ≠ NULL ∧ c.1 < SIZE_MOD ∧ m.nodes c.1 = none) →
      ∃ m2, queue_push_all LR q m cells = .ok (List.replicate cells.length true, m2) ∧
        QueueOk m2 q (cs ++ cells)
  | [], m, cs, h, _, _ => ⟨m, rfl, by simpa using h⟩
  | (a, v) :: rest, m, cs, h, hnd, hfr => by
    obtain ⟨ha0, hab, haf⟩ := hfr (a, v) (List.mem_cons_self _ _)
    obtain ⟨m1, hrun, hok, hkeep⟩ := queue_push_ok a v hR h ha0 hab haf
    rw [List.map_cons, List.nodup_cons] at hnd
    have hfr1 : ∀ c ∈ rest, c.1 ≠ NULL ∧ c.1 < SIZE_MOD ∧ m1.nodes c.1 = none := by
      intro c hc
      obtain ⟨h1, h2, h3⟩ := hfr c (List.mem_cons_of_mem _ hc)
      refine ⟨h1, h2, hkeep c.1 ?_ h3⟩
      intro heq
      have hmem : c.1 ∈ rest.map Prod.fst := List.mem_map_of_mem _ hc
      rw [heq] at hmem
      exact hnd.1 hmem
    obtain ⟨m2, hrun2, hok2⟩ := queue_push_all_ok hR rest m1 (cs ++ [(a, v)]) hok hnd.2 hfr1
    refine ⟨m2, ?_, by simpa using hok2⟩
    simp [queue_push_all, hrun, hrun2, List.replicate_succ]

/-- Popping every element of a well-formed queue. -/
theorem queue_pop_n_ok {LR : Registry} (hR : LR.free_fptr ≠ NULL) {q : Ptr} :
    ∀ (cs : List (Ptr × Nat)) (m : Mem) (o : Nat), QueueOk m q cs →
      ∃ m3, queue_pop_n LR q cs.length m (some o) =
          .ok (cs.map (fun c => (true, some c.2)), m3) ∧ QueueOk m3 q []
  | [], m, _, h => ⟨m, rfl, h⟩
  | c :: cs, m, o, h => by
    obtain ⟨m1, hrun, hok⟩ := queue_pop_ok o hR h
    obtain ⟨m3, hrun3, hok3⟩ := queue_pop_n_ok hR cs m1 c.2 hok
    exact ⟨m3, by simp [queue_pop_n, hrun, hrun3], hok3⟩


/-! ## Properties of the queue -/

/-- C4. FIFO law: after the allocators are registered through
`queue_register_malloc` and `queue_register_free`, and with every allocation
succeeding, a fresh queue on which `v1 .. vn` are pushed and which is then
popped `n` times has every push and every pop return true, the pops write
`v1 .. vn` in that order, and the queue is empty at the end. -/
theorem queue_fifo (QR0 LR0 : Registry) (mal fr : Ptr) (hmal : mal ≠ NULL) (hfr : fr ≠ NULL)
    (m0 : Mem) (aq al : Ptr) (g : queue) (cells : List (Ptr × Nat)) (o : Nat)
    (halloc : AllocsOk m0 (aq :: al :: cells.map Prod.fst)) :
    ∃ QR1 LR1 QR LR q m1 m2 m3,
      queue_register_malloc QR0 LR0 mal = (true, QR1, LR1) ∧
      queue_register_free QR1 LR1 fr = (true, QR, LR) ∧
      queue_create QR LR aq al g m0 = .ok (q, m1) ∧ q ≠ NULL ∧
      queue_push_all LR q m1 cells = .ok (List.replicate cells.length true, m2) ∧
      queue_pop_n LR q cells.length m2 (some o) =
        .ok (cells.map (fun c => (true, some c.2)), m3) ∧
      queue_size m3 q = .ok 0 ∧ queue_has_next m3 q = .ok false := by
  obtain ⟨hnd, hall⟩ := halloc
  have haq := hall aq (by simp)
  have hal := hall al (by simp)
  have hQm : ({ malloc_fptr := mal, free_fptr := fr } : Registry).malloc_fptr ≠ NULL := hmal
  have hLm : ({ malloc_fptr := mal, free_fptr := fr } : Registry).malloc_fptr ≠ NULL := hmal
  have hLf : ({ malloc_fptr := mal, free_fptr := fr } : Registry).free_fptr ≠ NULL := hfr
  obtain ⟨m1, hcreate, hok1, hnodes⟩ := queue_create_ok hQm hLm haq.1 hal.1 g m0
  have hnd2 : (cells.map Prod.fst).Nodup := by
    rw [List.nodup_cons, List.nodup_cons] at hnd
    exact hnd.2.2
  have hfr1 : ∀ c ∈ cells, c.1 ≠ NULL ∧ c.1 < SIZE_MOD ∧ m1.nodes c.1 = none := by
    intro c hc
    have := hall c.1 (by simp; right; right; exact ⟨c.2, hc⟩)
    rw [hnodes]
    exact ⟨this.1, this.2.1, this.2.2.1⟩
  obtain ⟨m2, hpush, hok2⟩ := queue_push_all_ok hLm cells m1 [] hok1 hnd2 hfr1
  obtain ⟨m3, hpop, hok3⟩ := queue_pop_n_ok hLf ([] ++ cells) m2 o hok2
  rw [List.nil_append] at hpop
  refine ⟨⟨mal, QR0.free_fptr⟩, ⟨mal, LR0.free_fptr⟩, ⟨mal, fr⟩, ⟨mal, fr⟩, aq, m1, m2, m3,
    ?_, ?_, hcreate, haq.1, hpush, hpop, ?_, ?_⟩
  · simp [queue_register_malloc, linked_list_register_malloc, hmal]
  · simp [queue_register_free, linked_list_register_free, hfr]
  · simpa using queue_size_ok hok3
  · simpa using queue_has_next_ok hok3

/-- Instance of the FIFO law: three pushes on an empty memory. -/
theorem queue_fifo_witness :
    (4096 : Ptr) ≠ NULL ∧ (4104 : Ptr) ≠ NULL ∧
    AllocsOk Mem.empty (64 :: 96 :: [(8, 11), (16, 12), (24, 13)].map Prod.fst) ∧
    ∃ QR1 LR1 QR LR q m1 m2 m3,
      queue_register_malloc ⟨NULL, NULL⟩ ⟨NULL, NULL⟩ 4096 = (true, QR1, LR1) ∧
      queue_register_free QR1 LR1 4104 = (true, QR, LR) ∧
      queue_create QR LR 64 96 ⟨0, 0⟩ Mem.empty = .ok (q, m1) ∧ q ≠ NULL ∧
      queue_push_all LR q m1 [(8, 11), (16, 12), (24, 13)] =
        .ok (List.replicate [(8, 11), (16, 12), (24, 13)].length true, m2) ∧
      queue_pop_n LR q [(8, 11), (16, 12), (24, 13)].length m2 (some 0) =
        .ok ([(8, 11), (16, 12), (24, 13)].map (fun c => (true, some c.2)), m3) ∧
      queue_size m3 q = .ok 0 ∧ queue_has_next m3 q = .ok false :=
  ⟨by decide, by decide, by decide,
    queue_fifo ⟨NULL, NULL⟩ ⟨NULL, NULL⟩ 4096 4104 (by decide) (by decide) Mem.empty 64 96
      ⟨0, 0⟩ [(8, 11), (16, 12), (24, 13)] 0 (by decide)⟩

/-- C5. Scenario: with the allocators registered and every allocation
succeeding, on a fresh queue after push(1), push(2), push(3): pop writes 1 and
the size is 2; pop writes 2 and the size is 1; next writes 3 and the size is
still 1; pop writes 3 and the size is 0; a further pop returns false. -/
theorem queue_scenario (QR LR : Registry) (hQ : QR.malloc_fptr ≠ NULL)
    (hLm : LR.malloc_fptr ≠ NULL) (hLf : LR.free_fptr ≠ NULL) (m0 : Mem)
    (aq al a1 a2 a3 : Ptr) (g : queue) (o1 o2 o3 o4 o5 : Nat)
    (halloc : AllocsOk m0 [aq, al, a1, a2, a3]) :
    ∃ q m1 m2 m3 m4 m5 m6 m7,
      queue_create QR LR aq al g m0 = .ok (q, m1) ∧ q ≠ NULL ∧
      queue_push LR a1 m1 q 1 = .ok (true, m2) ∧
      queue_push LR a2 m2 q 2 = .ok (true, m3) ∧
      queue_push LR a3 m3 q 3 = .ok (true, m4) ∧
      queue_pop LR m4 q (some o1) = .ok (true, some 1, m5) ∧ queue_size m5 q = .ok 2 ∧
      queue_pop LR m5 q (some o2) = .ok (true, some 2, m6) ∧ queue_size m6 q = .ok 1 ∧
      queue_next m6 q (some o3) = .ok (true, some 3) ∧ queue_size m6 q = .ok 1 ∧
      queue_pop LR m6 q (some o4) = .ok (true, some 3, m7) ∧ queue_size m7 q = .ok 0 ∧
      queue_pop LR m7 q (some o5) = .ok (false, some o5, m7) := by
  obtain ⟨hnd, hall⟩ := halloc
  have haq := hall aq (by simp)
  have hal := hall al (by simp)
  have h1 := hall a1 (by simp)
  have h2 := hall a2 (by simp)
  have h3 := hall a3 (by simp)
  simp only [List.nodup_cons, List.mem_cons, List.mem_singleton, not_or, List.not_mem_nil,
    not_false_eq_true, List.nodup_nil, and_true] at hnd
  obtain ⟨-, -, ⟨h12, h13⟩, h23⟩ := hnd
  obtain ⟨m1, hcreate, hok1, hnodes⟩ := queue_create_ok hQ hLm haq.1 hal.1 g m0
  obtain ⟨m2, hp1, hok2, hk1⟩ := queue_push_ok a1 1 hLm hok1 h1.1 h1.2.1
    (by rw [hnodes]; exact h1.2.2.1)
  have hn2 : m2.nodes a2 = none := hk1 a2 (Ne.symm h12) (by rw [hnodes]; exact h2.2.2.1)
  have hn3 : m2.nodes a3 = none := hk1 a3 (Ne.symm h13) (by rw [hnodes]; exact h3.2.2.1)
  obtain ⟨m3, hp2, hok3, hk2⟩ := queue_push_ok a2 2 hLm hok2 h2.1 h2.2.1 hn2
  obtain ⟨m4, hp3, hok4, -⟩ := queue_push_ok a3 3 hLm hok3 h3.1 h3.2.1
    (hk2 a3 (Ne.symm h23) hn3)
  simp only [List.nil_append, List.cons_append] at hok4
  obtain ⟨m5, hpop1, hok5⟩ := queue_pop_ok o1 hLf hok4
  obtain ⟨m6, hpop2, hok6⟩ := queue_pop_ok o2 hLf hok5
  obtain ⟨m7, hpop3, hok7⟩ := queue_pop_ok o4 hLf hok6
  exact ⟨aq, m1, m2, m3, m4, m5, m6, m7, hcreate, haq.1, hp1, hp2, hp3, hpop1,
    queue_size_ok hok5, hpop2, queue_size_ok hok6, queue_next_ok o3 hok6, queue_size_ok hok6,
    hpop3, queue_size_ok hok7, queue_pop_empty (some o5) hok7⟩

/-- Instance of the queue scenario on an empty memory. -/
theorem queue_scenario_witness :
    registered.malloc_fptr ≠ NULL ∧ registered.malloc_fptr ≠ NULL ∧
    registered.free_fptr ≠ NULL ∧ AllocsOk Mem.empty [64, 96, 8, 16, 24] ∧
    ∃ q m1 m2 m3 m4 m5 m6 m7,
      queue_create registered registered 64 96 ⟨0, 0⟩ Mem.empty = .ok (q, m1) ∧ q ≠ NULL ∧
      queue_push registered 8 m1 q 1 = .ok (true, m2) ∧
      queue_push registered 16 m2 q 2 = .ok (true, m3) ∧
      queue_push registered 24 m3 q 3 = .ok (true, m4) ∧
      queue_pop registered m4 q (some 0) = .ok (true, some 1, m5) ∧ queue_size m5 q = .ok 2 ∧
      queue_pop registered m5 q (some 0) = .ok (true, some 2, m6) ∧ queue_size m6 q = .ok 1 ∧
      queue_next m6 q (some 0) = .ok (true, some 3) ∧ queue_size m6 q = .ok 1 ∧
      queue_pop registered m6 q (some 0) = .ok (true, some 3, m7) ∧ queue_size m7 q = .ok 0 ∧
      queue_pop registered m7 q (some 0) = .ok (false, some 0, m7) :=
  ⟨by decide, by decide, by decide, by decide,
    queue_scenario registered registered (by decide) (by decide) (by decide) Mem.empty
      64 96 8 16 24 ⟨0, 0⟩ 0 0 0 0 0 (by decide)⟩


/-! ## Properties of the list -/

theorem three_mem_wf : WellFormed three_mem 64 three_cells := by
  refine ⟨by decide, ⟨8, 24, 3⟩, rfl, ?_, rfl, rfl, by decide⟩
  exact ⟨rfl, by decide, 16, rfl, rfl, by decide, 24, rfl, rfl, by decide, NULL, rfl, rfl⟩

theorem three_mem_holds : Holds three_mem 64 [7, 8, 9] := ⟨three_cells, three_mem_wf, rfl⟩

/-- Reading a NULL-terminated chain gives the values of its cells. -/
theorem read_chain_seg {nodes : Ptr → Option node} :
    ∀ (cs : List (Ptr × Nat)) (p : Ptr), Seg nodes p cs NULL →
      read_chain nodes cs.length p = some (cs.map Prod.snd)
  | [], p, h => by
    have hp : p = NULL := h
    simp [read_chain, hp]
  | c :: cs, p, h => by
    obtain ⟨h1, h2, nx, h3, h4⟩ := h
    subst h1
    simp [read_chain, h2, h3, read_chain_seg cs nx h4]

/-- The values read from a well-formed list are the values it holds. -/
theorem holds_values {m : Mem} {ll : Ptr} {xs : List Nat} (h : Holds m ll xs) :
    linked_list_values m ll = some xs := by
  obtain ⟨cs, ⟨_, L, hL, hseg, hsize, _, _⟩, rfl⟩ := h
  simp [linked_list_values, hL, hsize, read_chain_seg cs _ hseg]

/-- The size of a well-formed list is the number of its cells. -/
theorem size_wf {m : Mem} {ll : Ptr} {cs : List (Ptr × Nat)} (h : WellFormed m ll cs) :
    linked_list_size m ll = .ok cs.length := by
  obtain ⟨hll, L, hL, _, hsize, _, _⟩ := h
  simp [linked_list_size, hll, Mem.list_at, hL, hsize]

/-- C6. On a well-formed list holding `xs`, `linked_list_find` returns the
smallest index holding `v` (an index below the size, no earlier element being
`v`) when `v` occurs, and `SIZE_MAX` when it does not (so also on the empty
list); on a NULL list it returns `SIZE_MAX`. The embedding of
`linked_list_find` has no memory result: the source stores only into its
local iterator, so the list is as before the call. -/
theorem find_returns_first_index (m : Mem) (ll : Ptr) (xs : List Nat) (v fuel : Nat)
    (h : Holds m ll xs) (hf : xs.length ≤ fuel) :
    linked_list_size m ll = .ok xs.length ∧
    (v ∈ xs → ∃ i, linked_list_find fuel m ll v = .ok i ∧ i < xs.length ∧
        xs[i]? = some v ∧ ∀ j, j < i → xs[j]? ≠ some v) ∧
    (v ∉ xs → linked_list_find fuel m ll v = .ok SIZE_MAX) ∧
    linked_list_find fuel m NULL v = .ok SIZE_MAX := by
  obtain ⟨cs, hwf, rfl⟩ := h
  rw [List.length_map] at hf
  refine ⟨by simpa using size_wf hwf, ?_, ?_, by simp [linked_list_find]⟩
  · intro hv
    rcases find_wf v fuel hwf hf with ⟨j, hj, hjv, hmin, hres⟩ | ⟨hnot, _⟩
    · exact ⟨j, hres, by simpa using hj, hjv, hmin⟩
    · exact absurd hv hnot
  · intro hv
    rcases find_wf v fuel hwf hf with ⟨j, hj, hjv, _, _⟩ | ⟨_, hres⟩
    · exact absurd (List.getElem?_mem hjv) hv
    · exact hres

/-- Instance of the find property: the list `[7, 8, 9]` and the value 8. -/
theorem find_returns_first_index_witness :
    Holds three_mem 64 [7, 8, 9] ∧ [7, 8, 9].length ≤ 3 ∧
    (linked_list_size three_mem 64 = .ok [7, 8, 9].length ∧
    (8 ∈ [7, 8, 9] → ∃ i, linked_list_find 3 three_mem 64 8 = .ok i ∧ i < [7, 8, 9].length ∧
        [7, 8, 9][i]? = some 8 ∧ ∀ j, j < i → [7, 8, 9][j]? ≠ some 8) ∧
    (8 ∉ [7, 8, 9] → linked_list_find 3 three_mem 64 8 = .ok SIZE_MAX) ∧
    linked_list_find 3 three_mem NULL 8 = .ok SIZE_MAX) :=
  ⟨three_mem_holds, by decide,
    find_returns_first_index three_mem 64 [7, 8, 9] 8 3 three_mem_holds (by decide)⟩

/-- A call that returns true had its allocation succeed. -/
theorem insert_call_true {R : Registry} {m m1 : Mem} {ll : Ptr} {c : InsertCall}
    (h : c.run R m ll = .ok (true, m1)) : c.addr ≠ NULL := by
  intro ha
  cases c with
  | at_end v a =>
    have ha0 : a = NULL := ha
    simp [InsertCall.run, linked_list_insert_end, ha0] at h
  | at_front v a =>
    have ha0 : a = NULL := ha
    simp [InsertCall.run, linked_list_insert_front, ha0] at h

/-- A run of insertions at either end, all returning true, on a well-formed
list. -/
theorem run_inserts_wf {R : Registry} (hR : R.malloc_fptr ≠ NULL) {ll : Ptr} :
    ∀ (calls : List InsertCall) (m mf : Mem) (cs : List (Ptr × Nat)),
      WellFormed m ll cs → AllocsSound m (calls.map InsertCall.addr) →
      run_inserts R ll m calls = .ok (List.replicate calls.length true, mf) →
      ∃ cs1, WellFormed mf ll cs1 ∧ cs1.length = cs.length + calls.length ∧
        cs1.map Prod.snd = calls.foldl InsertCall.apply (cs.map Prod.snd)
  | [], m, mf, cs, hwf, _, hrun => by
    simp [run_inserts] at hrun
    subst hrun
    exact ⟨cs, hwf, rfl, rfl⟩
  | c :: rest, m, mf, cs, hwf, hsound, hrun => by
    obtain ⟨hnd, hall⟩ := hsound
    rw [List.map_cons, List.nodup_cons] at hnd
    obtain ⟨hab, haf⟩ := hall c.addr (by simp)
    -- split the run into its first call and the rest
    have hsplit : ∃ m1, c.run R m ll = .ok (true, m1) ∧
        run_inserts R ll m1 rest = .ok (List.replicate rest.length true, mf) := by
      cases h1 : c.run R m ll with
      | ok p =>
        obtain ⟨b, m1⟩ := p
        cases h2 : run_inserts R ll m1 rest with
        | ok p2 =>
          obtain ⟨bs, m2⟩ := p2
          simp [run_inserts, h1, h2, List.replicate_succ] at hrun
          obtain ⟨⟨hb, hbs⟩, hm⟩ := hrun
          subst hb hbs hm
          exact ⟨m1, rfl, h2⟩
        | ub => simp [run_inserts, h1, h2] at hrun
        | timeout => simp [run_inserts, h1, h2] at hrun
      | ub => simp [run_inserts, h1] at hrun
      | timeout => simp [run_inserts, h1] at hrun
    obtain ⟨m1, h1, h2⟩ := hsplit
    have ha0 := insert_call_true h1
    -- the first call, on the well-formed list
    have hstep : ∃ cs1, WellFormed m1 ll cs1 ∧ cs1.length = cs.length + 1 ∧
        cs1.map Prod.snd = c.apply (cs.map Prod.snd) ∧
        ∀ p, p ≠ c.addr → m.nodes p = none → m1.nodes p = none := by
      cases c with
      | at_end v a =>
        obtain ⟨m1', hr, hwf1, _, _, _, _, hk⟩ := insert_end_wf a v hR hwf ha0 hab haf
        have heq : m1' = m1 := by
          have := hr.symm.trans h1
          simpa using this
        subst heq
        exact ⟨cs ++ [(a, v)], hwf1, by simp, by simp [InsertCall.apply], hk⟩
      | at_front v a =>
        obtain ⟨m1', hr, hwf1, _, _, _, _, hk⟩ := insert_front_wf a v hR hwf ha0 hab haf
        have heq : m1' = m1 := by
          have := hr.symm.trans h1
          simpa using this
        subst heq
        exact ⟨(a, v) :: cs, hwf1, by simp, by simp [InsertCall.apply],
          fun p hp hn => by rw [hk p hp]; exact hn⟩
    obtain ⟨cs1, hwf1, hlen1, hval1, hk⟩ := hstep
    have hsound1 : AllocsSound m1 (rest.map InsertCall.addr) := by
      refine ⟨hnd.2, ?_⟩
      intro a ha
      obtain ⟨h3, h4⟩ := hall a (List.mem_cons_of_mem _ ha)
      refine ⟨h3, hk a ?_ h4⟩
      intro heq
      rw [heq] at ha
      exact hnd.1 ha
    obtain ⟨cs2, hwf2, hlen2, hval2⟩ := run_inserts_wf hR rest m1 mf cs1 hwf1 hsound1 h2
    refine ⟨cs2, hwf2, ?_, ?_⟩
    · rw [hlen2, hlen1, List.length_cons]; omega
    · rw [hval2, hval1, List.foldl_cons]

/-- C7. For every sequence of `n` calls, each `linked_list_insert_end` or
`linked_list_insert_front`, applied to a freshly created list and all
returning true (the allocator being sound), `linked_list_size` is `n` and the
values from head are those obtained by appending on each insert_end and
prepending on each insert_front. -/
theorem inserts_size_and_values (R : Registry) (m0 m1 mf : Mem) (al ll : Ptr)
    (calls : List InsertCall)
    (hcreate : linked_list_create R al m0 = .ok (ll, m1)) (hll : ll ≠ NULL)
    (hsound : AllocsSound m1 (calls.map InsertCall.addr))
    (hrun : run_inserts R ll m1 calls = .ok (List.replicate calls.length true, mf)) :
    linked_list_size mf ll = .ok calls.length ∧
      Holds mf ll (calls.foldl InsertCall.apply []) ∧
      linked_list_values mf ll = some (calls.foldl InsertCall.apply []) := by
  have hR : R.malloc_fptr ≠ NULL := by
    intro h
    simp [linked_list_create, h] at hcreate
    exact hll hcreate.1.symm
  have hwf1 : WellFormed m1 ll [] := by
    by_cases ha : al = NULL
    · simp [linked_list_create, hR, ha] at hcreate
      exact absurd hcreate.1.symm hll
    · simp [linked_list_create, hR, ha] at hcreate
      obtain ⟨h1, h2⟩ := hcreate
      subst h1 h2
      exact (wf_nil_iff _ _).2 ⟨hll, ⟨NULL, NULL, 0⟩, by simp [Mem.set_list], rfl, rfl, rfl⟩
  obtain ⟨cs1, hwf, hlen, hval⟩ := run_inserts_wf hR calls m1 mf [] hwf1 hsound hrun
  have hholds : Holds mf ll (calls.foldl InsertCall.apply []) := ⟨cs1, hwf, by simpa using hval⟩
  refine ⟨?_, hholds, holds_values hholds⟩
  rw [size_wf hwf, hlen]; simp

/-- Instance of the insertion property: insert_end(10) then insert_front(5). -/
theorem inserts_size_and_values_witness :
    linked_list_create registered 64 Mem.empty =
      .ok (64, Mem.empty.set_list 64 ⟨NULL, NULL, 0⟩) ∧
    (64 : Ptr) ≠ NULL ∧
    AllocsSound (Mem.empty.set_list 64 ⟨NULL, NULL, 0⟩)
      ([InsertCall.at_end 10 8, InsertCall.at_front 5 16].map InsertCall.addr) ∧
    run_inserts registered 64 (Mem.empty.set_list 64 ⟨NULL, NULL, 0⟩)
        [InsertCall.at_end 10 8, InsertCall.at_front 5 16] =
      .ok (List.replicate [InsertCall.at_end 10 8, InsertCall.at_front 5 16].length true,
        two_inserts_mem) ∧
    (linked_list_size two_inserts_mem 64 =
        .ok [InsertCall.at_end 10 8, InsertCall.at_front 5 16].length ∧
      Holds two_inserts_mem 64
        ([InsertCall.at_end 10 8, InsertCall.at_front 5 16].foldl InsertCall.apply []) ∧
      linked_list_values two_inserts_mem 64 =
        some ([InsertCall.at_end 10 8, InsertCall.at_front 5 16].foldl InsertCall.apply [])) :=
  ⟨rfl, by decide, by decide, rfl,
    inserts_size_and_values registered Mem.empty _ two_inserts_mem 64 64
      [InsertCall.at_end 10 8, InsertCall.at_front 5 16] rfl (by decide) (by decide) rfl⟩


/-- The list struct of a well-formed list is determined by its cells. -/
theorem wf_list_eq {m : Mem} {ll : Ptr} {cs : List (Ptr × Nat)} (h : WellFormed m ll cs) :
    m.lists ll = some ⟨(cs.map Prod.fst).headD NULL, (cs.map Prod.fst).getLastD NULL,
      cs.length⟩ := by
  obtain ⟨_, L, hL, hseg, hsize, htail, _⟩ := h
  rw [hL]
  have hhead : L.head = (cs.map Prod.fst).headD NULL := by
    cases cs with
    | nil => exact hseg
    | cons c cs1 => exact hseg.1
  cases L
  simp_all

/-- C8. Round trip: on a well-formed list holding `xs`, with both allocator
functions registered and the allocation succeeding,
`linked_list_insert_front(ll, x)` followed by `linked_list_remove(ll, 0)` both
return true and leave the list holding exactly `xs` again with its original
size; the nodes and the list struct are as before, so when `xs` is empty head
and tail are both NULL again. -/
theorem insert_front_remove_roundtrip (R : Registry) (m : Mem) (ll : Ptr) (xs : List Nat)
    (x : Nat) (a : Ptr) (hRm : R.malloc_fptr ≠ NULL) (hRf : R.free_fptr ≠ NULL)
    (h : Holds m ll xs) (ha : AllocOk m a) :
    ∃ m1 m2, linked_list_insert_front R a m ll x = .ok (true, m1) ∧
      Holds m1 ll (x :: xs) ∧
      linked_list_remove R m1 ll 0 = .ok (true, m2) ∧
      Holds m2 ll xs ∧ linked_list_size m2 ll = .ok xs.length ∧
      linked_list_size m2 ll = linked_list_size m ll ∧
      m2.nodes = m.nodes ∧ m2.lists = m.lists ∧
      (xs = [] → ∃ L, m2.lists ll = some L ∧ L.head = NULL ∧ L.tail = NULL) := by
  obtain ⟨cs, hwf, rfl⟩ := h
  obtain ⟨ha0, hab, haf, -⟩ := ha
  obtain ⟨m1, hins, hwf1, -, -, -, hl1, hn1⟩ := insert_front_wf a x hRm hwf ha0 hab haf
  obtain ⟨m2, hrem, hwf2, -, -, -, hl2, hn2⟩ := remove_zero_wf hRf hwf1
  have hnodes : m2.nodes = m.nodes := by
    funext p
    rw [hn2]
    by_cases hp : p = a
    · subst hp; simp [haf]
    · have hp1 : p ≠ ((a, x) : Ptr × Nat).1 := hp
      rw [upd_other _ _ hp1, hn1 p hp]
  have hlists : m2.lists = m.lists := by
    funext p
    by_cases hp : p = ll
    · subst hp; rw [wf_list_eq hwf2, wf_list_eq hwf]
    · rw [hl2 p hp, hl1 p hp]
  refine ⟨m1, m2, hins, ⟨_, hwf1, rfl⟩, hrem, ⟨cs, hwf2, rfl⟩, by simpa using size_wf hwf2,
    by rw [size_wf hwf2, size_wf hwf], hnodes, hlists, ?_⟩
  intro hxs
  have hcs : cs = [] := by simpa using hxs
  subst hcs
  exact ⟨_, wf_list_eq hwf2, rfl, rfl⟩

/-- Instance of the round trip on the list `[7, 8, 9]`. -/
theorem insert_front_remove_roundtrip_witness :
    registered.malloc_fptr ≠ NULL ∧ registered.free_fptr ≠ NULL ∧
    Holds three_mem 64 [7, 8, 9] ∧ AllocOk three_mem 32 ∧
    ∃ m1 m2, linked_list_insert_front registered 32 three_mem 64 5 = .ok (true, m1) ∧
      Holds m1 64 (5 :: [7, 8, 9]) ∧
      linked_list_remove registered m1 64 0 = .ok (true, m2) ∧
      Holds m2 64 [7, 8, 9] ∧ linked_list_size m2 64 = .ok [7, 8, 9].length ∧
      linked_list_size m2 64 = linked_list_size three_mem 64 ∧
      m2.nodes = three_mem.nodes ∧ m2.lists = three_mem.lists ∧
      ([7, 8, 9] = [] → ∃ L, m2.lists 64 = some L ∧ L.head = NULL ∧ L.tail = NULL) :=
  ⟨by decide, by decide, three_mem_holds, by decide,
    insert_front_remove_roundtrip registered three_mem 64 [7, 8, 9] 5 32 (by decide)
      (by decide) three_mem_holds (by decide)⟩

/-- The node at position `i` of a chain points to the node at `i + 1`. -/
theorem seg_next_some {nodes : Ptr → Option node} {cs : List (Ptr × Nat)} {p : Ptr}
    {i : Nat} {c d : Ptr × Nat} (h : Seg nodes p cs NULL) (hc : cs[i]? = some c)
    (hd : cs[i + 1]? = some d) :
    c.1 ≠ NULL ∧ d.1 ≠ NULL ∧ nodes c.1 = some ⟨d.1, c.2⟩ ∧ ∃ nx, nodes d.1 = some ⟨nx, d.2⟩ := by
  obtain ⟨h0, _, nx, hn, hrest⟩ := seg_split_at cs p i c h hc
  obtain ⟨hlt, hget⟩ := List.getElem?_eq_some_iff.1 hd
  rw [List.drop_eq_getElem_cons hlt, hget] at hrest
  obtain ⟨h1, h2, ny, h3, _⟩ := hrest
  subst h1
  exact ⟨h0, h2, hn, ny, h3⟩

/-- The last node of a NULL-terminated chain has a NULL `next`. -/
theorem seg_next_none {nodes : Ptr → Option node} {cs : List (Ptr × Nat)} {p : Ptr}
    {i : Nat} {c : Ptr × Nat} (h : Seg nodes p cs NULL) (hc : cs[i]? = some c)
    (hi : i + 1 = cs.length) : c.1 ≠ NULL ∧ nodes c.1 = some ⟨NULL, c.2⟩ := by
  obtain ⟨h0, _, nx, hn, hrest⟩ := seg_split_at cs p i c h hc
  rw [List.drop_of_length_le (by omega)] at hrest
  have hnx : nx = NULL := hrest
  subst hnx
  exact ⟨h0, hn⟩

/-- Consecutive calls of `linked_list_iterate` from position `i` of a
well-formed list: `k` calls succeed as long as `i + k` is a position. -/
theorem iterate_calls_wf {m : Mem} {ll : Ptr} {cs : List (Ptr × Nat)}
    (hwf : WellFormed m ll cs) (l : Ptr) :
    ∀ (k i : Nat) (c : Ptr × Nat), cs[i]? = some c → i + k < cs.length →
      ∃ d, cs[i + k]? = some d ∧
        iterate_calls m k (some ⟨l, c.1, i, c.2⟩) =
          .ok (List.replicate k true, some ⟨l, d.1, i + k, d.2⟩)
  | 0, i, c, hc, _ => ⟨c, hc, rfl⟩
  | k + 1, i, c, hc, hik => by
    have hlen := wf_size_lt hwf
    have hseg := hwf.2.choose_spec.2.1
    have hi1 : i + 1 < cs.length := by omega
    obtain ⟨h0, h1, hn, ny, hn1⟩ :=
      seg_next_some hseg hc (List.getElem?_eq_getElem hi1)
    have hmod : (i + 1) % SIZE_MOD = i + 1 := Nat.mod_eq_of_lt (by omega)
    obtain ⟨d, hd, hrun⟩ := iterate_calls_wf hwf l k (i + 1) cs[i + 1]
      (List.getElem?_eq_getElem hi1) (by omega)
    have e : i + 1 + k = i + (k + 1) := by omega
    rw [e] at hd hrun
    refine ⟨d, hd, ?_⟩
    simp only [iterate_calls, iterate_next h0 h1 hn hn1, hmod, Res.ok_bind, hrun,
      List.replicate_succ, Res.pure_eq]

/-- Iteration only reads the node store. -/
theorem iterate_nodes_congr {m m1 : Mem} (h : m1.nodes = m.nodes) (it : Option iterator) :
    linked_list_iterate m1 it = linked_list_iterate m it := by
  cases it with
  | none => rfl
  | some i => simp [linked_list_iterate, Mem.node_at, h]

theorem iterate_calls_nodes_congr {m m1 : Mem} (h : m1.nodes = m.nodes) :
    ∀ (k : Nat) (it : Option iterator), iterate_calls m1 k it = iterate_calls m k it
  | 0, _ => rfl
  | k + 1, it => by
    simp only [iterate_calls, iterate_nodes_congr h]
    congr 1
    funext p
    rw [iterate_calls_nodes_congr h k]

/-- C9. On a well-formed list of size `n` holding `xs`, an iterator obtained
for an index `i < n`, by `__linked_list_populate_iterator` or by
`linked_list_create_iterator`, starts at index `i` with data `xs[i]`; then
`n - i - 1` consecutive calls of `linked_list_iterate` return true, the `k`-th
leaving `current_index = i + k` and `data = xs[i + k]`, and the next call
returns false. -/
theorem iterator_visits_rest (R : Registry) (m : Mem) (ll : Ptr) (xs : List Nat) (i : Nat)
    (a : Ptr) (junk : iterator) (hRm : R.malloc_fptr ≠ NULL) (hRf : R.free_fptr ≠ NULL)
    (ha : a ≠ NULL) (h : Holds m ll xs) (hi : i < xs.length) :
    ∃ it0 m1,
      __linked_list_populate_iterator m ll i (some junk) = .ok (true, some it0) ∧
      linked_list_create_iterator R a m ll i = .ok (a, m1) ∧ m1.iters a = some it0 ∧
      Holds m1 ll xs ∧
      it0.current_index = i ∧ xs[i]? = some it0.data ∧
      (∀ k, k ≤ xs.length - i - 1 → ∃ it,
        iterate_calls m k (some it0) = .ok (List.replicate k true, some it) ∧
        iterate_calls m1 k (m1.iters a) = .ok (List.replicate k true, some it) ∧
        it.current_index = i + k ∧ xs[i + k]? = some it.data) ∧
      (∃ it,
        iterate_calls m (xs.length - i - 1) (some it0) =
          .ok (List.replicate (xs.length - i - 1) true, some it) ∧
        iterate_calls m1 (xs.length - i - 1) (m1.iters a) =
          .ok (List.replicate (xs.length - i - 1) true, some it) ∧
        linked_list_iterate m (some it) = .ok (false, some it) ∧
        linked_list_iterate m1 (some it) = .ok (false, some it)) := by
  obtain ⟨cs, hwf, rfl⟩ := h
  rw [List.length_map] at hi ⊢
  have hc : cs[i]? = some cs[i] := List.getElem?_eq_getElem hi
  have hnodes : (m.set_iter a ⟨ll, cs[i].1, i, cs[i].2⟩).nodes = m.nodes := rfl
  have hit : (m.set_iter a ⟨ll, cs[i].1, i, cs[i].2⟩).iters a =
      some ⟨ll, cs[i].1, i, cs[i].2⟩ := by simp [Mem.set_iter]
  refine ⟨⟨ll, cs[i].1, i, cs[i].2⟩, m.set_iter a ⟨ll, cs[i].1, i, cs[i].2⟩,
    populate_wf hwf hc junk, create_iterator_wf hwf hc hRm hRf a ha, hit, ⟨cs, hwf, rfl⟩, rfl,
    by simp [hi], ?_, ?_⟩
  · intro k hk
    obtain ⟨d, hd, hrun⟩ := iterate_calls_wf hwf ll k i cs[i] hc (by omega)
    refine ⟨_, hrun, ?_, rfl, by simp [hd]⟩
    rw [hit, iterate_calls_nodes_congr hnodes, hrun]
  · obtain ⟨d, hd, hrun⟩ := iterate_calls_wf hwf ll (cs.length - i - 1) i cs[i] hc (by omega)
    obtain ⟨h0, hn⟩ := seg_next_none hwf.2.choose_spec.2.1 hd (by omega)
    refine ⟨_, hrun, ?_, iterate_last h0 hn _ _ _, ?_⟩
    · rw [hit, iterate_calls_nodes_congr hnodes, hrun]
    · rw [iterate_nodes_congr hnodes]; exact iterate_last h0 hn _ _ _

/-- Instance of the iterator property: index 1 of the list `[7, 8, 9]`. -/
theorem iterator_visits_rest_witness :
    registered.malloc_fptr ≠ NULL ∧ registered.free_fptr ≠ NULL ∧ (32 : Ptr) ≠ NULL ∧
    Holds three_mem 64 [7, 8, 9] ∧ 1 < [7, 8, 9].length ∧
    ∃ it0 m1,
      __linked_list_populate_iterator three_mem 64 1 (some uninit_iterator) =
        .ok (true, some it0) ∧
      linked_list_create_iterator registered 32 three_mem 64 1 = .ok (32, m1) ∧
      m1.iters 32 = some it0 ∧
      Holds m1 64 [7, 8, 9] ∧
      it0.current_index = 1 ∧ [7, 8, 9][1]? = some it0.data ∧
      (∀ k, k ≤ [7, 8, 9].length - 1 - 1 → ∃ it,
        iterate_calls three_mem k (some it0) = .ok (List.replicate k true, some it) ∧
        iterate_calls m1 k (m1.iters 32) = .ok (List.replicate k true, some it) ∧
        it.current_index = 1 + k ∧ [7, 8, 9][1 + k]? = some it.data) ∧
      (∃ it,
        iterate_calls three_mem ([7, 8, 9].length - 1 - 1) (some it0) =
          .ok (List.replicate ([7, 8, 9].length - 1 - 1) true, some it) ∧
        iterate_calls m1 ([7, 8, 9].length - 1 - 1) (m1.iters 32) =
          .ok (List.replicate ([7, 8, 9].length - 1 - 1) true, some it) ∧
        linked_list_iterate three_mem (some it) = .ok (false, some it) ∧
        linked_list_iterate m1 (some it) = .ok (false, some it)) :=
  ⟨by decide, by decide, by decide, three_mem_holds, by decide,
    iterator_visits_rest registered three_mem 64 [7, 8, 9] 1 32 uninit_iterator (by decide)
      (by decide) (by decide) three_mem_holds (by decide)⟩


/-! ## The walk of insert and remove -/

/-- From a position `i` below `index - 1` of a well-formed list, the loop of
`linked_list_insert` and `linked_list_remove` stops on position `index - 1`. -/
theorem walk_loop_reaches_pred {m : Mem} {ll : Ptr} {cs : List (Ptr × Nat)}
    (hwf : WellFormed m ll cs) (l : Ptr) (index : Nat) (hidx : index - 1 < cs.length) :
    ∀ (fuel i : Nat) (c : Ptr × Nat), cs[i]? = some c → i < index - 1 →
      index - 1 - i ≤ fuel →
      ∃ d, cs[index - 1]? = some d ∧
        walk_loop m index fuel ⟨l, c.1, i, c.2⟩ = .ok ⟨l, d.1, index - 1, d.2⟩
  | 0, i, c, _, hi, hf => by omega
  | fuel + 1, i, c, hc, hi, hf => by
    have hlen := wf_size_lt hwf
    have hseg := hwf.2.choose_spec.2.1
    have hi1 : i + 1 < cs.length := by omega
    obtain ⟨h0, h1, hn, ny, hn1⟩ := seg_next_some hseg hc (List.getElem?_eq_getElem hi1)
    have hmod : (i + 1) % SIZE_MOD = i + 1 := Nat.mod_eq_of_lt (by omega)
    by_cases hlast : i + 1 < index - 1
    · obtain ⟨d, hd, hrun⟩ := walk_loop_reaches_pred hwf l index hidx fuel (i + 1) cs[i + 1]
        (List.getElem?_eq_getElem hi1) hlast (by omega)
      refine ⟨d, hd, ?_⟩
      simp [walk_loop, iterate_next h0 h1 hn hn1, hmod, hlast, hrun]
    · have heq : i + 1 = index - 1 := by omega
      have hstep : walk_loop m index (fuel + 1) ⟨l, c.1, i, c.2⟩ =
          .ok ⟨l, cs[i + 1].1, i + 1, cs[i + 1].2⟩ := by
        simp [walk_loop, iterate_next h0 h1 hn hn1, hmod, hlast]
      refine ⟨cs[i + 1], by rw [← heq]; exact List.getElem?_eq_getElem hi1, ?_⟩
      rw [hstep, ← heq]

/-- From a position `i` that is already `index - 1` or beyond, and not the
last one, the loop still advances once: it stops on position `i + 1`. -/
theorem walk_loop_overshoots {m : Mem} {ll : Ptr} {cs : List (Ptr × Nat)}
    (hwf : WellFormed m ll cs) (l : Ptr) (index fuel i : Nat) (c : Ptr × Nat)
    (hc : cs[i]? = some c) (hi : index - 1 ≤ i) (hi1 : i + 1 < cs.length) :
    walk_loop m index (fuel + 1) ⟨l, c.1, i, c.2⟩ =
      .ok ⟨l, cs[i + 1].1, i + 1, cs[i + 1].2⟩ := by
  have hlen := wf_size_lt hwf
  have hseg := hwf.2.choose_spec.2.1
  obtain ⟨h0, h1, hn, ny, hn1⟩ := seg_next_some hseg hc (List.getElem?_eq_getElem hi1)
  have hmod : (i + 1) % SIZE_MOD = i + 1 := Nat.mod_eq_of_lt (by omega)
  have hnot : ¬ (i + 1 < index - 1) := by omega
  simp [walk_loop, iterate_next h0 h1 hn hn1, hmod, hnot]


/-! ## Behaviour at index 1

The loop of `linked_list_insert` and `linked_list_remove` calls
`linked_list_iterate` before it tests `current_index < index - 1`, so for
`index = 1` it leaves the iterator on node 1 instead of node 0. -/

/-- C1 (evaluation). After create, insert_end(10), insert_end(20),
insert_front(5) the list reads `[5, 10, 20]`, its size is 3 and find(10) is 1;
then `linked_list_remove(ll, 1)` returns true but leaves `[5, 10]`, not
`[5, 20]`, with size 2. -/
theorem scenario_remove_at_one :
    ∃ ll m0 m1 m2 m3 m4,
      linked_list_create registered 64 Mem.empty = .ok (ll, m0) ∧
      linked_list_insert_end registered 8 m0 ll 10 = .ok (true, m1) ∧
      linked_list_insert_end registered 16 m1 ll 20 = .ok (true, m2) ∧
      linked_list_insert_front registered 24 m2 ll 5 = .ok (true, m3) ∧
      linked_list_values m3 ll = some [5, 10, 20] ∧
      linked_list_size m3 ll = .ok 3 ∧
      linked_list_find 3 m3 ll 10 = .ok 1 ∧
      linked_list_remove registered m3 ll 1 = .ok (true, m4) ∧
      linked_list_values m4 ll = some [5, 10] ∧
      linked_list_values m4 ll ≠ some [5, 20] ∧
      linked_list_size m4 ll = .ok 2 :=
  ⟨_, _, _, _, _, _, rfl, rfl, rfl, rfl, rfl, rfl, rfl, rfl, rfl, by decide, rfl⟩

/-- C2 (evaluation). On the well-formed list `[7, 8, 9]`,
`linked_list_remove(ll, 1)` returns true and erases the element at position 2:
the list is left holding `[7, 8]`, not `[7, 9]`. -/
theorem remove_at_one_erases_position_two :
    WellFormed three_mem 64 three_cells ∧ three_cells.map Prod.snd = [7, 8, 9] ∧
    ∃ m1, linked_list_remove registered three_mem 64 1 = .ok (true, m1) ∧
      linked_list_values m1 64 = some [7, 8] ∧
      linked_list_values m1 64 ≠ some ([7, 8, 9].eraseIdx 1) ∧
      WellFormed m1 64 [(8, 7), (16, 8)] :=
  ⟨three_mem_wf, rfl, _, rfl, rfl, by decide,
    ⟨by decide, ⟨8, 16, 2⟩, rfl,
      ⟨rfl, by decide, 16, rfl, rfl, by decide, NULL, rfl, rfl⟩, rfl, rfl, by decide⟩⟩

/-- C3 (evaluation). On the well-formed list `[7, 8, 9]`,
`linked_list_insert(ll, 1, 77)` returns true and puts 77 at position 2: the
list is left holding `[7, 8, 77, 9]`, not `[7, 77, 8, 9]`. -/
theorem insert_at_one_lands_at_position_two :
    WellFormed three_mem 64 three_cells ∧ three_cells.map Prod.snd = [7, 8, 9] ∧
    AllocOk three_mem 32 ∧
    ∃ m1, linked_list_insert registered 32 three_mem 64 1 77 = .ok (true, m1) ∧
      linked_list_values m1 64 = some [7, 8, 77, 9] ∧
      linked_list_values m1 64 ≠ some [7, 77, 8, 9] ∧
      linked_list_size m1 64 = .ok 4 :=
  ⟨three_mem_wf, rfl, by decide, _, rfl, rfl, by decide, rfl⟩

/-- C10 (evaluation). After create, insert_end(1), insert_end(2) and
`linked_list_insert(ll, 1, 99)`, all successful, the new node hangs behind the
tail: the size is 3, the tail is the node at 16 whose `next` is not NULL, and
`size - 1` hops from head reach the node at 24, not the tail. -/
theorem insert_at_one_breaks_tail :
    ∃ ll m0 m1 m2 m3,
      linked_list_create registered 64 Mem.empty = .ok (ll, m0) ∧
      linked_list_insert_end registered 8 m0 ll 1 = .ok (true, m1) ∧
      linked_list_insert_end registered 16 m1 ll 2 = .ok (true, m2) ∧
      linked_list_insert registered 24 m2 ll 1 99 = .ok (true, m3) ∧
      m3.lists ll = some ⟨8, 16, 3⟩ ∧
      m3.nodes 16 = some ⟨24, 2⟩ ∧
      traverse m3 (3 - 1) 8 = .ok 24 ∧
      linked_list_values m3 ll = some [1, 2, 99] :=
  ⟨_, _, _, _, _, rfl, rfl, rfl, rfl, rfl, rfl, rfl, rfl⟩


/-! ## Reachable queue states -/

theorem res_ok_pair {α β : Type} {a a1 : α} {b b1 : β}
    (h : (Res.ok (a, b) : Res (α × β)) = .ok (a1, b1)) : a = a1 ∧ b = b1 := by
  cases h; exact ⟨rfl, rfl⟩

theorem res_ok_triple {α β γ : Type} {a a1 : α} {b b1 : β} {c c1 : γ}
    (h : (Res.ok (a, b, c) : Res (α × β × γ)) = .ok (a1, b1, c1)) :
    a = a1 ∧ b = b1 ∧ c = c1 := by
  cases h; exact ⟨rfl, rfl, rfl⟩

/-- A push whose allocation fails returns false and changes nothing. -/
theorem queue_push_alloc_fail {LR : Registry} {m : Mem} {q : Ptr} {cs : List (Ptr × Nat)}
    (v : Nat) (h : QueueOk m q cs) : queue_push LR NULL m q v = .ok (false, m) := by
  obtain ⟨hq, Q, hQ, _, _⟩ := h
  simp [queue_push, hq, Mem.queue_at, hQ, linked_list_insert_end]

/-- A pop into a NULL output location returns false and changes nothing. -/
theorem queue_pop_null_out {LR : Registry} {m : Mem} {q : Ptr} {cs : List (Ptr × Nat)}
    (h : QueueOk m q cs) : queue_pop LR m q none = .ok (false, none, m) := by
  obtain ⟨hq, Q, hQ, ⟨hll, L, hL, _⟩, _⟩ := h
  simp [queue_pop, hq, Mem.queue_at, hQ, hll, Mem.list_at, hL]

/-- A pop from a non-empty queue while the free function is unregistered
returns false and leaves memory alone, but has written the output. -/
theorem queue_pop_free_unset {LR : Registry} {m : Mem} {q : Ptr} {c : Ptr × Nat}
    {cs : List (Ptr × Nat)} (o : Nat) (hR : LR.free_fptr = NULL) (h : QueueOk m q (c :: cs)) :
    queue_pop LR m q (some o) = .ok (false, some c.2, m) := by
  obtain ⟨hq, Q, hQ, hwf, hhd⟩ := h
  obtain ⟨L, nx, hL, hhead, hc0, _, _, _⟩ := wf_head hwf
  have hhne : ¬ (L.head = 0) := by rw [hhead]; exact hc0
  simp [queue_pop, hq, Mem.queue_at, hQ, hwf.1, Mem.list_at, hL, hhne, linked_list_remove, hR,
    hhd c rfl]

/-- Every reachable queue state is a well-formed queue holding the tracked
values, and the list registry has its allocate function set. -/
theorem queue_reach_ok {QR LR : Registry} {q : Ptr} {m : Mem} {vs : List Nat}
    (h : QueueReach QR LR q m vs) :
    LR.malloc_fptr ≠ NULL ∧ ∃ cs, QueueOk m q cs ∧ cs.map Prod.snd = vs := by
  induction h with
  | create m0 m aq al g hcreate hq =>
    have hQ : QR.malloc_fptr ≠ NULL := by
      intro h0
      simp [queue_create, h0] at hcreate
      exact hq hcreate.1.symm
    have haq : aq ≠ NULL := by
      intro h0
      simp [queue_create, hQ, h0] at hcreate
      exact hq hcreate.1.symm
    have hL : LR.malloc_fptr ≠ NULL := by
      intro h0
      simp [queue_create, hQ, haq, linked_list_create, h0, Mem.queue_at, Mem.set_queue] at hcreate
      split at hcreate
      · cases hcreate
      · simp [Mem.free_queue, haq] at hcreate
        exact hq hcreate.1.symm
    have hal : al ≠ NULL := by
      intro h0
      simp [queue_create, hQ, haq, linked_list_create, hL, h0, Mem.queue_at, Mem.set_queue]
        at hcreate
      split at hcreate
      · cases hcreate
      · simp [Mem.free_queue, haq] at hcreate
        exact hq hcreate.1.symm
    obtain ⟨m1, hrun, hok, _⟩ := queue_create_ok hQ hL haq hal g m0
    rw [hrun] at hcreate
    obtain ⟨hqa, hm⟩ := res_ok_pair hcreate
    subst hm hqa
    exact ⟨hL, [], hok, rfl⟩
  | push m m1 vs a v b _ halloc hrun ih =>
    obtain ⟨hL, cs, hok, hcs⟩ := ih
    refine ⟨hL, ?_⟩
    rcases halloc with ha | ha
    · subst ha
      rw [queue_push_alloc_fail v hok] at hrun
      obtain ⟨hb, hm⟩ := res_ok_pair hrun
      subst hb hm
      exact ⟨cs, hok, by simpa using hcs⟩
    · obtain ⟨ha0, hab, haf, _⟩ := ha
      obtain ⟨m2, hrun2, hok2, _⟩ := queue_push_ok a v hL hok ha0 hab haf
      rw [hrun2] at hrun
      obtain ⟨hb, hm⟩ := res_ok_pair hrun
      subst hb hm
      exact ⟨cs ++ [(a, v)], hok2, by simp [hcs]⟩
  | pop m m1 vs o o1 b _ hrun ih =>
    obtain ⟨hL, cs, hok, hcs⟩ := ih
    refine ⟨hL, ?_⟩
    cases cs with
    | nil =>
      rw [queue_pop_empty o hok] at hrun
      obtain ⟨hb, -, hm⟩ := res_ok_triple hrun
      subst hb hm
      exact ⟨[], hok, by simpa using hcs⟩
    | cons c rest =>
      cases o with
      | none =>
        rw [queue_pop_null_out hok] at hrun
        obtain ⟨hb, -, hm⟩ := res_ok_triple hrun
        subst hb hm
        exact ⟨c :: rest, hok, by simpa using hcs⟩
      | some x =>
        by_cases hF : LR.free_fptr = NULL
        · rw [queue_pop_free_unset x hF hok] at hrun
          obtain ⟨hb, -, hm⟩ := res_ok_triple hrun
          subst hb hm
          exact ⟨c :: rest, hok, by simpa using hcs⟩
        · obtain ⟨m2, hrun2, hok2⟩ := queue_pop_ok x hF hok
          rw [hrun2] at hrun
          obtain ⟨hb, -, hm⟩ := res_ok_triple hrun
          subst hb hm
          refine ⟨rest, hok2, ?_⟩
          rw [← hcs]; simp
  | next m vs o o1 b _ _ ih => exact ih


/-- The state after `queue_create` and one `queue_push(11)` is reachable,
whatever the free function pointer is. -/
theorem one_push_reach (fr : Ptr) :
    QueueReach ⟨4096, fr⟩ ⟨4096, fr⟩ 64 one_push_mem [11] :=
  QueueReach.push created_queue_mem one_push_mem [] 8 11 true
    (QueueReach.create Mem.empty created_queue_mem 64 96 ⟨0, 0⟩ rfl (by decide))
    (Or.inr (by decide)) rfl

/-- C12. Queue cache invariant: in every state reachable from `queue_create`
by `queue_push`, `queue_pop` and `queue_next` calls, successful or not,
whenever the queue's list is non-empty (its size is positive, or its head is
not NULL), `queue->head_data` equals the data of the list's head node, which
is the oldest value held. -/
theorem queue_cache_invariant (QR LR : Registry) (q : Ptr) (m : Mem) (vs : List Nat)
    (h : QueueReach QR LR q m vs) (Q : queue) (L : linked_list)
    (hQ : m.queues q = some Q) (hL : m.lists Q.ll = some L)
    (hne : L.size > 0 ∨ L.head ≠ NULL) :
    ∃ n, m.nodes L.head = some n ∧ Q.head_data = n.data ∧ vs.head? = some n.data := by
  obtain ⟨_, cs, ⟨_, Q1, hQ1, hwf, hhd⟩, hcs⟩ := queue_reach_ok h
  rw [hQ] at hQ1
  have hQeq : Q = Q1 := Option.some.inj hQ1
  subst hQeq
  cases cs with
  | nil =>
    obtain ⟨_, L1, hL1, hhead, hsize, _⟩ := (wf_nil_iff _ _).1 hwf
    rw [hL] at hL1
    have hLeq : L = L1 := Option.some.inj hL1
    subst hLeq
    rcases hne with h1 | h1
    · omega
    · exact absurd hhead h1
  | cons c rest =>
    obtain ⟨L1, nx, hL1, hhead, _, _, hn, _⟩ := wf_head hwf
    rw [hL] at hL1
    have hLeq : L = L1 := Option.some.inj hL1
    subst hLeq
    refine ⟨⟨nx, c.2⟩, by rw [hhead]; exact hn, hhd c rfl, ?_⟩
    rw [← hcs]; rfl

/-- Instance of the cache invariant: the state after one push of 11. -/
theorem queue_cache_invariant_witness :
    QueueReach registered registered 64 one_push_mem [11] ∧
    one_push_mem.queues 64 = some ⟨96, 11⟩ ∧
    one_push_mem.lists (⟨96, 11⟩ : queue).ll = some ⟨8, 8, 1⟩ ∧
    ((⟨8, 8, 1⟩ : linked_list).size > 0 ∨ (⟨8, 8, 1⟩ : linked_list).head ≠ NULL) ∧
    ∃ n, one_push_mem.nodes (⟨8, 8, 1⟩ : linked_list).head = some n ∧
      (⟨96, 11⟩ : queue).head_data = n.data ∧ [11].head? = some n.data :=
  ⟨one_push_reach 4104, rfl, rfl, by decide,
    queue_cache_invariant registered registered 64 one_push_mem [11] (one_push_reach 4104)
      ⟨96, 11⟩ ⟨8, 8, 1⟩ rfl rfl (by decide)⟩

/-- C16. In every queue state reached from `queue_create` by push and pop
calls: the size is the number of values held; when the queue is non-empty,
`queue_next` on a non-NULL output location returns true and writes the oldest
value, and an immediately following `queue_pop` writes that same value (and
returns true when the free function is registered); when the queue is empty,
`queue_next` returns false and writes nothing. The embedding of `queue_next`
has no memory result: the source stores only into the output location, so the
queue and its list are as before the call. -/
theorem queue_next_peeks (QR LR : Registry) (q : Ptr) (m : Mem) (vs : List Nat)
    (h : QueueReach QR LR q m vs) :
    queue_size m q = .ok vs.length ∧
    (∀ v rest, vs = v :: rest → ∀ o o1 : Nat,
      queue_next m q (some o) = .ok (true, some v) ∧
      ∃ b m1, queue_pop LR m q (some o1) = .ok (b, some v, m1) ∧
        (LR.free_fptr ≠ NULL → b = true)) ∧
    (vs = [] → ∀ o, queue_next m q o = .ok (false, o)) := by
  obtain ⟨_, cs, hok, hcs⟩ := queue_reach_ok h
  refine ⟨by rw [queue_size_ok hok, ← hcs, List.length_map], ?_, ?_⟩
  · intro v rest hvs o o1
    cases cs with
    | nil => rw [hvs] at hcs; simp at hcs
    | cons c cs1 =>
      have hv : c.2 = v := by
        rw [hvs] at hcs; simp at hcs; exact hcs.1
      subst hv
      refine ⟨queue_next_ok o hok, ?_⟩
      by_cases hF : LR.free_fptr = NULL
      · exact ⟨false, m, queue_pop_free_unset o1 hF hok, fun hne => absurd hF hne⟩
      · obtain ⟨m1, hrun, _⟩ := queue_pop_ok o1 hF hok
        exact ⟨true, m1, hrun, fun _ => rfl⟩
  · intro hvs o
    have hnil : cs = [] := by
      rw [hvs] at hcs; simpa using hcs
    subst hnil
    obtain ⟨hq, Q, hQ, hwf, _⟩ := hok
    obtain ⟨hll, L, hL, _, hsize, _⟩ := (wf_nil_iff _ _).1 hwf
    simp [queue_next, hq, Mem.queue_at, hQ, hll, Mem.list_at, hL, hsize]

/-- Instance of the peek property: the state after one push of 11. -/
theorem queue_next_peeks_witness :
    QueueReach registered registered 64 one_push_mem [11] ∧
    (queue_size one_push_mem 64 = .ok [11].length ∧
    (∀ v rest, [11] = v :: rest → ∀ o o1 : Nat,
      queue_next one_push_mem 64 (some o) = .ok (true, some v) ∧
      ∃ b m1, queue_pop registered one_push_mem 64 (some o1) = .ok (b, some v, m1) ∧
        (registered.free_fptr ≠ NULL → b = true)) ∧
    ([11] = [] → ∀ o, queue_next one_push_mem 64 o = .ok (false, o))) :=
  ⟨one_push_reach 4104,
    queue_next_peeks registered registered 64 one_push_mem [11] (one_push_reach 4104)⟩


/-! ## Guards and delegation -/

/-- C14. On a well-formed list of size `n`, `linked_list_insert` with
`index > n` and `linked_list_remove` with `index >= n` return false, whatever
the registry and the allocator do, and the memory (so head, tail, size and
every node of the list) is unchanged. -/
theorem out_of_range_index_rejected (R : Registry) (a : Ptr) (m : Mem) (ll : Ptr)
    (cs : List (Ptr × Nat)) (index v : Nat) (hwf : WellFormed m ll cs) :
    linked_list_size m ll = .ok cs.length ∧
    (cs.length < index → linked_list_insert R a m ll index v = .ok (false, m)) ∧
    (cs.length ≤ index → linked_list_remove R m ll index = .ok (false, m)) := by
  refine ⟨size_wf hwf, ?_, ?_⟩
  · intro hi
    obtain ⟨hll, L, hL, _, hsize, _, _⟩ := hwf
    by_cases hR : R.malloc_fptr = NULL ∨ R.free_fptr = NULL
    · rcases hR with hR | hR <;> simp [linked_list_insert, hR]
    · simp only [not_or] at hR
      simp [linked_list_insert, hll, hR.1, hR.2, Mem.list_at, hL, hsize, hi]
  · intro hi
    obtain ⟨hll, L, hL, _, hsize, _, _⟩ := hwf
    by_cases hR : R.free_fptr = NULL
    · simp [linked_list_remove, hR]
    · simp [linked_list_remove, hll, hR, Mem.list_at, hL, hsize, hi]

/-- Instance of the range guard: the list `[7, 8, 9]`, index 4 for insert and
index 3 for remove. -/
theorem out_of_range_index_rejected_witness :
    WellFormed three_mem 64 three_cells ∧
    (linked_list_size three_mem 64 = .ok three_cells.length ∧
    (three_cells.length < 4 →
      linked_list_insert registered 32 three_mem 64 4 5 = .ok (false, three_mem)) ∧
    (three_cells.length ≤ 4 →
      linked_list_remove registered three_mem 64 4 = .ok (false, three_mem))) :=
  ⟨three_mem_wf, out_of_range_index_rejected registered 32 three_mem 64 three_cells 4 5
    three_mem_wf⟩

/-- A well-formed list satisfies the emptiness invariant. -/
theorem wf_empty_iff {m : Mem} {ll : Ptr} {cs : List (Ptr × Nat)} (h : WellFormed m ll cs) :
    ∃ L, m.lists ll = some L ∧ EmptyIff L := by
  cases cs with
  | nil =>
    obtain ⟨_, L, hL, hhead, hsize, htail⟩ := (wf_nil_iff _ _).1 h
    exact ⟨L, hL, by simp [EmptyIff, hhead, hsize, htail]⟩
  | cons c rest =>
    obtain ⟨L, nx, hL, hhead, hc0, hsize, _, _⟩ := wf_head h
    have ht := wf_list_eq h
    rw [hL] at ht
    have hLeq := Option.some.inj ht
    have hnd := seg_live (c :: rest) _ _ h.2.choose_spec.2.1
    have htail : L.tail ≠ NULL := by
      rw [hLeq]
      have hne : (c :: rest) ≠ [] := by simp
      have hmem := List.getLast_mem hne
      have h1 := (hnd _ hmem).1
      simp only [List.map_cons]
      rw [List.getLastD_eq_getLast?, ← List.map_cons, List.getLast?_map,
        List.getLast?_eq_getLast _ hne]
      simpa using h1
    refine ⟨L, hL, ?_⟩
    have hh : L.head ≠ NULL := by rw [hhead]; exact hc0
    simp [EmptyIff, hsize, hh, htail]

/-- Delegation at both ends for a list struct whose head and tail are NULL
when its size is 0. -/
theorem insert_delegates_of_empty_inv (R : Registry) (a : Ptr) (m : Mem) (ll : Ptr)
    (L : linked_list) (v : Nat) (hRm : R.malloc_fptr ≠ NULL) (hRf : R.free_fptr ≠ NULL)
    (hL : m.lists ll = some L) (hinv : L.size = 0 → L.head = NULL ∧ L.tail = NULL) :
    linked_list_insert R a m ll L.size v = linked_list_insert_end R a m ll v ∧
    linked_list_insert R a m ll 0 v = linked_list_insert_front R a m ll v := by
  refine ⟨?_, ?_⟩
  · by_cases hll : ll = NULL
    · simp [linked_list_insert, linked_list_insert_end, hll]
    · by_cases hs : L.size = 0
      · have hh : L.head = NULL := (hinv hs).1
        have ht : L.tail = NULL := (hinv hs).2
        by_cases ha : a = NULL
        · simp [linked_list_insert, linked_list_insert_end, linked_list_insert_front, hll, hRm,
            hRf, Mem.list_at, hL, hs, ha]
        · simp [linked_list_insert, linked_list_insert_end, linked_list_insert_front, hll, hRm,
            hRf, Mem.list_at, hL, hs, ha, Mem.set_node, hh, ht]
      · simp [linked_list_insert, hll, hRm, hRf, Mem.list_at, hL, hs]
  · by_cases hll : ll = NULL
    · simp [linked_list_insert, linked_list_insert_front, hll]
    · simp [linked_list_insert, hll, hRm, hRf, Mem.list_at, hL]

/-- C19. For every non-NULL queue whose list is non-NULL (both live),
`queue_has_next` returns true if and only if `queue_size` is positive. -/
theorem has_next_iff_size_pos (m : Mem) (q : Ptr) (Q : queue) (L : linked_list)
    (hq : q ≠ NULL) (hQ : m.queues q = some Q) (hll : Q.ll ≠ NULL)
    (hL : m.lists Q.ll = some L) :
    ∃ b n, queue_has_next m q = .ok b ∧ queue_size m q = .ok n ∧ (b = true ↔ n > 0) := by
  refine ⟨decide (L.size > 0), L.size, ?_, ?_, by simp⟩
  · simp [queue_has_next, hq, Mem.queue_at, hQ, hll, Mem.list_at, hL]
  · simp [queue_size, hq, Mem.queue_at, hQ, linked_list_size, hll, Mem.list_at, hL]

/-- Instance of the has-next property: the queue after one push. -/
theorem has_next_iff_size_pos_witness :
    (64 : Ptr) ≠ NULL ∧ one_push_mem.queues 64 = some ⟨96, 11⟩ ∧
    (⟨96, 11⟩ : queue).ll ≠ NULL ∧
    one_push_mem.lists (⟨96, 11⟩ : queue).ll = some ⟨8, 8, 1⟩ ∧
    ∃ b n, queue_has_next one_push_mem 64 = .ok b ∧ queue_size one_push_mem 64 = .ok n ∧
      (b = true ↔ n > 0) :=
  ⟨by decide, rfl, by decide, rfl,
    has_next_iff_size_pos one_push_mem 64 ⟨96, 11⟩ ⟨8, 8, 1⟩ (by decide) rfl (by decide) rfl⟩


/-- On a well-formed list, `index` hops from head reach the cell at position
`index`. -/
theorem traverse_wf {m : Mem} {ll : Ptr} {cs : List (Ptr × Nat)} {i : Nat} {c : Ptr × Nat}
    (hwf : WellFormed m ll cs) (hc : cs[i]? = some c) :
    ∃ L, m.lists ll = some L ∧ traverse m i L.head = .ok c.1 := by
  obtain ⟨_, L, hL, hseg, _, _, _⟩ := hwf
  obtain ⟨_, hpre, _⟩ := seg_split_at cs _ i c hseg hc
  have hi : i < cs.length := (List.getElem?_eq_some_iff.1 hc).1
  have htr := traverse_seg _ _ _ hpre
  rw [List.length_take, Nat.min_eq_left (Nat.le_of_lt hi)] at htr
  exact ⟨L, hL, htr⟩

/-- C18. `linked_list_create_iterator(ll, index)` returns NULL on a NULL list;
on a well-formed list holding `xs` it returns NULL exactly when the allocate
or the free function is unregistered, `index >= size`, or the iterator
allocation fails, and then memory is unchanged; otherwise the iterator it
returns has `ll` set to the list, `current_node` the node reached from head in
`index` hops, `current_index = index` and `data = xs[index]`, and the nodes
and the list structs are unchanged. -/
theorem create_iterator_result (R : Registry) (a : Ptr) (m : Mem) (ll : Ptr) (xs : List Nat)
    (index : Nat) (h : Holds m ll xs) :
    (∀ m0 : Mem, linked_list_create_iterator R a m0 NULL index = .ok (NULL, m0)) ∧
    linked_list_size m ll = .ok xs.length ∧
    ∃ p m1, linked_list_create_iterator R a m ll index = .ok (p, m1) ∧
      (p = NULL ↔
        (R.malloc_fptr = NULL ∨ R.free_fptr = NULL ∨ index ≥ xs.length ∨ a = NULL)) ∧
      (p = NULL → m1 = m) ∧
      (p ≠ NULL → ∃ it L, m1.iters p = some it ∧ m.lists ll = some L ∧
        it.ll = ll ∧ traverse m index L.head = .ok it.current_node ∧
        it.current_index = index ∧ xs[index]? = some it.data ∧
        m1.nodes = m.nodes ∧ m1.lists = m.lists ∧ Holds m1 ll xs) := by
  obtain ⟨cs, hwf, rfl⟩ := h
  refine ⟨fun m0 => by simp [linked_list_create_iterator], by simpa using size_wf hwf, ?_⟩
  rw [List.length_map]
  obtain ⟨hll, L, hL, _, hsize, _, _⟩ := hwf
  by_cases hRm : R.malloc_fptr = NULL
  · exact ⟨NULL, m, by simp [linked_list_create_iterator, hRm], by simp [hRm], fun _ => rfl,
      fun hp => absurd rfl hp⟩
  by_cases hRf : R.free_fptr = NULL
  · exact ⟨NULL, m, by simp [linked_list_create_iterator, hRf], by simp [hRf], fun _ => rfl,
      fun hp => absurd rfl hp⟩
  by_cases hi : index ≥ cs.length
  · exact ⟨NULL, m, by simp [linked_list_create_iterator, hll, hRm, hRf, Mem.list_at, hL, hsize,
      hi], by simp [hi], fun _ => rfl, fun hp => absurd rfl hp⟩
  by_cases ha : a = NULL
  · have hlt : ¬ (cs.length ≤ index) := hi
    exact ⟨NULL, m, by simp [linked_list_create_iterator, hll, hRm, hRf, Mem.list_at, hL, hsize,
      hlt, ha], by simp [ha], fun _ => rfl, fun hp => absurd rfl hp⟩
  have hwf : WellFormed m ll cs := ⟨hll, L, hL, by assumption, hsize, by assumption,
    by assumption⟩
  have hlt : index < cs.length := by omega
  have hc : cs[index]? = some cs[index] := List.getElem?_eq_getElem hlt
  obtain ⟨L1, hL1, htr⟩ := traverse_wf hwf hc
  refine ⟨a, m.set_iter a ⟨ll, cs[index].1, index, cs[index].2⟩,
    create_iterator_wf hwf hc hRm hRf a ha, ?_, fun hp => absurd hp ha, ?_⟩
  · simp [hRm, hRf, ha, hlt]
  · intro _
    exact ⟨⟨ll, cs[index].1, index, cs[index].2⟩, L1, by simp [Mem.set_iter], hL1, rfl, htr, rfl,
      by simp [hlt], rfl, rfl, ⟨cs, hwf, rfl⟩⟩

/-- Instance of the iterator-creation property: index 1 of `[7, 8, 9]`. -/
theorem create_iterator_result_witness :
    Holds three_mem 64 [7, 8, 9] ∧
    ((∀ m0 : Mem, linked_list_create_iterator registered 32 m0 NULL 1 = .ok (NULL, m0)) ∧
    linked_list_size three_mem 64 = .ok [7, 8, 9].length ∧
    ∃ p m1, linked_list_create_iterator registered 32 three_mem 64 1 = .ok (p, m1) ∧
      (p = NULL ↔
        (registered.malloc_fptr = NULL ∨ registered.free_fptr = NULL ∨
          1 ≥ [7, 8, 9].length ∨ (32 : Ptr) = NULL)) ∧
      (p = NULL → m1 = three_mem) ∧
      (p ≠ NULL → ∃ it L, m1.iters p = some it ∧ three_mem.lists 64 = some L ∧
        it.ll = 64 ∧ traverse three_mem 1 L.head = .ok it.current_node ∧
        it.current_index = 1 ∧ [7, 8, 9][1]? = some it.data ∧
        m1.nodes = three_mem.nodes ∧ m1.lists = three_mem.lists ∧
        Holds m1 64 [7, 8, 9])) :=
  ⟨three_mem_holds, create_iterator_result registered 32 three_mem 64 [7, 8, 9] 1 three_mem_holds⟩

/-! ## Evaluations -/

/-- C11 (evaluation). After create, insert_end(1), insert_end(2),
`linked_list_insert(ll, 1, 99)`, insert_end(5) and three
`linked_list_remove(ll, 0)`, all successful, the list struct has a NULL head
with size 1 and a non-NULL tail: `size == 0 ⇔ head == null ⇔ tail == null` is
broken. The insert at index 1 hangs its node behind the tail without moving
the tail, the next insert_end overwrites that link, and `size` then exceeds
the length of the chain. -/
theorem empty_iff_broken_after_insert_at_one :
    ∃ ll m0 m1 m2 m3 m4 m5 m6 m7,
      linked_list_create registered 64 Mem.empty = .ok (ll, m0) ∧
      linked_list_insert_end registered 8 m0 ll 1 = .ok (true, m1) ∧
      linked_list_insert_end registered 16 m1 ll 2 = .ok (true, m2) ∧
      linked_list_insert registered 24 m2 ll 1 99 = .ok (true, m3) ∧
      linked_list_insert_end registered 32 m3 ll 5 = .ok (true, m4) ∧
      linked_list_remove registered m4 ll 0 = .ok (true, m5) ∧
      linked_list_remove registered m5 ll 0 = .ok (true, m6) ∧
      linked_list_remove registered m6 ll 0 = .ok (true, m7) ∧
      m0.lists ll = some ⟨NULL, NULL, 0⟩ ∧ EmptyIff ⟨NULL, NULL, 0⟩ ∧
      m6.lists ll = some ⟨32, 32, 2⟩ ∧ EmptyIff ⟨32, 32, 2⟩ ∧
      m7.lists ll = some ⟨NULL, 32, 1⟩ ∧ ¬ EmptyIff ⟨NULL, 32, 1⟩ :=
  ⟨_, _, _, _, _, _, _, _, _, rfl, rfl, rfl, rfl, rfl, rfl, rfl, rfl, rfl, by decide, rfl,
    by decide, rfl, by decide⟩

/-- C13 (evaluation). With the free function unregistered, on the reachable
queue holding 11 and an output location holding 0, `queue_pop` returns false
and leaves the queue and its list alone, but the output location now holds
11. -/
theorem queue_pop_writes_before_failing :
    QueueReach malloc_only malloc_only 64 one_push_mem [11] ∧
    malloc_only.free_fptr = NULL ∧
    queue_pop malloc_only one_push_mem 64 (some 0) = .ok (false, some 11, one_push_mem) ∧
    (some 11 : Option Nat) ≠ some 0 :=
  ⟨one_push_reach NULL, rfl, rfl, by decide⟩

/-- When the inner list cannot be allocated and the free function of queue.c
is registered, `queue_create` hands the queue struct to it once and returns
NULL. -/
theorem queue_create_rollback {QR LR : Registry} {aq al : Ptr} (g : queue) (m : Mem)
    (hQ : QR.malloc_fptr ≠ NULL) (hF : QR.free_fptr ≠ NULL) (haq : aq ≠ NULL)
    (hfail : LR.malloc_fptr = NULL ∨ al = NULL) :
    ∃ m1, queue_create QR LR aq al g m = .ok (NULL, m1) ∧ m1.freed = m.freed ++ [aq] ∧
      m1.queues aq = none ∧ m1.lists = m.lists ∧ m1.nodes = m.nodes := by
  have hcreate : ∀ m0 : Mem, linked_list_create LR al m0 = .ok (NULL, m0) := by
    intro m0
    rcases hfail with h | h <;> simp [linked_list_create, h]
  refine ⟨⟨m.nodes, m.lists, m.iters,
    upd (upd (upd m.queues aq (some g)) aq (some ⟨NULL, g.head_data⟩)) aq none,
    m.freed ++ [aq]⟩, ?_, rfl, by simp, rfl, rfl⟩
  simp [queue_create, hQ, haq, hcreate, Mem.queue_at, Mem.set_queue, hF, Mem.free_queue]

/-- C17 (evaluation). With the allocate function registered, the free function
unregistered, the queue struct allocated at 64 and the inner list allocation
failing (the allocator returns NULL, or linked_list.c has no allocate
function), `queue_create` calls the NULL free function pointer: it neither
frees the queue struct nor returns NULL. With the free function registered it
frees the struct once and returns NULL. -/
theorem queue_create_calls_unset_free :
    queue_create malloc_only malloc_only 64 NULL ⟨0, 0⟩ Mem.empty = .ub ∧
    queue_create malloc_only ⟨NULL, NULL⟩ 64 96 ⟨0, 0⟩ Mem.empty = .ub ∧
    ∃ m1, queue_create registered registered 64 NULL ⟨0, 0⟩ Mem.empty = .ok (NULL, m1) ∧
      m1.freed = [64] :=
  ⟨rfl, rfl, _, rfl, rfl⟩

/-- C20 (evaluation). On the well-formed list `[7, 8, 9]` and `index = 1`, the
walk (populate an iterator at 0, then the loop) ends on the node at position
1, with `current_index = 1`, not on the predecessor at position 0; for
`index = 2` it ends on position 1, the predecessor. -/
theorem walk_at_index_one_passes_pred :
    WellFormed three_mem 64 three_cells ∧
    __linked_list_populate_iterator three_mem 64 0 (some uninit_iterator) =
      .ok (true, some ⟨64, 8, 0, 7⟩) ∧
    walk_loop three_mem 1 1 ⟨64, 8, 0, 7⟩ = .ok ⟨64, 16, 1, 8⟩ ∧
    (⟨64, 16, 1, 8⟩ : iterator).current_index ≠ 1 - 1 ∧
    walk_loop three_mem 2 2 ⟨64, 8, 0, 7⟩ = .ok ⟨64, 16, 1, 8⟩ :=
  ⟨three_mem_wf, rfl, rfl, by decide, rfl⟩


/-! ## Allocation failure -/

/-- The walk of insert and remove on a well-formed list, for an interior
index: populating at 0 succeeds and the loop returns an iterator, on position
`index - 1` when `index ≥ 2` and on position 1 when `index = 1`. -/
theorem walk_wf {m : Mem} {ll : Ptr} {cs : List (Ptr × Nat)} (hwf : WellFormed m ll cs)
    (index : Nat) (h1 : 1 ≤ index) (hn : index < cs.length) :
    ∃ c0 d, cs[0]? = some c0 ∧
      __linked_list_populate_iterator m ll 0 (some uninit_iterator) =
        .ok (true, some ⟨ll, c0.1, 0, c0.2⟩) ∧
      cs[if index = 1 then 1 else index - 1]? = some d ∧
      walk_loop m index index ⟨ll, c0.1, 0, c0.2⟩ =
        .ok ⟨ll, d.1, if index = 1 then 1 else index - 1, d.2⟩ := by
  have h0 : 0 < cs.length := by omega
  have hc0 : cs[0]? = some cs[0] := List.getElem?_eq_getElem h0
  refine ⟨cs[0], ?_⟩
  by_cases hone : index = 1
  · subst hone
    have h := walk_loop_overshoots hwf ll 1 0 0 cs[0] hc0 (by omega) (by omega)
    exact ⟨cs[0 + 1], hc0, populate_wf hwf hc0 _, by simp [List.getElem?_eq_getElem hn], by
      simpa using h⟩
  · obtain ⟨d, hd, hrun⟩ := walk_loop_reaches_pred hwf ll index (by omega) index 0 cs[0] hc0
      (by omega) (by omega)
    exact ⟨d, hc0, populate_wf hwf hc0 _, by simp [hone, hd], by simp [hone, hrun]⟩

/-- Whatever the memory, when the allocator returns NULL `linked_list_insert`
cannot return anything but false with the memory it was given. -/
theorem insert_alloc_fail_partial (R : Registry) (m : Mem) (ll : Ptr) (index v : Nat)
    (b : Bool) (m1 : Mem) (h : linked_list_insert R NULL m ll index v = .ok (b, m1)) :
    b = false ∧ m1 = m := by
  have hfront : linked_list_insert_front R NULL m ll v = .ok (false, m) := by
    simp [linked_list_insert_front]
  have hend : linked_list_insert_end R NULL m ll v = .ok (false, m) := by
    simp [linked_list_insert_end]
  unfold linked_list_insert at h
  split at h
  · obtain ⟨hb, hm⟩ := res_ok_pair h
    exact ⟨hb.symm, hm.symm⟩
  · cases hL : m.list_at ll with
    | ok L =>
      simp only [hL, Res.ok_bind] at h
      split at h
      · obtain ⟨hb, hm⟩ := res_ok_pair h
        exact ⟨hb.symm, hm.symm⟩
      · split at h
        · rw [hfront] at h
          obtain ⟨hb, hm⟩ := res_ok_pair h
          exact ⟨hb.symm, hm.symm⟩
        · split at h
          · rw [hend] at h
            obtain ⟨hb, hm⟩ := res_ok_pair h
            exact ⟨hb.symm, hm.symm⟩
          · cases hp : __linked_list_populate_iterator m ll 0 (some uninit_iterator) with
            | ok pr =>
              obtain ⟨b0, r⟩ := pr
              simp only [hp, Res.ok_bind] at h
              split at h
              · obtain ⟨hb, hm⟩ := res_ok_pair h
                exact ⟨hb.symm, hm.symm⟩
              · cases hw : walk_loop m index index (r.getD uninit_iterator) with
                | ok it =>
                  simp [hw] at h
                  exact ⟨h.1, h.2.symm⟩
                | ub => simp [hw] at h
                | timeout => simp [hw] at h
            | ub => simp [hp] at h
            | timeout => simp [hp] at h
    | ub => simp [hL] at h
    | timeout => simp [hL] at h

/-- On a well-formed list, when the allocator returns NULL
`linked_list_insert` returns false and leaves the memory unchanged, for every
index (also an interior one, after the walk). -/
theorem alloc_failure_on_well_formed (R : Registry) (m : Mem) (ll : Ptr)
    (cs : List (Ptr × Nat)) (index v : Nat) (hwf : WellFormed m ll cs) :
    linked_list_insert R NULL m ll index v = .ok (false, m) := by
  have hfront : ∀ (m0 : Mem) (l0 : Ptr),
      linked_list_insert_front R NULL m0 l0 v = .ok (false, m0) := by
    intro m0 l0; simp [linked_list_insert_front]
  have hend : ∀ (m0 : Mem) (l0 : Ptr),
      linked_list_insert_end R NULL m0 l0 v = .ok (false, m0) := by
    intro m0 l0; simp [linked_list_insert_end]
  have hwf0 := hwf
  obtain ⟨hll, L, hL, _, hsize, _, _⟩ := hwf
  by_cases hR : R.malloc_fptr = NULL ∨ R.free_fptr = NULL
  · rcases hR with hR | hR <;> simp [linked_list_insert, hR]
  simp only [not_or] at hR
  by_cases hgt : index > cs.length
  · simp [linked_list_insert, hll, hR.1, hR.2, Mem.list_at, hL, hsize, hgt]
  have hle : ¬ (cs.length < index) := hgt
  by_cases h0 : index = 0
  · simp [linked_list_insert, hll, hR.1, hR.2, Mem.list_at, hL, hsize, h0, hfront]
  by_cases hn : index = cs.length
  · have hne : cs.length ≠ 0 := fun h => h0 (hn.trans h)
    simp [linked_list_insert, hll, hR.1, hR.2, Mem.list_at, hL, hsize, hn, hend, hfront]
  obtain ⟨c0, d, _, hpop, _, hwalk⟩ := walk_wf hwf0 index (by omega) (by omega)
  simp [linked_list_insert, hll, hR.1, hR.2, Mem.list_at, hL, hsize, hle, h0, hn, hpop, hwalk]


/-! ## Iterators -/

/-- Whatever the memory, when `__linked_list_populate_iterator` returns, it
returns true exactly when the list pointer is not NULL and `index < size`. -/
theorem populate_flag (m : Mem) (ll : Ptr) (index : Nat) (junk : iterator) (b : Bool)
    (r : Option iterator)
    (h : __linked_list_populate_iterator m ll index (some junk) = .ok (b, r)) :
    (b = true ↔ ll ≠ NULL ∧ ∃ L, m.lists ll = some L ∧ index < L.size) ∧
      (b = false → r = some junk) := by
  unfold __linked_list_populate_iterator at h
  by_cases hll : ll = NULL
  · simp [hll] at h
    simp [← h.1, ← h.2, hll]
  · simp only [hll, or_false, reduceCtorEq, if_false] at h
    cases hL : m.lists ll with
    | none => simp [Mem.list_at, hll, hL] at h
    | some L =>
      simp only [Mem.list_at, hll, hL, if_false, Res.ok_bind] at h
      by_cases hi : index ≥ L.size
      · simp [hi] at h
        have hnot : ¬ (index < L.size) := by omega
        simp [← h.1, ← h.2, hnot]
      · simp only [hi, if_false] at h
        cases ht : traverse m index L.head with
        | ok curr =>
          simp only [ht, Res.ok_bind] at h
          cases hc : m.node_at curr with
          | ok c =>
            simp [hc] at h
            have hlt : index < L.size := by omega
            simp [← h.1, hll, hlt]
          | ub => simp [hc] at h
          | timeout => simp [hc] at h
        | ub => simp [ht] at h
        | timeout => simp [ht] at h

/-- Whatever the memory, when `linked_list_create_iterator` returns a non-NULL
iterator, `__linked_list_populate_iterator` for the same list and index
succeeds and fills in the same iterator. -/
theorem create_iterator_agrees (R : Registry) (a : Ptr) (m : Mem) (ll : Ptr) (index : Nat)
    (junk : iterator) (p : Ptr) (m1 : Mem)
    (h : linked_list_create_iterator R a m ll index = .ok (p, m1)) (hp : p ≠ NULL) :
    ∃ it, __linked_list_populate_iterator m ll index (some junk) = .ok (true, some it) ∧
      m1.iters p = some it := by
  unfold linked_list_create_iterator at h
  by_cases hg : ll = NULL ∨ R.malloc_fptr = NULL ∨ R.free_fptr = NULL
  · simp [hg] at h
    exact absurd h.1.symm hp
  · simp only [hg, if_false] at h
    have hll : ll ≠ NULL := fun h0 => hg (Or.inl h0)
    cases hL : m.list_at ll with
    | ok L =>
      simp only [hL, Res.ok_bind] at h
      by_cases hi : index ≥ L.size
      · simp [hi] at h
        exact absurd h.1.symm hp
      · simp only [hi, if_false] at h
        by_cases ha : a = NULL
        · simp [ha] at h
          exact absurd h.1.symm hp
        · simp only [ha, if_false] at h
          cases ht : traverse m index L.head with
          | ok curr =>
            simp only [ht, Res.ok_bind] at h
            cases hc : m.node_at curr with
            | ok c =>
              simp only [hc, Res.ok_bind, Res.pure_eq] at h
              obtain ⟨hpa, hm⟩ := res_ok_pair h
              subst hpa hm
              refine ⟨⟨ll, curr, index, c.data⟩, ?_, by simp [Mem.set_iter]⟩
              simp [__linked_list_populate_iterator, hll, hL, hi, ht, hc]
            | ub => simp [hc] at h
            | timeout => simp [hc] at h
          | ub => simp [ht] at h
          | timeout => simp [ht] at h
    | ub => simp [hL] at h
    | timeout => simp [hL] at h

/-- On a NULL list `__linked_list_populate_iterator` fails; on a well-formed
list it returns, and succeeds exactly when `index < size`, leaving the
caller's iterator alone when it fails; on any memory, when it returns, it
succeeds exactly when the list is not NULL and `index < size`; and whenever
`linked_list_create_iterator(ll, index)` returns an iterator, populating for
the same list and index succeeds with the same fields (`ll`, `current_node`,
`current_index`, `data`). The embedding of `__linked_list_populate_iterator`
takes neither a registry nor an allocation result and returns no memory: the
source reads no function pointer and stores only into the caller's
iterator. -/
theorem populate_on_well_formed (R : Registry) (a : Ptr) (m : Mem) (ll : Ptr)
    (cs : List (Ptr × Nat)) (index : Nat) (junk : iterator) (hwf : WellFormed m ll cs) :
    (∀ (m0 : Mem) (i : Nat),
      __linked_list_populate_iterator m0 NULL i (some junk) = .ok (false, some junk)) ∧
    linked_list_size m ll = .ok cs.length ∧
    (∃ b r, __linked_list_populate_iterator m ll index (some junk) = .ok (b, r) ∧
      (b = true ↔ index < cs.length) ∧ (b = false → r = some junk)) ∧
    (∀ (m0 : Mem) (l0 : Ptr) (i : Nat) (b : Bool) (r : Option iterator),
      __linked_list_populate_iterator m0 l0 i (some junk) = .ok (b, r) →
      (b = true ↔ l0 ≠ NULL ∧ ∃ L, m0.lists l0 = some L ∧ i < L.size)) ∧
    (∀ (m0 : Mem) (l0 : Ptr) (i : Nat) (p : Ptr) (m1 : Mem),
      linked_list_create_iterator R a m0 l0 i = .ok (p, m1) → p ≠ NULL →
      ∃ it, __linked_list_populate_iterator m0 l0 i (some junk) = .ok (true, some it) ∧
        m1.iters p = some it) := by
  refine ⟨fun m0 i => by simp [__linked_list_populate_iterator], size_wf hwf, ?_,
    fun m0 l0 i b r h => (populate_flag m0 l0 i junk b r h).1,
    fun m0 l0 i p m1 h hp => create_iterator_agrees R a m0 l0 i junk p m1 h hp⟩
  by_cases hi : index < cs.length
  · exact ⟨true, _, populate_wf hwf (List.getElem?_eq_getElem hi) junk, by simp [hi],
      fun h => by cases h⟩
  · obtain ⟨hll, L, hL, _, hsize, _, _⟩ := hwf
    have hge : L.size ≤ index := by omega
    refine ⟨false, some junk, ?_, by simp [hi], fun _ => rfl⟩
    simp [__linked_list_populate_iterator, hll, Mem.list_at, hL, hge]

/-- C23. For a usable iterator whose index is a real one (below the sentinel
`SIZE_MAX`): `linked_list_iterate` returns false exactly when the iterator
pointer is NULL, `current_node` is NULL or the current node's `next` is NULL,
and then leaves the iterator unchanged; otherwise it returns true, moves
`current_node` to the successor, increases `current_index` by exactly one,
sets `data` to the new current node's data and keeps `ll`. The embedding of
`linked_list_iterate` returns no memory: the source stores only into the
iterator, so the list is as before the call. -/
theorem iterate_step_result (m : Mem) (it : iterator) (hv : IterValid m it)
    (hidx : it.current_index < SIZE_MAX) :
    linked_list_iterate m none = .ok (false, none) ∧
    ∃ b it1, linked_list_iterate m (some it) = .ok (b, some it1) ∧
      (b = false ↔
        (it.current_node = NULL ∨ ∃ n, m.nodes it.current_node = some n ∧ n.next = NULL)) ∧
      (b = false → it1 = it) ∧
      (b = true → ∃ n n1, m.nodes it.current_node = some n ∧ m.nodes n.next = some n1 ∧
        it1.current_node = n.next ∧ it1.current_index = it.current_index + 1 ∧
        it1.data = n1.data ∧ it1.ll = it.ll) := by
  refine ⟨rfl, ?_⟩
  by_cases hc : it.current_node = NULL
  · exact ⟨false, it, by simp [linked_list_iterate, hc], by simp [hc], fun _ => rfl,
      fun h => by cases h⟩
  · obtain ⟨n, hn, hnext⟩ := hv hc
    by_cases hx : n.next = NULL
    · refine ⟨false, it, by simp [linked_list_iterate, hc, Mem.node_at, hn, hx], ?_,
        fun _ => rfl, fun h => by cases h⟩
      simp [hc, hn, hx]
    · obtain ⟨n1, hn1⟩ := hnext hx
      have hmod : (it.current_index + 1) % SIZE_MOD = it.current_index + 1 :=
        Nat.mod_eq_of_lt (by simp only [SIZE_MAX, SIZE_MOD] at hidx ⊢; omega)
      refine ⟨true, ⟨it.ll, n.next, it.current_index + 1, n1.data⟩, ?_, ?_,
        (fun h => by cases h), fun _ => ⟨n, n1, hn, hn1, rfl, rfl, rfl, rfl⟩⟩
      · simp [linked_list_iterate, hc, Mem.node_at, hn, hx, hn1, hmod]
      · simp [hc, hn, hx]

/-- Instance of the iterate property: the iterator on the first node of the
list `[7, 8, 9]`. -/
theorem iterate_step_result_witness :
    IterValid three_mem ⟨64, 8, 0, 7⟩ ∧ (⟨64, 8, 0, 7⟩ : iterator).current_index < SIZE_MAX ∧
    (linked_list_iterate three_mem none = .ok (false, none) ∧
    ∃ b it1, linked_list_iterate three_mem (some ⟨64, 8, 0, 7⟩) = .ok (b, some it1) ∧
      (b = false ↔
        ((⟨64, 8, 0, 7⟩ : iterator).current_node = NULL ∨
          ∃ n, three_mem.nodes (⟨64, 8, 0, 7⟩ : iterator).current_node = some n ∧
            n.next = NULL)) ∧
      (b = false → it1 = ⟨64, 8, 0, 7⟩) ∧
      (b = true → ∃ n n1, three_mem.nodes (⟨64, 8, 0, 7⟩ : iterator).current_node = some n ∧
        three_mem.nodes n.next = some n1 ∧
        it1.current_node = n.next ∧
        it1.current_index = (⟨64, 8, 0, 7⟩ : iterator).current_index + 1 ∧
        it1.data = n1.data ∧ it1.ll = (⟨64, 8, 0, 7⟩ : iterator).ll)) :=
  ⟨fun _ => ⟨⟨16, 7⟩, rfl, fun _ => ⟨⟨24, 8⟩, rfl⟩⟩, by decide,
    iterate_step_result three_mem ⟨64, 8, 0, 7⟩ (fun _ => ⟨⟨16, 7⟩, rfl, fun _ => ⟨⟨24, 8⟩, rfl⟩⟩)
      (by decide)⟩


/-! ## Interior removal and insertion -/

/-- Erasing the cell after `pre ++ [p]`. -/
theorem eraseIdx_decomp {α : Type} (pre post : List α) (p t : α) :
    (pre ++ p :: t :: post).eraseIdx (pre.length + 1) = pre ++ p :: post := by
  induction pre with
  | nil => rfl
  | cons x pre ih => simp [List.eraseIdx, ih]

/-- A list split around the positions `index - 1` and `index`. -/
theorem split_around {α : Type} (cs : List α) (index : Nat) (h1 : 1 ≤ index)
    (hn : index < cs.length) :
    ∃ pre post p t, cs = pre ++ p :: t :: post ∧ pre.length + 1 = index ∧
      cs[index]? = some t := by
  have hk : index - 1 < cs.length := by omega
  refine ⟨cs.take (index - 1), cs.drop (index + 1), cs[index - 1], cs[index], ?_, ?_,
    List.getElem?_eq_getElem hn⟩
  · have e1 : cs.drop (index - 1) = cs[index - 1] :: cs.drop (index - 1 + 1) :=
      List.drop_eq_getElem_cons hk
    have e2 : cs.drop index = cs[index] :: cs.drop (index + 1) := List.drop_eq_getElem_cons hn
    have e3 : index - 1 + 1 = index := by omega
    rw [e3] at e1
    rw [← e2, ← e1, List.take_append_drop]
  · rw [List.length_take, Nat.min_eq_left (by omega)]; omega

/-- Removing at an interior position, at least 2, of a well-formed list: the
cell `t` after `pre ++ [p]` is unlinked and freed; the tail is re-pointed to
`p` exactly when `t` was the last cell. -/
theorem remove_interior_wf {R : Registry} {m : Mem} {ll : Ptr} {pre post : List (Ptr × Nat)}
    {p t : Ptr × Nat} (hR : R.free_fptr ≠ NULL)
    (hwf : WellFormed m ll (pre ++ p :: t :: post)) (hpre : pre ≠ []) :
    ∃ m1 L, m.lists ll = some L ∧
      linked_list_remove R m ll (pre.length + 1) = .ok (true, m1) ∧
      WellFormed m1 ll (pre ++ p :: post) ∧
      m1.lists ll = some ⟨L.head, if post = [] then p.1 else L.tail, L.size - 1⟩ ∧
      (post = [] ↔ t.1 = L.tail) ∧
      m1.nodes t.1 = none ∧ m1.freed = m.freed ++ [t.1] ∧
      m1.queues = m.queues ∧ m1.iters = m.iters ∧
      (∀ q, q ≠ ll → m1.lists q = m.lists q) ∧
      (∀ q, q ≠ p.1 → q ≠ t.1 → m1.nodes q = m.nodes q) := by
  have hplen : 1 ≤ pre.length := by
    cases pre with
    | nil => exact absurd rfl hpre
    | cons x xs => simp
  obtain ⟨c0, d, _, hpop, hd, hwalk⟩ := walk_wf hwf (pre.length + 1) (by omega) (by simp)
  have hne1 : ¬ (pre.length + 1 = 1) := by omega
  simp only [hne1, if_false, Nat.add_sub_cancel] at hd hwalk
  have hdp : d = p := by
    rw [List.getElem?_append_right (Nat.le_refl _)] at hd
    simpa using hd.symm
  subst hdp
  have hnd := seg_null_nodup _ _ hwf.2.choose_spec.2.1
  obtain ⟨hll, L, hL, hseg, hsize, htail, hb⟩ := hwf
  obtain ⟨r, hs1, hs2⟩ := (seg_append pre (d :: t :: post) L.head NULL).1 hseg
  obtain ⟨hr, hp0, nx, hnp, hs3⟩ := hs2
  obtain ⟨hnx, ht0, ny, hnt, hs4⟩ := hs3
  subst hr hnx
  -- distinct addresses
  simp only [List.map_append, List.map_cons, List.nodup_append, List.nodup_cons, List.mem_cons,
    List.mem_map, not_or, List.disjoint_cons_right] at hnd
  obtain ⟨_, ⟨⟨hpt, hp_post⟩, ht_post, _⟩, hpre_p, hpre_t, _⟩ := hnd
  have hpre_p1 : ∀ c ∈ pre, c.1 ≠ d.1 := fun c hc heq => hpre_p ⟨c, hc, heq⟩
  have hpre_t1 : ∀ c ∈ pre, c.1 ≠ t.1 := fun c hc heq => hpre_t ⟨c, hc, heq⟩
  have hpost_p1 : ∀ c ∈ post, c.1 ≠ d.1 := fun c hc heq => hp_post ⟨c, hc, heq⟩
  have hpost_t1 : ∀ c ∈ post, c.1 ≠ t.1 := fun c hc heq => ht_post ⟨c, hc, heq⟩
  -- the chain after the removal
  have hnew : Seg (upd (upd m.nodes d.1 (some ⟨ny, d.2⟩)) t.1 none) L.head (pre ++ d :: post)
      NULL := by
    refine (seg_append _ _ _ _).2 ⟨d.1, ?_, rfl, hp0, ny, ?_, ?_⟩
    · refine seg_frame pre _ _ ?_ hs1
      intro c hc
      rw [upd_other _ _ (hpre_t1 c hc), upd_other _ _ (hpre_p1 c hc)]
    · rw [upd_other _ _ hpt]; simp
    · refine seg_frame post _ _ ?_ hs4
      intro c hc
      rw [upd_other _ _ (hpost_t1 c hc), upd_other _ _ (hpost_p1 c hc)]
  have hb1 : ∀ c ∈ pre ++ d :: post, c.1 < SIZE_MOD := by
    intro c hc
    apply hb c
    simp only [List.mem_append, List.mem_cons] at hc ⊢
    rcases hc with hc | hc | hc
    · exact Or.inl hc
    · exact Or.inr (Or.inl hc)
    · exact Or.inr (Or.inr (Or.inr hc))
  have hsz : L.size = pre.length + 1 + 1 + post.length := by
    rw [hsize]; simp; omega
  have hidx : ¬ (L.size ≤ pre.length + 1) := by omega
  by_cases hpost : post = []
  · -- `t` is the tail
    subst hpost
    have hny : ny = NULL := hs4
    subst hny
    have htl : L.tail = t.1 := by simpa using htail
    refine ⟨⟨upd (upd m.nodes d.1 (some ⟨NULL, d.2⟩)) t.1 none,
        upd (upd m.lists ll (some ⟨L.head, d.1, L.size⟩)) ll (some ⟨L.head, d.1, L.size - 1⟩),
        m.iters, m.queues, m.freed ++ [t.1]⟩, L, hL, ?_, ?_, by simp, by simp [htl], by simp,
      rfl, rfl, rfl, ?_, ?_⟩
    · simp [linked_list_remove, hll, hR, Mem.list_at, hL, hidx, hpop, hwalk, Mem.node_at, hp0,
        hnp, htl, Mem.set_list, Mem.set_node, Mem.free_node, ht0, upd_other _ _ (Ne.symm hpt),
        hnt]
    · refine ⟨hll, ⟨L.head, d.1, L.size - 1⟩, by simp, hnew, ?_, by simp, hb1⟩
      show L.size - 1 = _
      rw [hsz, List.length_append, List.length_cons]
      omega
    · intro q hq; simp [upd_other _ _ hq]
    · intro q hq1 hq2; simp [upd_other _ _ hq1, upd_other _ _ hq2]
  · -- `t` is not the tail
    have htl : t.1 ≠ L.tail := by
      obtain ⟨post1, z, hz⟩ : ∃ post1 z, post = post1 ++ [z] := by
        rcases List.eq_nil_or_concat post with h | ⟨post1, z, h⟩
        · exact absurd h hpost
        · exact ⟨post1, z, by rw [h, List.concat_eq_append]⟩
      have hzl : L.tail = z.1 := by
        rw [htail, hz]
        have e : List.map Prod.fst (pre ++ d :: t :: (post1 ++ [z])) =
            List.map Prod.fst (pre ++ d :: t :: post1) ++ [z.1] := by simp
        rw [e, List.getLastD_concat]
      rw [hzl]
      exact fun heq => hpost_t1 z (by rw [hz]; simp) heq.symm
    have htl1 : ¬ (t.1 = L.tail) := htl
    have hlast : (List.map Prod.fst (pre ++ d :: post)).getLastD NULL = L.tail := by
      obtain ⟨post1, z, hz⟩ : ∃ post1 z, post = post1 ++ [z] := by
        rcases List.eq_nil_or_concat post with h | ⟨post1, z, h⟩
        · exact absurd h hpost
        · exact ⟨post1, z, by rw [h, List.concat_eq_append]⟩
      rw [htail, hz]
      have e1 : List.map Prod.fst (pre ++ d :: t :: (post1 ++ [z])) =
          List.map Prod.fst (pre ++ d :: t :: post1) ++ [z.1] := by simp
      have e2 : List.map Prod.fst (pre ++ d :: (post1 ++ [z])) =
          List.map Prod.fst (pre ++ d :: post1) ++ [z.1] := by simp
      rw [e1, e2, List.getLastD_concat, List.getLastD_concat]
    refine ⟨⟨upd (upd m.nodes d.1 (some ⟨ny, d.2⟩)) t.1 none,
        upd m.lists ll (some ⟨L.head, L.tail, L.size - 1⟩),
        m.iters, m.queues, m.freed ++ [t.1]⟩, L, hL, ?_, ?_, by simp [hpost],
      by simp [hpost, htl1], by simp, rfl, rfl, rfl, ?_, ?_⟩
    · simp [linked_list_remove, hll, hR, Mem.list_at, hL, hidx, hpop, hwalk, Mem.node_at, hp0,
        hnp, htl1, Mem.set_list, Mem.set_node, Mem.free_node, ht0, upd_other _ _ (Ne.symm hpt),
        hnt]
    · refine ⟨hll, ⟨L.head, L.tail, L.size - 1⟩, by simp, hnew, ?_, hlast.symm, hb1⟩
      show L.size - 1 = _
      rw [hsz, List.length_append, List.length_cons]
      omega
    · intro q hq; simp [upd_other _ _ hq]
    · intro q hq1 hq2; simp [upd_other _ _ hq1, upd_other _ _ hq2]


/-- C24. On a well-formed list of size `n` holding `xs`, for `2 ≤ index < n`
and with the free function registered, `linked_list_remove(ll, index)` returns
true; the result is again a well-formed list, holding `xs` with exactly the
element at position `index` erased; its size is `n - 1`; head is unchanged;
and tail is re-pointed, to the predecessor (the node `index - 1` hops from
head), exactly when `index = n - 1`. -/
theorem remove_interior (R : Registry) (m : Mem) (ll : Ptr) (xs : List Nat) (index : Nat)
    (hR : R.free_fptr ≠ NULL) (h : Holds m ll xs) (h2 : 2 ≤ index) (hn : index < xs.length) :
    ∃ m1 L L1, m.lists ll = some L ∧
      linked_list_remove R m ll index = .ok (true, m1) ∧
      Holds m1 ll (xs.eraseIdx index) ∧
      linked_list_size m1 ll = .ok (xs.length - 1) ∧
      m1.lists ll = some L1 ∧ L1.head = L.head ∧
      (L1.tail ≠ L.tail ↔ index = xs.length - 1) ∧
      (index = xs.length - 1 → traverse m (index - 1) L.head = .ok L1.tail) := by
  obtain ⟨cs, hwf, rfl⟩ := h
  rw [List.length_map] at hn ⊢
  obtain ⟨pre, post, p, t, hcs, hlen, _⟩ := split_around cs index (by omega) hn
  subst hcs
  have hpre : pre ≠ [] := by
    intro h0
    rw [h0] at hlen
    simp at hlen
    omega
  have hnd := seg_null_nodup _ _ hwf.2.choose_spec.2.1
  have hpt : p.1 ≠ t.1 := by
    simp only [List.map_append, List.map_cons, List.nodup_append, List.nodup_cons,
      List.mem_cons, not_or] at hnd
    exact hnd.2.1.1.1
  have hpred : (pre ++ p :: t :: post)[index - 1]? = some p := by
    have e : index - 1 = pre.length := by omega
    rw [e, List.getElem?_append_right (Nat.le_refl _)]
    simp
  obtain ⟨L0, hL0, htr⟩ := traverse_wf hwf hpred
  obtain ⟨m1, L, hL, hrun, hwf1, hL1, htail, _⟩ := remove_interior_wf hR hwf hpre
  rw [hL] at hL0
  have hLeq : L = L0 := Option.some.inj hL0
  subst hLeq
  rw [hlen] at hrun
  have hlast : post = [] ↔ index = (pre ++ p :: t :: post).length - 1 := by
    simp only [List.length_append, List.length_cons]
    constructor
    · intro h0; rw [h0]; simp; omega
    · intro h0
      have : post.length = 0 := by omega
      exact List.length_eq_zero.1 this
  refine ⟨m1, L, _, hL, hrun, ⟨pre ++ p :: post, hwf1, ?_⟩, ?_, hL1, rfl, ?_, ?_⟩
  · have e := eraseIdx_decomp (pre.map Prod.snd) (post.map Prod.snd) p.2 t.2
    rw [List.length_map, hlen] at e
    simp only [List.map_append, List.map_cons]
    exact e.symm
  · rw [size_wf hwf1]
    simp only [List.length_append, List.length_cons]
    congr 1
  · by_cases hpost : post = []
    · have htl : t.1 = L.tail := htail.1 hpost
      rw [if_pos hpost, ← htl]
      exact ⟨fun _ => hlast.1 hpost, fun _ => hpt⟩
    · rw [if_neg hpost]
      exact ⟨fun h0 => absurd rfl h0, fun h0 => absurd (hlast.2 h0) hpost⟩
  · intro h0
    have hpost : post = [] := hlast.2 h0
    rw [if_pos hpost]
    exact htr

/-- Instance of the interior removal: index 2 of the list `[7, 8, 9]`. -/
theorem remove_interior_witness :
    registered.free_fptr ≠ NULL ∧ Holds three_mem 64 [7, 8, 9] ∧ 2 ≤ 2 ∧
    2 < [7, 8, 9].length ∧
    ∃ m1 L L1, three_mem.lists 64 = some L ∧
      linked_list_remove registered three_mem 64 2 = .ok (true, m1) ∧
      Holds m1 64 ([7, 8, 9].eraseIdx 2) ∧
      linked_list_size m1 64 = .ok ([7, 8, 9].length - 1) ∧
      m1.lists 64 = some L1 ∧ L1.head = L.head ∧
      (L1.tail ≠ L.tail ↔ 2 = [7, 8, 9].length - 1) ∧
      (2 = [7, 8, 9].length - 1 → traverse three_mem (2 - 1) L.head = .ok L1.tail) :=
  ⟨by decide, three_mem_holds, by decide, by decide,
    remove_interior registered three_mem 64 [7, 8, 9] 2 (by decide) three_mem_holds (by decide)
      (by decide)⟩


/-- Inserting at a position of the list puts the value between the elements
before the position and the elements from the position on. -/
theorem insertIdx_take_drop {α : Type} (a : α) :
    ∀ (n : Nat) (l : List α), n ≤ l.length → l.insertIdx n a = l.take n ++ a :: l.drop n
  | 0, l, _ => by simp [List.insertIdx, List.modifyTailIdx]
  | n + 1, [], h => by simp at h
  | n + 1, x :: l, h => by
    have ih := insertIdx_take_drop a n l (by simpa using h)
    simp only [List.insertIdx] at ih ⊢
    simp [List.modifyTailIdx, ih]

/-- Inserting at an interior position, at least 2, of a well-formed list with
a successful allocation: the new cell is spliced after `pre ++ [p]`; head and
tail stay. -/
theorem insert_interior_wf {R : Registry} {m : Mem} {ll : Ptr} {pre rest : List (Ptr × Nat)}
    {p : Ptr × Nat} (a v : Nat) (hRm : R.malloc_fptr ≠ NULL) (hRf : R.free_fptr ≠ NULL)
    (hwf : WellFormed m ll (pre ++ p :: rest)) (hpre : pre ≠ []) (hrest : rest ≠ [])
    (ha0 : a ≠ NULL) (hab : a < SIZE_MOD) (haf : m.nodes a = none) :
    ∃ m1 L, m.lists ll = some L ∧
      linked_list_insert R a m ll (pre.length + 1) v = .ok (true, m1) ∧
      WellFormed m1 ll (pre ++ p :: (a, v) :: rest) ∧
      m1.lists ll = some ⟨L.head, L.tail, L.size + 1⟩ ∧
      m1.queues = m.queues ∧ m1.iters = m.iters ∧ m1.freed = m.freed ∧
      (∀ q, q ≠ ll → m1.lists q = m.lists q) ∧
      (∀ q, q ≠ p.1 → q ≠ a → m1.nodes q = m.nodes q) := by
  have hplen : 1 ≤ pre.length := by
    cases pre with
    | nil => exact absurd rfl hpre
    | cons x xs => simp
  have hrlen : 1 ≤ rest.length := by
    cases rest with
    | nil => exact absurd rfl hrest
    | cons x xs => simp
  obtain ⟨c0, d, _, hpop, hd, hwalk⟩ := walk_wf hwf (pre.length + 1) (by omega)
    (by simp; omega)
  have hne1 : ¬ (pre.length + 1 = 1) := by omega
  simp only [hne1, if_false, Nat.add_sub_cancel] at hd hwalk
  have hdp : d = p := by
    rw [List.getElem?_append_right (Nat.le_refl _)] at hd
    simpa using hd.symm
  subst hdp
  have hlive := seg_live _ _ _ hwf.2.choose_spec.2.1
  have hnd := seg_null_nodup _ _ hwf.2.choose_spec.2.1
  obtain ⟨hll, L, hL, hseg, hsize, htail, hb⟩ := hwf
  have hfresh : ∀ c ∈ pre ++ d :: rest, c.1 ≠ a := by
    intro c hc heq
    obtain ⟨_, nx, hnx⟩ := hlive c hc
    rw [heq, haf] at hnx
    exact Option.noConfusion hnx
  obtain ⟨r, hs1, hs2⟩ := (seg_append pre (d :: rest) L.head NULL).1 hseg
  obtain ⟨hr, hp0, nx, hnp, hs3⟩ := hs2
  subst hr
  simp only [List.map_append, List.map_cons, List.nodup_append, List.nodup_cons, List.mem_map,
    List.disjoint_cons_right] at hnd
  obtain ⟨_, ⟨hp_rest, _⟩, hpre_p, _⟩ := hnd
  have hpre_p1 : ∀ c ∈ pre, c.1 ≠ d.1 := fun c hc heq => hpre_p ⟨c, hc, heq⟩
  have hrest_p1 : ∀ c ∈ rest, c.1 ≠ d.1 := fun c hc heq => hp_rest ⟨c, hc, heq⟩
  have hpa : d.1 ≠ a := hfresh d (by simp)
  -- the chain after the insertion
  have hnew : Seg (upd (upd m.nodes a (some ⟨nx, v⟩)) d.1 (some ⟨a, d.2⟩)) L.head
      (pre ++ d :: (a, v) :: rest) NULL := by
    refine (seg_append _ _ _ _).2 ⟨d.1, ?_, rfl, hp0, a, by simp, rfl, ha0, nx, ?_, ?_⟩
    · refine seg_frame pre _ _ ?_ hs1
      intro c hc
      rw [upd_other _ _ (hpre_p1 c hc), upd_other _ _ (hfresh c (by simp [hc]))]
    · rw [upd_other _ _ (Ne.symm hpa)]; simp
    · refine seg_frame rest _ _ ?_ hs3
      intro c hc
      rw [upd_other _ _ (hrest_p1 c hc), upd_other _ _ (hfresh c (by simp [hc]))]
  have hb1 : ∀ c ∈ pre ++ d :: (a, v) :: rest, c.1 < SIZE_MOD := by
    intro c hc
    simp only [List.mem_append, List.mem_cons] at hc
    rcases hc with hc | hc | hc | hc
    · exact hb c (by simp [hc])
    · exact hb c (by simp [hc])
    · rw [hc]; exact hab
    · exact hb c (by simp [hc])
  have hlen := seg_length_lt hnew hb1
  have hsz : L.size = pre.length + 1 + rest.length := by
    rw [hsize]; simp; omega
  have hmod : (L.size + 1) % SIZE_MOD = L.size + 1 := by
    apply Nat.mod_eq_of_lt
    simp only [List.length_append, List.length_cons] at hlen
    omega
  have hgt : ¬ (L.size < pre.length + 1) := by omega
  have hneq : ¬ (pre.length + 1 = L.size) := by omega
  have hlast : (List.map Prod.fst (pre ++ d :: (a, v) :: rest)).getLastD NULL = L.tail := by
    obtain ⟨rest1, z, hz⟩ : ∃ rest1 z, rest = rest1 ++ [z] := by
      rcases List.eq_nil_or_concat rest with h | ⟨rest1, z, h⟩
      · exact absurd h hrest
      · exact ⟨rest1, z, by rw [h, List.concat_eq_append]⟩
    rw [htail, hz]
    have e1 : List.map Prod.fst (pre ++ d :: (rest1 ++ [z])) =
        List.map Prod.fst (pre ++ d :: rest1) ++ [z.1] := by simp
    have e2 : List.map Prod.fst (pre ++ d :: (a, v) :: (rest1 ++ [z])) =
        List.map Prod.fst (pre ++ d :: (a, v) :: rest1) ++ [z.1] := by simp
    rw [e1, e2, List.getLastD_concat, List.getLastD_concat]
  refine ⟨⟨upd (upd m.nodes a (some ⟨nx, v⟩)) d.1 (some ⟨a, d.2⟩),
      upd m.lists ll (some ⟨L.head, L.tail, L.size + 1⟩), m.iters, m.queues, m.freed⟩, L, hL,
    ?_, ?_, by simp, rfl, rfl, rfl, ?_, ?_⟩
  · simp [linked_list_insert, hll, hRm, hRf, Mem.list_at, hL, hgt, hneq, hpop, hwalk, ha0,
      Mem.node_at, hp0, hnp, Mem.set_node, Mem.set_list, upd_other _ _ hpa, hmod]
  · refine ⟨hll, ⟨L.head, L.tail, L.size + 1⟩, by simp, hnew, ?_, hlast.symm, hb1⟩
    show L.size + 1 = _
    rw [hsz, List.length_append, List.length_cons, List.length_cons]
    omega
  · intro q hq; simp [upd_other _ _ hq]
  · intro q hq1 hq2; simp [upd_other _ _ hq1, upd_other _ _ hq2]

/-- C25. On a well-formed list of size `n` holding `xs`, for `2 ≤ index < n`,
with both allocator functions registered and the allocation succeeding,
`linked_list_insert(ll, index, v)` returns true; the result is again a
well-formed list, holding `xs` with `v` inserted at position `index` (the
elements before `index` and those from `index` on keep their order); its size
is `n + 1`; head and tail are unchanged. -/
theorem insert_interior (R : Registry) (m : Mem) (ll : Ptr) (xs : List Nat) (index v : Nat)
    (a : Ptr) (hRm : R.malloc_fptr ≠ NULL) (hRf : R.free_fptr ≠ NULL) (h : Holds m ll xs)
    (ha : AllocOk m a) (h2 : 2 ≤ index) (hn : index < xs.length) :
    ∃ m1 L L1, m.lists ll = some L ∧
      linked_list_insert R a m ll index v = .ok (true, m1) ∧
      Holds m1 ll (xs.take index ++ v :: xs.drop index) ∧
      xs.take index ++ v :: xs.drop index = xs.insertIdx index v ∧
      (xs.insertIdx index v)[index]? = some v ∧
      linked_list_size m1 ll = .ok (xs.length + 1) ∧
      m1.lists ll = some L1 ∧ L1.head = L.head ∧ L1.tail = L.tail := by
  obtain ⟨cs, hwf, rfl⟩ := h
  rw [List.length_map] at hn ⊢
  obtain ⟨ha0, hab, haf, -⟩ := ha
  obtain ⟨pre, post, p, t, hcs, hlen, _⟩ := split_around cs index (by omega) hn
  subst hcs
  have hpre : pre ≠ [] := by
    intro h0
    rw [h0] at hlen
    simp at hlen
    omega
  obtain ⟨m1, L, hL, hrun, hwf1, hL1, _⟩ :=
    insert_interior_wf a v hRm hRf hwf hpre (List.cons_ne_nil t post) ha0 hab haf
  rw [hlen] at hrun
  have hins : (List.map Prod.snd (pre ++ p :: t :: post)).take index ++
      v :: (List.map Prod.snd (pre ++ p :: t :: post)).drop index =
      (List.map Prod.snd (pre ++ p :: t :: post)).insertIdx index v :=
    (insertIdx_take_drop v index _ (by rw [List.length_map]; omega)).symm
  have htake : (List.map Prod.snd (pre ++ p :: t :: post)).take index =
      List.map Prod.snd (pre ++ [p]) := by
    have e : pre ++ p :: t :: post = (pre ++ [p]) ++ t :: post := by simp
    rw [e, List.map_append, List.take_left']
    simp; omega
  have hdrop : (List.map Prod.snd (pre ++ p :: t :: post)).drop index =
      List.map Prod.snd (t :: post) := by
    have e : pre ++ p :: t :: post = (pre ++ [p]) ++ t :: post := by simp
    rw [e, List.map_append, List.drop_left']
    simp; omega
  refine ⟨m1, L, _, hL, hrun, ⟨pre ++ p :: (a, v) :: t :: post, hwf1, ?_⟩, hins, ?_, ?_, hL1,
    rfl, rfl⟩
  · rw [htake, hdrop]; simp
  · rw [← hins, htake, hdrop]
    have hl : (List.map Prod.snd (pre ++ [p])).length = index := by
      rw [List.length_map, List.length_append, List.length_singleton]; exact hlen
    rw [List.getElem?_append_right (by omega), hl, Nat.sub_self]
    rfl
  · rw [size_wf hwf1]
    simp only [List.length_append, List.length_cons]
    congr 1

/-- Instance of the interior insertion: index 2 of the list `[7, 8, 9]`. -/
theorem insert_interior_witness :
    registered.malloc_fptr ≠ NULL ∧ registered.free_fptr ≠ NULL ∧
    Holds three_mem 64 [7, 8, 9] ∧ AllocOk three_mem 32 ∧ 2 ≤ 2 ∧ 2 < [7, 8, 9].length ∧
    ∃ m1 L L1, three_mem.lists 64 = some L ∧
      linked_list_insert registered 32 three_mem 64 2 5 = .ok (true, m1) ∧
      Holds m1 64 ([7, 8, 9].take 2 ++ 5 :: [7, 8, 9].drop 2) ∧
      [7, 8, 9].take 2 ++ 5 :: [7, 8, 9].drop 2 = [7, 8, 9].insertIdx 2 5 ∧
      ([7, 8, 9].insertIdx 2 5)[2]? = some 5 ∧
      linked_list_size m1 64 = .ok ([7, 8, 9].length + 1) ∧
      m1.lists 64 = some L1 ∧ L1.head = L.head ∧ L1.tail = L.tail :=
  ⟨by decide, by decide, three_mem_holds, by decide, by decide, by decide,
    insert_interior registered three_mem 64 [7, 8, 9] 2 5 32 (by decide) (by decide)
      three_mem_holds (by decide) (by decide) (by decide)⟩


/-! ## Reachable lists -/

theorem live_nodes_card_le (nodes : Ptr → Option node) :
    (live_nodes nodes).card ≤ SIZE_MOD - 1 := by
  have h := Finset.card_le_card
    (Finset.filter_subset (fun p => (nodes p).isSome = true) (Finset.Ico 1 SIZE_MOD))
  rw [Nat.card_Ico] at h
  exact h

/-- A node that comes to life at a fresh address adds one live node. -/
theorem live_nodes_alloc {nodes nodes1 : Ptr → Option node} {a : Ptr} (ha0 : a ≠ NULL)
    (hab : a < SIZE_MOD) (haf : nodes a = none) (h1 : (nodes1 a).isSome = true)
    (h2 : ∀ p, p ≠ a → (nodes1 p).isSome = (nodes p).isSome) :
    (live_nodes nodes1).card = (live_nodes nodes).card + 1 := by
  have heq : live_nodes nodes1 = insert a (live_nodes nodes) := by
    ext p
    simp only [live_nodes, Finset.mem_filter, Finset.mem_Ico, Finset.mem_insert]
    by_cases hp : p = a
    · subst hp
      have hpos : 1 ≤ p := Nat.pos_of_ne_zero ha0
      simp [h1, hpos, hab]
    · rw [h2 p hp]; simp [hp]
  rw [heq, Finset.card_insert_of_not_mem]
  simp [live_nodes, haf]

/-- Freeing one node removes at most one live node. -/
theorem live_nodes_free {nodes nodes1 : Ptr → Option node} (q : Ptr)
    (h : ∀ p, p ≠ q → (nodes1 p).isSome = (nodes p).isSome) :
    (live_nodes nodes).card ≤ (live_nodes nodes1).card + 1 := by
  have hsub : live_nodes nodes ⊆ insert q (live_nodes nodes1) := by
    intro p hp
    simp only [live_nodes, Finset.mem_filter, Finset.mem_Ico, Finset.mem_insert] at hp ⊢
    by_cases hpq : p = q
    · exact Or.inl hpq
    · right; rw [h p hpq]; exact hp
  exact (Finset.card_le_card hsub).trans (Finset.card_insert_le _ _)

/-- Populating at index 0 a list with a positive size and a live head. -/
theorem populate_chain {m : Mem} {ll : Ptr} {L : linked_list} {c : Ptr × Nat}
    {cs : List (Ptr × Nat)} (hll : ll ≠ NULL) (hL : m.lists ll = some L) (hpos : 0 < L.size)
    (hseg : Seg m.nodes L.head (c :: cs) NULL) (junk : iterator) :
    __linked_list_populate_iterator m ll 0 (some junk) = .ok (true, some ⟨ll, c.1, 0, c.2⟩) := by
  obtain ⟨h1, h2, nx, h3, _⟩ := hseg
  have hnot : ¬ (L.size = 0) := by omega
  simp [__linked_list_populate_iterator, hll, Mem.list_at, hL, hnot, traverse, h1, Mem.node_at,
    h2, h3]

/-- Populating at index 0 a list with a positive size and a NULL head reads
through the NULL pointer. -/
theorem populate_null_head {m : Mem} {ll : Ptr} {L : linked_list} (hll : ll ≠ NULL)
    (hL : m.lists ll = some L) (hpos : 0 < L.size) (hh : L.head = NULL) (junk : iterator) :
    __linked_list_populate_iterator m ll 0 (some junk) = .ub := by
  have hnot : ¬ (L.size = 0) := by omega
  simp [__linked_list_populate_iterator, hll, Mem.list_at, hL, hnot, traverse, hh, Mem.node_at]

/-- On a NULL-terminated chain of live nodes the loop of `linked_list_insert`
and `linked_list_remove` returns, on a cell of the chain, within `index`
rounds. -/
theorem walk_chain {m : Mem} {cs : List (Ptr × Nat)} {p : Ptr} (hseg : Seg m.nodes p cs NULL)
    (hb : ∀ c ∈ cs, c.1 < SIZE_MOD) (l : Ptr) (index : Nat) :
    ∀ (fuel i : Nat) (c : Ptr × Nat), cs[i]? = some c → 1 ≤ fuel → index - 1 - i ≤ fuel →
      ∃ j d, cs[j]? = some d ∧
        walk_loop m index fuel ⟨l, c.1, i, c.2⟩ = .ok ⟨l, d.1, j, d.2⟩
  | 0, _, _, _, hf, _ => by omega
  | fuel + 1, i, c, hc, _, hf => by
    have hlen := seg_length_lt hseg hb
    have hi : i < cs.length := (List.getElem?_eq_some_iff.1 hc).1
    by_cases hi1 : i + 1 < cs.length
    · obtain ⟨h0, h1, hn, ny, hn1⟩ := seg_next_some hseg hc (List.getElem?_eq_getElem hi1)
      have hmod : (i + 1) % SIZE_MOD = i + 1 := Nat.mod_eq_of_lt (by omega)
      by_cases hcont : i + 1 < index - 1
      · obtain ⟨j, d, hd, hrun⟩ := walk_chain hseg hb l index fuel (i + 1) cs[i + 1]
          (List.getElem?_eq_getElem hi1) (by omega) (by omega)
        refine ⟨j, d, hd, ?_⟩
        simp [walk_loop, iterate_next h0 h1 hn hn1, hmod, hcont, hrun]
      · refine ⟨i + 1, cs[i + 1], List.getElem?_eq_getElem hi1, ?_⟩
        simp [walk_loop, iterate_next h0 h1 hn hn1, hmod, hcont]
    · obtain ⟨h0, hn⟩ := seg_next_none hseg hc (by omega)
      refine ⟨i, c, hc, ?_⟩
      simp [walk_loop, iterate_last h0 hn]

/-- A NULL-terminated chain split at one of its cells: the cells before lead to
it, its `next` starts the cells after, and no other cell has its address. -/
theorem chain_split {nodes : Ptr → Option node} {cs : List (Ptr × Nat)} {p : Ptr}
    (hseg : Seg nodes p cs NULL) {pre post : List (Ptr × Nat)} {c : Ptr × Nat}
    (hcs : cs = pre ++ c :: post) :
    Seg nodes p pre c.1 ∧ c.1 ≠ NULL ∧ (∃ nx, nodes c.1 = some ⟨nx, c.2⟩ ∧
      Seg nodes nx post NULL) ∧
      (∀ e ∈ pre, e.1 ≠ c.1) ∧ (∀ e ∈ post, e.1 ≠ c.1) ∧
      (∀ e ∈ pre, ∀ f ∈ post, e.1 ≠ f.1) := by
  have hnd := seg_null_nodup _ _ hseg
  subst hcs
  obtain ⟨r, hs1, hs2⟩ := (seg_append pre (c :: post) p NULL).1 hseg
  obtain ⟨hr, hc0, nx, hn, hs3⟩ := hs2
  subst hr
  simp only [List.map_append, List.map_cons, List.nodup_append, List.nodup_cons, List.mem_map,
    List.disjoint_cons_right] at hnd
  obtain ⟨_, ⟨hc_post, _⟩, hpre_c, hdisj⟩ := hnd
  refine ⟨hs1, hc0, ⟨nx, hn, hs3⟩, fun e he heq => hpre_c ⟨e, he, heq⟩,
    fun e he heq => hc_post ⟨e, he, heq⟩, ?_⟩
  intro e he f hf heq
  exact hdisj (List.mem_map_of_mem _ he) (heq ▸ List.mem_map_of_mem _ hf)

/-- A cell at a position of a list splits the list around it. -/
theorem split_at_pos {α : Type} {cs : List α} {j : Nat} {d : α} (h : cs[j]? = some d) :
    cs = cs.take j ++ d :: cs.drop (j + 1) := by
  obtain ⟨hlt, hget⟩ := List.getElem?_eq_some_iff.1 h
  rw [← hget, ← List.drop_eq_getElem_cons hlt, List.take_append_drop]

/-- The invariant after a successful insertion: one node came to life at a
fresh address and `size` went up by one, without wrapping. -/
theorem inv_after_insert {m m1 : Mem} {ll a : Ptr} {L : linked_list} (h1 t1 : Ptr)
    (cs1 : List (Ptr × Nat)) (hll : ll ≠ NULL) (hsz : L.size ≤ (live_nodes m.nodes).card)
    (ha0 : a ≠ NULL) (hab : a < SIZE_MOD) (haf : m.nodes a = none)
    (hl1 : (m1.nodes a).isSome = true)
    (hl2 : ∀ p, p ≠ a → (m1.nodes p).isSome = (m.nodes p).isSome)
    (hL1 : m1.lists ll = some ⟨h1, t1, (L.size + 1) % SIZE_MOD⟩)
    (hseg : Seg m1.nodes h1 cs1 NULL) (hb : ∀ c ∈ cs1, c.1 < SIZE_MOD) : ReachInv m1 ll := by
  have hcard := live_nodes_alloc ha0 hab haf hl1 hl2
  have hle := live_nodes_card_le m1.nodes
  have hpos : 0 < SIZE_MOD := by norm_num [SIZE_MOD]
  have hmod : (L.size + 1) % SIZE_MOD = L.size + 1 := Nat.mod_eq_of_lt (by omega)
  refine ⟨hll, _, cs1, hL1, hseg, hb, ?_, ?_⟩
  · show (L.size + 1) % SIZE_MOD ≤ _
    rw [hmod]; omega
  · intro h0
    have h0' : (L.size + 1) % SIZE_MOD = 0 := h0
    rw [hmod] at h0'
    omega

/-- The invariant after a successful removal: at most one node died and `size`
went down by one. -/
theorem inv_after_remove {m m1 : Mem} {ll : Ptr} {L : linked_list} (q h1 t1 : Ptr)
    (cs1 : List (Ptr × Nat)) (hll : ll ≠ NULL) (hsz : L.size ≤ (live_nodes m.nodes).card)
    (hl : ∀ p, p ≠ q → (m1.nodes p).isSome = (m.nodes p).isSome)
    (hL1 : m1.lists ll = some ⟨h1, t1, L.size - 1⟩)
    (hemp : L.size - 1 = 0 → h1 = NULL ∧ t1 = NULL)
    (hseg : Seg m1.nodes h1 cs1 NULL) (hb : ∀ c ∈ cs1, c.1 < SIZE_MOD) : ReachInv m1 ll := by
  have hcard := live_nodes_free q hl
  refine ⟨hll, _, cs1, hL1, hseg, hb, ?_, hemp⟩
  show L.size - 1 ≤ _
  omega

/-- Cells of a chain are not at a fresh address. -/
theorem chain_ne_fresh {nodes : Ptr → Option node} {cs : List (Ptr × Nat)} {p a : Ptr}
    (hseg : Seg nodes p cs NULL) (haf : nodes a = none) : ∀ c ∈ cs, c.1 ≠ a := by
  intro c hc heq
  obtain ⟨_, nx, hnx⟩ := seg_live cs _ _ hseg c hc
  rw [heq, haf] at hnx
  exact Option.noConfusion hnx

/-- The invariant is kept by `linked_list_insert_end`. -/
theorem insert_end_inv {R : Registry} {a : Ptr} {m m1 : Mem} {ll : Ptr} {v : Nat} {b : Bool}
    (hinv : ReachInv m ll) (ha : a = NULL ∨ AllocOk m a)
    (h : linked_list_insert_end R a m ll v = .ok (b, m1)) : ReachInv m1 ll := by
  have hinv0 := hinv
  obtain ⟨hll, L, cs, hL, hseg, hb, hsz, hemp⟩ := hinv
  by_cases hR : R.malloc_fptr = NULL
  · simp [linked_list_insert_end, hR] at h
    rw [← h.2]; exact hinv0
  by_cases ha0 : a = NULL
  · simp [linked_list_insert_end, ha0] at h
    rw [← h.2]; exact hinv0
  obtain ⟨_, hab, haf, _⟩ := ha.resolve_left ha0
  have hfresh := chain_ne_fresh hseg haf
  by_cases htail : L.tail = NULL
  · simp [linked_list_insert_end, hll, hR, ha0, Mem.set_node, Mem.set_list, Mem.list_at, hL, htail] at h
    obtain ⟨_, hm⟩ := h
    subst hm
    refine inv_after_insert a a [(a, v)] hll hsz ha0 hab haf (by simp) ?_
      (by simp [Mem.set_list]) ?_ ?_
    · intro p hp; simp [upd_other _ _ hp]
    · exact ⟨rfl, ha0, NULL, by simp, rfl⟩
    · intro c hc; simp at hc; subst hc; exact hab
  · cases ht : (upd m.nodes a (some ⟨NULL, v⟩)) L.tail with
    | none =>
      simp [linked_list_insert_end, hll, hR, ha0, Mem.set_node, Mem.set_list, Mem.list_at, hL, htail,
        Mem.node_at, ht] at h
    | some t =>
      simp [linked_list_insert_end, hll, hR, ha0, Mem.set_node, Mem.set_list, Mem.list_at, hL, htail,
        Mem.node_at, ht] at h
      obtain ⟨_, hm⟩ := h
      subst hm
      have hl1 : ((upd (upd m.nodes a (some ⟨NULL, v⟩)) L.tail (some ⟨a, t.data⟩)) a).isSome
          = true := by
        by_cases hat : a = L.tail
        · rw [hat]; simp
        · rw [upd_other _ _ hat]; simp
      have hl2 : ∀ p, p ≠ a →
          ((upd (upd m.nodes a (some ⟨NULL, v⟩)) L.tail (some ⟨a, t.data⟩)) p).isSome
            = (m.nodes p).isSome := by
        intro p hp
        by_cases hpt : p = L.tail
        · subst hpt
          rw [upd_other _ _ hp] at ht
          simp [ht]
        · rw [upd_other _ _ hpt, upd_other _ _ hp]
      by_cases hmem : ∃ c ∈ cs, c.1 = L.tail
      · obtain ⟨c, hc, hct⟩ := hmem
        obtain ⟨pre, post, hsplit⟩ := List.append_of_mem hc
        obtain ⟨hs1, hc0, ⟨nx, hn, _⟩, hpre_c, _, _⟩ := chain_split hseg hsplit
        have hca : c.1 ≠ a := hfresh c hc
        have htd : t.data = c.2 := by
          rw [← hct, upd_other _ _ hca, hn] at ht
          exact (congrArg node.data (Option.some.inj ht)).symm
        have hpre_a : ∀ e ∈ pre, e.1 ≠ a := fun e he =>
          hfresh e (by rw [hsplit]; exact List.mem_append_left _ he)
        refine inv_after_insert L.head a (pre ++ [c, (a, v)]) hll hsz ha0 hab haf hl1 hl2
          (by simp [Mem.set_list]) ?_ ?_
        · refine (seg_append _ _ _ _).2 ⟨c.1, ?_, rfl, hc0, a, ?_, rfl, ha0, NULL, ?_, rfl⟩
          · refine seg_frame pre _ _ ?_ hs1
            intro e he
            show upd (upd m.nodes a _) L.tail _ e.1 = m.nodes e.1
            rw [← hct, upd_other _ _ (hpre_c e he), upd_other _ _ (hpre_a e he)]
          · show upd (upd m.nodes a _) L.tail _ c.1 = _
            rw [← hct, htd]; simp
          · show upd (upd m.nodes a _) L.tail _ a = _
            rw [← hct, upd_other _ _ (Ne.symm hca)]; simp
        · intro e he
          simp only [List.mem_append, List.mem_cons, List.mem_singleton, List.not_mem_nil,
            or_false] at he
          rcases he with he | he | he
          · exact hb e (by rw [hsplit]; exact List.mem_append_left _ he)
          · subst he; exact hb _ hc
          · subst he; exact hab
      · have hnot : ∀ c ∈ cs, c.1 ≠ L.tail := fun c hc heq => hmem ⟨c, hc, heq⟩
        refine inv_after_insert L.head a cs hll hsz ha0 hab haf hl1 hl2
          (by simp [Mem.set_list]) ?_ hb
        refine seg_frame cs _ _ ?_ hseg
        intro e he
        show upd (upd m.nodes a _) L.tail _ e.1 = m.nodes e.1
        rw [upd_other _ _ (hnot e he), upd_other _ _ (hfresh e he)]

/-- The invariant is kept by `linked_list_insert_front`. -/
theorem insert_front_inv {R : Registry} {a : Ptr} {m m1 : Mem} {ll : Ptr} {v : Nat} {b : Bool}
    (hinv : ReachInv m ll) (ha : a = NULL ∨ AllocOk m a)
    (h : linked_list_insert_front R a m ll v = .ok (b, m1)) : ReachInv m1 ll := by
  have hinv0 := hinv
  obtain ⟨hll, L, cs, hL, hseg, hb, hsz, hemp⟩ := hinv
  by_cases hR : R.malloc_fptr = NULL
  · simp [linked_list_insert_front, hR] at h
    rw [← h.2]; exact hinv0
  by_cases ha0 : a = NULL
  · simp [linked_list_insert_front, ha0] at h
    rw [← h.2]; exact hinv0
  obtain ⟨_, hab, haf, _⟩ := ha.resolve_left ha0
  have hfresh := chain_ne_fresh hseg haf
  by_cases hhead : L.head = NULL
  · simp [linked_list_insert_front, hll, hR, ha0, Mem.set_node, Mem.set_list, Mem.list_at, hL, hhead] at h
    obtain ⟨_, hm⟩ := h
    subst hm
    refine inv_after_insert a a [(a, v)] hll hsz ha0 hab haf (by simp) ?_
      (by simp [Mem.set_list]) ?_ ?_
    · intro p hp; simp [upd_other _ _ hp]
    · exact ⟨rfl, ha0, NULL, by simp, rfl⟩
    · intro c hc; simp at hc; subst hc; exact hab
  · simp [linked_list_insert_front, hll, hR, ha0, Mem.set_node, Mem.set_list, Mem.list_at, hL, hhead] at h
    obtain ⟨_, hm⟩ := h
    subst hm
    refine inv_after_insert a L.tail ((a, v) :: cs) hll hsz ha0 hab haf (by simp) ?_
      (by simp [Mem.set_list]) ?_ ?_
    · intro p hp; simp [upd_other _ _ hp]
    · refine ⟨rfl, ha0, L.head, by simp, ?_⟩
      refine seg_frame cs _ _ ?_ hseg
      intro e he
      show upd (upd m.nodes a _) a _ e.1 = m.nodes e.1
      rw [upd_other _ _ (hfresh e he), upd_other _ _ (hfresh e he)]
    · intro c hc
      rcases List.mem_cons.1 hc with rfl | hc
      · exact hab
      · exact hb c hc

/-- The invariant is kept by `linked_list_insert`. -/
theorem insert_inv {R : Registry} {a : Ptr} {m m1 : Mem} {ll : Ptr} {index v : Nat} {b : Bool}
    (hinv : ReachInv m ll) (ha : a = NULL ∨ AllocOk m a)
    (h : linked_list_insert R a m ll index v = .ok (b, m1)) : ReachInv m1 ll := by
  have hinv0 := hinv
  obtain ⟨hll, L, cs, hL, hseg, hb, hsz, hemp⟩ := hinv
  by_cases hR : R.malloc_fptr = NULL ∨ R.free_fptr = NULL
  · have hfalse : linked_list_insert R a m ll index v = .ok (false, m) := by
      rcases hR with hR | hR <;> simp [linked_list_insert, hR]
    rw [hfalse] at h
    rw [← (res_ok_pair h).2]; exact hinv0
  simp only [not_or] at hR
  by_cases hgt : index > L.size
  · simp [linked_list_insert, hll, hR.1, hR.2, Mem.list_at, hL, hgt] at h
    rw [← h.2]; exact hinv0
  have hle : ¬ (L.size < index) := hgt
  by_cases h0 : index = 0
  · have hfront : linked_list_insert R a m ll index v = linked_list_insert_front R a m ll v := by
      simp [linked_list_insert, hll, hR.1, hR.2, Mem.list_at, hL, h0]
    rw [hfront] at h
    exact insert_front_inv hinv0 ha h
  by_cases hn : index = L.size
  · have hend : linked_list_insert R a m ll index v = linked_list_insert_end R a m ll v := by
      have hne : L.size ≠ 0 := fun e => h0 (hn.trans e)
      simp [linked_list_insert, hll, hR.1, hR.2, Mem.list_at, hL, hn, hne]
    rw [hend] at h
    exact insert_end_inv hinv0 ha h
  cases cs with
  | nil =>
    have hhead : L.head = NULL := hseg
    have hpop := populate_null_head hll hL (by omega) hhead uninit_iterator
    simp [linked_list_insert, hll, hR.1, hR.2, Mem.list_at, hL, hle, h0, hn, hpop] at h
  | cons c0 rest =>
    have hpop := populate_chain hll hL (by omega) hseg uninit_iterator
    obtain ⟨j, d, hd, hwalk⟩ := walk_chain hseg hb ll index index 0 c0 (by simp) (by omega)
      (by omega)
    by_cases ha0 : a = NULL
    · simp [linked_list_insert, hll, hR.1, hR.2, Mem.list_at, hL, hle, h0, hn, hpop, hwalk,
        ha0] at h
      rw [← h.2]; exact hinv0
    obtain ⟨_, hab, haf, _⟩ := ha.resolve_left ha0
    have hfresh := chain_ne_fresh hseg haf
    have hsplit := split_at_pos hd
    obtain ⟨hs1, hd0, ⟨nx, hnd, hs3⟩, hpre_d, hpost_d, _⟩ := chain_split hseg hsplit
    have hdmem : d ∈ c0 :: rest := by rw [hsplit]; simp
    have hda : d.1 ≠ a := hfresh d hdmem
    simp [linked_list_insert, hll, hR.1, hR.2, Mem.list_at, hL, hle, h0, hn, hpop, hwalk, ha0,
      Mem.node_at, hd0, hnd, Mem.set_node, Mem.set_list, upd_other _ _ hda] at h
    obtain ⟨_, hm⟩ := h
    subst hm
    have hpre_a : ∀ e ∈ (c0 :: rest).take j, e.1 ≠ a := fun e he =>
      hfresh e (List.mem_of_mem_take he)
    have hpost_a : ∀ e ∈ (c0 :: rest).drop (j + 1), e.1 ≠ a := fun e he =>
      hfresh e (List.mem_of_mem_drop he)
    refine inv_after_insert L.head L.tail
      ((c0 :: rest).take j ++ d :: (a, v) :: (c0 :: rest).drop (j + 1)) hll hsz ha0 hab haf
      ?_ ?_ (by simp) ?_ ?_
    · show (upd (upd m.nodes a _) d.1 _ a).isSome = true
      rw [upd_other _ _ (Ne.symm hda)]; simp
    · intro p hp
      show (upd (upd m.nodes a _) d.1 _ p).isSome = _
      by_cases hpd : p = d.1
      · subst hpd; simp [hnd]
      · rw [upd_other _ _ hpd, upd_other _ _ hp]
    · refine (seg_append _ _ _ _).2 ⟨d.1, ?_, rfl, hd0, a, ?_, rfl, ha0, nx, ?_, ?_⟩
      · refine seg_frame _ _ _ ?_ hs1
        intro e he
        show upd (upd m.nodes a _) d.1 _ e.1 = m.nodes e.1
        rw [upd_other _ _ (hpre_d e he), upd_other _ _ (hpre_a e he)]
      · show upd (upd m.nodes a _) d.1 _ d.1 = _
        simp
      · show upd (upd m.nodes a _) d.1 _ a = _
        rw [upd_other _ _ (Ne.symm hda)]; simp
      · refine seg_frame _ _ _ ?_ hs3
        intro e he
        show upd (upd m.nodes a _) d.1 _ e.1 = m.nodes e.1
        rw [upd_other _ _ (hpost_d e he), upd_other _ _ (hpost_a e he)]
    · intro e he
      simp only [List.mem_append, List.mem_cons] at he
      rcases he with he | he | he | he
      · exact hb e (List.mem_of_mem_take he)
      · rw [he]; exact hb d hdmem
      · rw [he]; exact hab
      · exact hb e (List.mem_of_mem_drop he)

/-- The invariant is kept by `linked_list_remove`. -/
theorem remove_inv {R : Registry} {m m1 : Mem} {ll : Ptr} {index : Nat} {b : Bool}
    (hinv : ReachInv m ll) (h : linked_list_remove R m ll index = .ok (b, m1)) :
    ReachInv m1 ll := by
  have hinv0 := hinv
  obtain ⟨hll, L, cs, hL, hseg, hb, hsz, hemp⟩ := hinv
  by_cases hR : R.free_fptr = NULL
  · simp [linked_list_remove, hR] at h
    rw [← h.2]; exact hinv0
  by_cases hge : index ≥ L.size
  · simp [linked_list_remove, hll, hR, Mem.list_at, hL, hge] at h
    rw [← h.2]; exact hinv0
  have hlt : ¬ (L.size ≤ index) := hge
  by_cases h0 : index = 0
  · by_cases hone : L.size = 1
    · -- the only element
      cases cs with
      | nil =>
        have hhead : L.head = NULL := hseg
        simp [linked_list_remove, hll, hR, Mem.list_at, hL, h0, hone, hhead, Mem.free_node,
          Mem.set_list] at h
        obtain ⟨_, hm⟩ := h
        subst hm
        refine inv_after_remove NULL NULL NULL [] hll hsz (fun p _ => rfl) (by simp [hone])
          (fun _ => ⟨rfl, rfl⟩) rfl (by simp)
      | cons c rest =>
        obtain ⟨hhead, hc0, nx, hnc, _⟩ := hseg
        simp [linked_list_remove, hll, hR, Mem.list_at, hL, h0, hone, hhead, hc0, hnc,
          Mem.free_node, Mem.set_list] at h
        obtain ⟨_, hm⟩ := h
        subst hm
        refine inv_after_remove c.1 NULL NULL [] hll hsz ?_ (by simp [hone])
          (fun _ => ⟨rfl, rfl⟩) rfl (by simp)
        intro p hp
        show (upd m.nodes c.1 none p).isSome = _
        rw [upd_other _ _ hp]
    · -- more than one element
      have hsize0 : ¬ (L.size = 0) := by omega
      cases cs with
      | nil =>
        have hhead : L.head = NULL := hseg
        simp [linked_list_remove, hll, hR, Mem.list_at, hL, h0, hone, hsize0, hhead,
          Mem.node_at] at h
      | cons c rest =>
        have hsplit : c :: rest = [] ++ c :: rest := rfl
        obtain ⟨_, _, _, _, hrest_c, _⟩ := chain_split hseg hsplit
        obtain ⟨hhead, hc0, nx, hnc, hrest⟩ := hseg
        simp [linked_list_remove, hll, hR, Mem.list_at, hL, h0, hone, hsize0, hhead, hc0, hnc,
          Mem.node_at, Mem.free_node, Mem.set_list] at h
        obtain ⟨_, hm⟩ := h
        subst hm
        refine inv_after_remove c.1 nx L.tail rest hll hsz ?_ (by simp) ?_ ?_
          (fun e he => hb e (List.mem_cons_of_mem _ he))
        · intro p hp
          show (upd m.nodes c.1 none p).isSome = _
          rw [upd_other _ _ hp]
        · intro hz; omega
        · refine seg_frame rest _ _ ?_ hrest
          intro e he
          show upd m.nodes c.1 none e.1 = m.nodes e.1
          rw [upd_other _ _ (hrest_c e he)]
  · -- an interior index: `size` is at least 2
    have hsize2 : L.size - 1 = 0 → False := by omega
    cases cs with
    | nil =>
      have hhead : L.head = NULL := hseg
      have hpop := populate_null_head hll hL (by omega) hhead uninit_iterator
      simp [linked_list_remove, hll, hR, Mem.list_at, hL, hlt, h0, hpop] at h
    | cons c0 rest =>
      have hpop := populate_chain hll hL (by omega) hseg uninit_iterator
      obtain ⟨j, d, hd, hwalk⟩ := walk_chain hseg hb ll index index 0 c0 (by simp) (by omega)
        (by omega)
      have hsplit := split_at_pos hd
      obtain ⟨hs1, hd0, ⟨nx, hnd, hs3⟩, hpre_d, hpost_d, hpre_post⟩ := chain_split hseg hsplit
      have hdmem : d ∈ c0 :: rest := by rw [hsplit]; simp
      have hbpre : ∀ e ∈ (c0 :: rest).take j ++ [d], e.1 < SIZE_MOD := by
        intro e he
        simp only [List.mem_append, List.mem_singleton] at he
        rcases he with he | he
        · exact hb e (List.mem_of_mem_take he)
        · rw [he]; exact hb d hdmem
      generalize hpost : (c0 :: rest).drop (j + 1) = post at hs3 hpost_d hpre_post hsplit
      cases post with
      | nil =>
        -- the walk stopped on the last cell: `toBeDeteled` is NULL
        have hnx : nx = NULL := hs3
        subst hnx
        by_cases htl : NULL = L.tail
        · simp [linked_list_remove, hll, hR, Mem.list_at, hL, hlt, h0, hpop, hwalk, Mem.node_at,
            hd0, hnd, ← htl, Mem.set_node, Mem.set_list, Mem.free_node] at h
          obtain ⟨_, hm⟩ := h
          subst hm
          refine inv_after_remove NULL L.head d.1 ((c0 :: rest).take j ++ [d]) hll hsz ?_
            (by simp) (fun hz => (hsize2 hz).elim) ?_ hbpre
          · intro p _
            show (upd m.nodes d.1 _ p).isSome = _
            by_cases hpd : p = d.1
            · subst hpd; simp [hnd]
            · rw [upd_other _ _ hpd]
          · refine (seg_append _ _ _ _).2 ⟨d.1, ?_, rfl, hd0, NULL, ?_, rfl⟩
            · refine seg_frame _ _ _ ?_ hs1
              intro e he
              show upd m.nodes d.1 _ e.1 = m.nodes e.1
              rw [upd_other _ _ (hpre_d e he)]
            · show upd m.nodes d.1 _ d.1 = _
              simp
        · have htl1 : ¬ (L.tail = NULL) := fun e => htl e.symm
          simp [linked_list_remove, hll, hR, Mem.list_at, hL, hlt, h0, hpop, hwalk, Mem.node_at,
            hd0, hnd, htl, htl1] at h
      | cons t post1 =>
        obtain ⟨hnt, ht0, ny, hnodet, hs4⟩ := hs3
        subst hnt
        have htd : t.1 ≠ d.1 := hpost_d t (by simp)
        have hpre_t : ∀ e ∈ (c0 :: rest).take j, e.1 ≠ t.1 := fun e he =>
          hpre_post e he t (by simp)
        have hnd1 := seg_null_nodup _ _ (show Seg m.nodes t.1 (t :: post1) NULL from
          ⟨rfl, ht0, ny, hnodet, hs4⟩)
        have hpost_t : ∀ e ∈ post1, e.1 ≠ t.1 := by
          intro e he heq
          rw [List.map_cons, List.nodup_cons] at hnd1
          exact hnd1.1 (heq ▸ List.mem_map_of_mem _ he)
        have hpost_d1 : ∀ e ∈ post1, e.1 ≠ d.1 := fun e he =>
          hpost_d e (List.mem_cons_of_mem _ he)
        have hl : ∀ (x : node) (p : Ptr), p ≠ t.1 →
            (upd (upd m.nodes d.1 (some x)) t.1 none p).isSome = (m.nodes p).isSome := by
          intro x p hp
          rw [upd_other _ _ hp]
          by_cases hpd : p = d.1
          · subst hpd; simp [hnd]
          · rw [upd_other _ _ hpd]
        by_cases htl : t.1 = L.tail
        · simp [linked_list_remove, hll, hR, Mem.list_at, hL, hlt, h0, hpop, hwalk, Mem.node_at,
            hd0, hnd, ← htl, Mem.set_node, Mem.set_list, Mem.free_node, ht0,
            upd_other _ _ htd, hnodet] at h
          obtain ⟨_, hm⟩ := h
          subst hm
          refine inv_after_remove t.1 L.head d.1 ((c0 :: rest).take j ++ [d]) hll hsz
            (hl _) (by simp) (fun hz => (hsize2 hz).elim) ?_ hbpre
          refine (seg_append _ _ _ _).2 ⟨d.1, ?_, rfl, hd0, NULL, ?_, rfl⟩
          · refine seg_frame _ _ _ ?_ hs1
            intro e he
            show upd (upd m.nodes d.1 _) t.1 none e.1 = m.nodes e.1
            rw [upd_other _ _ (hpre_t e he), upd_other _ _ (hpre_d e he)]
          · show upd (upd m.nodes d.1 _) t.1 none d.1 = _
            rw [upd_other _ _ (Ne.symm htd)]; simp
        · simp [linked_list_remove, hll, hR, Mem.list_at, hL, hlt, h0, hpop, hwalk, Mem.node_at,
            hd0, hnd, htl, Mem.set_node, Mem.set_list, Mem.free_node, ht0,
            upd_other _ _ htd, hnodet] at h
          obtain ⟨_, hm⟩ := h
          subst hm
          refine inv_after_remove t.1 L.head L.tail ((c0 :: rest).take j ++ d :: post1) hll hsz
            (hl _) (by simp) (fun hz => (hsize2 hz).elim) ?_ ?_
          · refine (seg_append _ _ _ _).2 ⟨d.1, ?_, rfl, hd0, ny, ?_, ?_⟩
            · refine seg_frame _ _ _ ?_ hs1
              intro e he
              show upd (upd m.nodes d.1 _) t.1 none e.1 = m.nodes e.1
              rw [upd_other _ _ (hpre_t e he), upd_other _ _ (hpre_d e he)]
            · show upd (upd m.nodes d.1 _) t.1 none d.1 = _
              rw [upd_other _ _ (Ne.symm htd)]; simp
            · refine seg_frame _ _ _ ?_ hs4
              intro e he
              show upd (upd m.nodes d.1 _) t.1 none e.1 = m.nodes e.1
              rw [upd_other _ _ (hpost_t e he), upd_other _ _ (hpost_d1 e he)]
          · intro e he
            simp only [List.mem_append, List.mem_cons] at he
            rcases he with he | he | he
            · exact hb e (List.mem_of_mem_take he)
            · rw [he]; exact hb d hdmem
            · apply hb e
              rw [hsplit]
              simp [he]

/-- The list of `stale_tail_mem` is reachable. -/
theorem stale_tail_reach : ListReach 64 stale_tail_mem :=
  ListReach.insert registered _ _ 24 1 99 true
    (ListReach.insert_end registered _ _ 16 2 true
      (ListReach.insert_end registered _ _ 8 1 true
        (ListReach.create registered Mem.empty _ 64 rfl (by decide))
        (Or.inr (by decide)) rfl)
      (Or.inr (by decide)) rfl)
    (Or.inr (by decide)) rfl

/-- The list of `two_inserts_mem` is reachable. -/
theorem two_inserts_reach : ListReach 64 two_inserts_mem :=
  ListReach.insert_front registered _ _ 16 5 true
    (ListReach.insert_end registered _ _ 8 10 true
      (ListReach.create registered Mem.empty _ 64 rfl (by decide))
      (Or.inr (by decide)) rfl)
    (Or.inr (by decide)) rfl

/-! ## Properties of reachable lists -/

/-- Every reachable list satisfies the invariant. -/
theorem list_reach_inv {ll : Ptr} {m : Mem} (h : ListReach ll m) :
    ReachInv m ll := by
  induction h with
  | create R m0 m al hc hll =>
    by_cases hR : R.malloc_fptr = NULL
    · simp [linked_list_create, hR] at hc
      exact absurd hc.1.symm hll
    by_cases hal : al = NULL
    · simp [linked_list_create, hal] at hc
      exact absurd hc.1.symm hll
    simp [linked_list_create, hR, hal] at hc
    obtain ⟨hal1, hm⟩ := hc
    subst hal1 hm
    exact ⟨hll, ⟨NULL, NULL, 0⟩, [], by simp [Mem.set_list], rfl, by simp, Nat.zero_le _,
      fun _ => ⟨rfl, rfl⟩⟩
  | insert_end R m m1 a v b _ ha hrun ih => exact insert_end_inv ih ha hrun
  | insert_front R m m1 a v b _ ha hrun ih => exact insert_front_inv ih ha hrun
  | insert R m m1 a index v b _ ha hrun ih => exact insert_inv ih ha hrun
  | remove R m m1 index b _ hrun ih => exact remove_inv ih hrun
  | other m m1 _ hn hl ih =>
    obtain ⟨hll, L, cs, hL, hseg, hb, hsz, hemp⟩ := ih
    exact ⟨hll, L, cs, by rw [hl]; exact hL, by rw [hn]; exact hseg, hb, by rw [hn]; exact hsz,
      hemp⟩

/-- A reachable list struct is live, and its head and tail are NULL when its
size is 0. -/
theorem list_reach_empty {ll : Ptr} {m : Mem} (h : ListReach ll m) :
    ll ≠ NULL ∧ ∃ L, m.lists ll = some L ∧ (L.size = 0 → L.head = NULL ∧ L.tail = NULL) := by
  obtain ⟨hll, L, _, hL, _, _, _, hemp⟩ := list_reach_inv h
  exact ⟨hll, L, hL, hemp⟩

/-- C15. With both allocator functions registered, for every list built by
the list functions (reachable from `linked_list_create` by insertions and
removals; `L` is its struct), every value and the same allocation outcome `a`:
`linked_list_insert(ll, size, v)` returns the same result and leaves the same
memory as `linked_list_insert_end(ll, v)`, and `linked_list_insert(ll, 0, v)`
the same as `linked_list_insert_front(ll, v)`. The same holds for the NULL
list, at every index. For size 0 the first pair is `linked_list_insert_front`
against `linked_list_insert_end`, the index 0 test coming first; they agree
because a reachable list of size 0 has a NULL head and a NULL tail. -/
theorem insert_at_ends_delegates (R : Registry) (a : Ptr) (m : Mem) (ll : Ptr)
    (L : linked_list) (v : Nat) (hRm : R.malloc_fptr ≠ NULL) (hRf : R.free_fptr ≠ NULL)
    (hreach : ListReach ll m) (hL : m.lists ll = some L) :
    linked_list_insert R a m ll L.size v = linked_list_insert_end R a m ll v ∧
    linked_list_insert R a m ll 0 v = linked_list_insert_front R a m ll v ∧
    (∀ i, linked_list_insert R a m NULL i v = linked_list_insert_end R a m NULL v) ∧
    (∀ i, linked_list_insert R a m NULL i v = linked_list_insert_front R a m NULL v) := by
  obtain ⟨_, L1, hL1, hemp⟩ := list_reach_empty hreach
  rw [hL] at hL1
  have hLeq : L = L1 := Option.some.inj hL1
  subst hLeq
  obtain ⟨h1, h2⟩ := insert_delegates_of_empty_inv R a m ll L v hRm hRf hL hemp
  exact ⟨h1, h2, fun i => by simp [linked_list_insert, linked_list_insert_end],
    fun i => by simp [linked_list_insert, linked_list_insert_front]⟩

/-- Instance of the delegation property: the list `[5, 10]` reached by create,
insert_end(10) and insert_front(5), whose size is 2. Inserting 7 at index 2
takes the `index == size` branch and appends (`[5, 10, 7]`); inserting at
index 0 prepends (`[7, 5, 10]`). -/
theorem insert_at_ends_delegates_witness :
    registered.malloc_fptr ≠ NULL ∧ registered.free_fptr ≠ NULL ∧
    ListReach 64 two_inserts_mem ∧
    two_inserts_mem.lists 64 = some ⟨16, 8, 2⟩ ∧
    (linked_list_insert registered 32 two_inserts_mem 64 (⟨16, 8, 2⟩ : linked_list).size 7 =
      linked_list_insert_end registered 32 two_inserts_mem 64 7 ∧
    linked_list_insert registered 32 two_inserts_mem 64 0 7 =
      linked_list_insert_front registered 32 two_inserts_mem 64 7 ∧
    (∀ i, linked_list_insert registered 32 two_inserts_mem NULL i 7 =
      linked_list_insert_end registered 32 two_inserts_mem NULL 7) ∧
    (∀ i, linked_list_insert registered 32 two_inserts_mem NULL i 7 =
      linked_list_insert_front registered 32 two_inserts_mem NULL 7)) ∧
    (∃ m1 m2, linked_list_insert registered 32 two_inserts_mem 64 2 7 = .ok (true, m1) ∧
      linked_list_values m1 64 = some [5, 10, 7] ∧
      linked_list_insert registered 32 two_inserts_mem 64 0 7 = .ok (true, m2) ∧
      linked_list_values m2 64 = some [7, 5, 10]) :=
  ⟨by decide, by decide, two_inserts_reach, rfl,
    insert_at_ends_delegates registered 32 two_inserts_mem 64 ⟨16, 8, 2⟩ 7 (by decide)
      (by decide) two_inserts_reach rfl,
    ⟨_, _, rfl, rfl, rfl, rfl⟩⟩

/-- On a list that satisfies the invariant, with the allocator returning NULL,
`linked_list_insert` returns false and leaves the memory unchanged, except for
an interior index of a list whose head is NULL: there the call reads through
the NULL head in `__linked_list_populate_iterator`, before the allocation and
whatever the allocator would return. -/
theorem insert_alloc_fail_inv {R : Registry} {m : Mem} {ll : Ptr} (index v : Nat)
    (hinv : ReachInv m ll) :
    linked_list_insert R NULL m ll index v = .ok (false, m) ∨
      ∃ L, m.lists ll = some L ∧ L.head = NULL ∧ 0 < index ∧ index < L.size ∧
        ∀ a, linked_list_insert R a m ll index v = .ub := by
  have hfront : linked_list_insert_front R NULL m ll v = .ok (false, m) := by
    simp [linked_list_insert_front]
  have hend : linked_list_insert_end R NULL m ll v = .ok (false, m) := by
    simp [linked_list_insert_end]
  obtain ⟨hll, L, cs, hL, hseg, hb, _, _⟩ := hinv
  by_cases hR : R.malloc_fptr = NULL ∨ R.free_fptr = NULL
  · left
    rcases hR with hR | hR <;> simp [linked_list_insert, hR]
  simp only [not_or] at hR
  by_cases hgt : index > L.size
  · left
    simp [linked_list_insert, hll, hR.1, hR.2, Mem.list_at, hL, hgt]
  have hle : ¬ (L.size < index) := hgt
  by_cases h0 : index = 0
  · left
    simp [linked_list_insert, hll, hR.1, hR.2, Mem.list_at, hL, h0, hfront]
  by_cases hn : index = L.size
  · left
    have hne : L.size ≠ 0 := fun e => h0 (hn.trans e)
    simp [linked_list_insert, hll, hR.1, hR.2, Mem.list_at, hL, hn, hne, hend]
  cases cs with
  | nil =>
    right
    have hhead : L.head = NULL := hseg
    have hpop := populate_null_head hll hL (by omega) hhead uninit_iterator
    refine ⟨L, hL, hhead, by omega, by omega, fun a => ?_⟩
    simp [linked_list_insert, hll, hR.1, hR.2, Mem.list_at, hL, hle, h0, hn, hpop]
  | cons c0 rest =>
    left
    have hpop := populate_chain hll hL (by omega) hseg uninit_iterator
    obtain ⟨j, d, hd, hwalk⟩ := walk_chain hseg hb ll index index 0 c0 (by simp) (by omega)
      (by omega)
    simp [linked_list_insert, hll, hR.1, hR.2, Mem.list_at, hL, hle, h0, hn, hpop, hwalk]

/-- C21. When the node allocation fails (the allocator returns NULL):
`linked_list_insert_end` and `linked_list_insert_front` return false and leave
the whole memory unchanged, for every memory and list pointer. On every list
built by the list functions (reachable from `linked_list_create` by insertions
and removals, well formed or not) and for every index, `linked_list_insert`
returns false and leaves the whole memory unchanged, also at an interior index
after the walk; the one exception is an interior index of a list whose head is
NULL, where the call never gets to the allocation: it reads through the NULL
head in `__linked_list_populate_iterator`, whatever the allocator would
return. In particular the call returns false on every reachable list with a
non-NULL head. On no memory at all can `linked_list_insert` return true or a
changed memory when the allocator returns NULL. -/
theorem alloc_failure_leaves_list (R : Registry) (m : Mem) (ll : Ptr) (index v : Nat)
    (hreach : ListReach ll m) :
    (∀ (m0 : Mem) (l0 : Ptr), linked_list_insert_end R NULL m0 l0 v = .ok (false, m0)) ∧
    (∀ (m0 : Mem) (l0 : Ptr), linked_list_insert_front R NULL m0 l0 v = .ok (false, m0)) ∧
    (linked_list_insert R NULL m ll index v = .ok (false, m) ∨
      ∃ L, m.lists ll = some L ∧ L.head = NULL ∧ 0 < index ∧ index < L.size ∧
        ∀ a, linked_list_insert R a m ll index v = .ub) ∧
    (∀ L, m.lists ll = some L → L.head ≠ NULL →
      linked_list_insert R NULL m ll index v = .ok (false, m)) ∧
    (∀ (m0 : Mem) (l0 : Ptr) (i : Nat) (b : Bool) (m1 : Mem),
      linked_list_insert R NULL m0 l0 i v = .ok (b, m1) → b = false ∧ m1 = m0) := by
  have hmain := insert_alloc_fail_inv (R := R) index v (list_reach_inv hreach)
  refine ⟨fun m0 l0 => by simp [linked_list_insert_end],
    fun m0 l0 => by simp [linked_list_insert_front], hmain, ?_,
    fun m0 l0 i b m1 h => insert_alloc_fail_partial R m0 l0 i v b m1 h⟩
  intro L hL hhead
  rcases hmain with h | ⟨L1, hL1, hh, _⟩
  · exact h
  · rw [hL] at hL1
    have hLeq : L = L1 := Option.some.inj hL1
    subst hLeq
    exact absurd hh hhead

/-- Instance of the allocation-failure property: interior index 2 of the list
reached by create, insert_end(1), insert_end(2) and insert(ll, 1, 99), whose
tail is stale (the chain is 8, 16, 24 but the tail is the node at 16): the
walk completes, the allocation fails and the call returns false with the
memory unchanged. -/
theorem alloc_failure_leaves_list_witness :
    ListReach 64 stale_tail_mem ∧
    stale_tail_mem.lists 64 = some ⟨8, 16, 3⟩ ∧ stale_tail_mem.nodes 16 = some ⟨24, 2⟩ ∧
    linked_list_insert registered NULL stale_tail_mem 64 2 5 = .ok (false, stale_tail_mem) ∧
    ((∀ (m0 : Mem) (l0 : Ptr), linked_list_insert_end registered NULL m0 l0 5 = .ok (false, m0)) ∧
    (∀ (m0 : Mem) (l0 : Ptr),
      linked_list_insert_front registered NULL m0 l0 5 = .ok (false, m0)) ∧
    (linked_list_insert registered NULL stale_tail_mem 64 2 5 = .ok (false, stale_tail_mem) ∨
      ∃ L, stale_tail_mem.lists 64 = some L ∧ L.head = NULL ∧ 0 < 2 ∧ 2 < L.size ∧
        ∀ a, linked_list_insert registered a stale_tail_mem 64 2 5 = .ub) ∧
    (∀ L, stale_tail_mem.lists 64 = some L → L.head ≠ NULL →
      linked_list_insert registered NULL stale_tail_mem 64 2 5 = .ok (false, stale_tail_mem)) ∧
    (∀ (m0 : Mem) (l0 : Ptr) (i : Nat) (b : Bool) (m1 : Mem),
      linked_list_insert registered NULL m0 l0 i 5 = .ok (b, m1) → b = false ∧ m1 = m0)) :=
  ⟨stale_tail_reach, rfl, rfl, rfl,
    alloc_failure_leaves_list registered stale_tail_mem 64 2 5 stale_tail_reach⟩

/-! ## Populating on a list with a NULL head -/

/-- C22 (evaluation). After create, insert_end(1), insert_end(2),
`linked_list_insert(ll, 1, 99)`, insert_end(5) and three
`linked_list_remove(ll, 0)`, all successful, the list is not NULL and its
size is 1, so index 0 is below the size; but its head is NULL, and
`__linked_list_populate_iterator(ll, 0, &it)` does not succeed: its traversal
loop stops on the NULL head and `iterator->data = curr->data` reads through
it. `linked_list_create_iterator(ll, 0)` and `linked_list_find` do the same.
On the list before the three removals the same call succeeds. -/
theorem populate_reads_through_null_head :
    ∃ ll m0 m1 m2 m3 m4 m5 m6 m7,
      linked_list_create registered 64 Mem.empty = .ok (ll, m0) ∧
      linked_list_insert_end registered 8 m0 ll 1 = .ok (true, m1) ∧
      linked_list_insert_end registered 16 m1 ll 2 = .ok (true, m2) ∧
      linked_list_insert registered 24 m2 ll 1 99 = .ok (true, m3) ∧
      linked_list_insert_end registered 32 m3 ll 5 = .ok (true, m4) ∧
      linked_list_remove registered m4 ll 0 = .ok (true, m5) ∧
      linked_list_remove registered m5 ll 0 = .ok (true, m6) ∧
      linked_list_remove registered m6 ll 0 = .ok (true, m7) ∧
      AllocOk m0 8 ∧ AllocOk m1 16 ∧ AllocOk m2 24 ∧ AllocOk m3 32 ∧
      ll ≠ NULL ∧ m7.lists ll = some ⟨NULL, 32, 1⟩ ∧ linked_list_size m7 ll = .ok 1 ∧
      __linked_list_populate_iterator m7 ll 0 (some uninit_iterator) = .ub ∧
      linked_list_create_iterator registered 40 m7 ll 0 = .ub ∧
      linked_list_find 1 m7 ll 5 = .ub ∧
      __linked_list_populate_iterator m4 ll 0 (some uninit_iterator) =
        .ok (true, some ⟨ll, 8, 0, 1⟩) :=
  ⟨_, _, _, _, _, _, _, _, _, rfl, rfl, rfl, rfl, rfl, rfl, rfl, rfl, by decide, by decide,
    by decide, by decide, by decide, rfl, rfl, rfl, rfl, rfl, rfl⟩

/-- A reachable list on which an interior insert does not get to its
allocation: after create, insert_end(1), insert_end(2), insert(ll, 1, 99),
insert_end(5), three remove(ll, 0) and an insert_end(6) whose node reuses the
address 32 freed last, the head is NULL and the size is 2, and
`linked_list_insert(ll, 1, 7)` reads through the NULL head, whatever the
allocator would return. -/
theorem insert_stops_before_allocation :
    ∃ m8, ListReach 64 m8 ∧ m8.lists 64 = some ⟨NULL, 32, 2⟩ ∧
      ∀ a, linked_list_insert registered a m8 64 1 7 = .ub :=
  ⟨_, ListReach.insert_end registered _ _ 32 6 true
      (ListReach.remove registered _ _ 0 true
        (ListReach.remove registered _ _ 0 true
          (ListReach.remove registered _ _ 0 true
            (ListReach.insert_end registered _ _ 32 5 true stale_tail_reach (Or.inr (by decide)) rfl)
            rfl)
          rfl)
        rfl)
      (Or.inr (by decide)) rfl,
    rfl, fun _ => rfl⟩

end Level2
